import Mathlib

/-!
# libtcs (tcs2): overlay merge, group selection and typed getters

A shallow embedding of `src/tcs2/src/tcs.c`.

The library works on a libxml2 document tree.  A node of that tree is an
`XmlNode`; the sibling chain hanging off a node pointer (`node`, `node->next`,
`node->next->next`, ...) is a `List XmlNode`, so that an `xmlNodePtr` is the
list made of the node it points to followed by its later siblings and `NULL` is
the empty list.  The code under study only ever follows `->next` and
`->children` from a pointer it holds (and `->parent` to append to the parent of
`root_node`), which this representation covers.

A run that ends in `abort()` (a failed `ASSERT`) or that dereferences `NULL`
yields a `Fault` instead of a result.
-/

set_option autoImplicit false

namespace Tcs

/-! ## The document tree (libxml2) -/

/-- A node of the document tree: an element (`XML_ELEMENT_NODE`) with its tag
name, attributes and children, a text node or a comment. -/
inductive XmlNode where
  | element (name : String) (attrs : List (String × String)) (children : List XmlNode)
  | text (content : String)
  | comment (content : String)
  deriving Repr, Inhabited

/-- How a run can end without returning. -/
inductive Fault where
  /-- An `ASSERT` did not hold: the process aborts. -/
  | assertion
  /-- A `NULL` pointer was dereferenced. -/
  | null_deref
  deriving DecidableEq, Repr

namespace XmlNode

/-- Test `node->type == XML_ELEMENT_NODE`. -/
def isElement : XmlNode → Bool
  | element _ _ _ => true
  | _ => false

/-- Field `node->name`; libxml2 names text nodes "text" and comments "comment". -/
def name : XmlNode → String
  | element n _ _ => n
  | text _ => "text"
  | comment _ => "comment"

/-- Field `node->children` (`NULL`, the empty list, when there is none). -/
def children : XmlNode → List XmlNode
  | element _ _ c => c
  | _ => []

/-- The node with its child list replaced. -/
def setChildren : XmlNode → List XmlNode → XmlNode
  | element n a _, c => element n a c
  | other, _ => other

end XmlNode

/-- The element children of a child list, in document order. -/
def elements (l : List XmlNode) : List XmlNode :=
  l.filter XmlNode.isElement

/-- Library call `xmlGetProp`: the value of the attribute, `none` for `NULL`. -/
def xmlGetProp : XmlNode → String → Option String
  | .element _ attrs _, prop => attrs.lookup prop
  | _, _ => none

mutual
/-- Library call `xmlNodeGetContent`: the text of the node, that is the
concatenation of the text nodes below it. -/
def xmlNodeGetContent : XmlNode → String
  | .element _ _ cs => xmlNodeListGetContent cs
  | .text s => s
  | .comment s => s
/-- The text carried by a child list of an element (comments carry none). -/
def xmlNodeListGetContent : List XmlNode → String
  | [] => ""
  | .comment _ :: cs => xmlNodeListGetContent cs
  | c :: cs => xmlNodeGetContent c ++ xmlNodeListGetContent cs
end

/-- Where `xmlStringGetNodeList` stands in the value it reads: in plain text,
after a `&`, after `&#`, in the digits of a character reference (with the `int`
read so far), or in the name of an entity (with the characters read so far). -/
inductive ref_mode where
  | text
  | amp
  | hash
  | hex (charval : Int)
  | dec (charval : Int)
  | name (chars : List Char)
  deriving Repr

/-- The variables of `xmlStringGetNodeList`: where it stands, the text buffer, and
the nodes made so far. -/
structure ref_state where
  mode : ref_mode
  buf : List Char
  nodes : List XmlNode
  deriving Repr

/-- The value of an `int` computation as a 32-bit `int` holds it. -/
def wrap_int (v : Int) : Int :=
  (v + 2147483648) % 4294967296 - 2147483648

/-- The value of a character taken as a digit of a character reference, in base
10 or 16. -/
def ref_digit (base : Nat) (c : Char) : Option Int :=
  if '0' ≤ c ∧ c ≤ '9' then some ((c.toNat : Int) - 48)
  else if base = 16 ∧ 'a' ≤ c ∧ c ≤ 'f' then some ((c.toNat : Int) - 87)
  else if base = 16 ∧ 'A' ≤ c ∧ c ≤ 'F' then some ((c.toNat : Int) - 55)
  else none

/-- What `xmlCopyCharMultiByte` adds to the text for the value of a character
reference: nothing for 0 and for a value from 0x110000 on, the character of that
code otherwise; a negative value (the `int` has wrapped) is stored as one byte.
A code or a byte that is no character (a surrogate, a byte from 0x80 on) has no
counterpart in the text of the model and is left out. -/
def charval_text (charval : Int) : List Char :=
  if charval < 0 then
    if 0 < charval % 256 ∧ charval % 256 < 128 then [Char.ofNat (charval % 256).toNat] else []
  else if charval = 0 ∨ 1114112 ≤ charval then []
  else if 55296 ≤ charval ∧ charval ≤ 57343 then []
  else [Char.ofNat charval.toNat]

/-- The entities that every document has (`xmlGetPredefinedEntity`): `lt`, `gt`,
`amp`, `apos` (the apostrophe, character 39) and `quot` (the double quote,
character 34). -/
def predefined_entity (name : List Char) : Option Char :=
  if name = ['l', 't'] then some '<'
  else if name = ['g', 't'] then some '>'
  else if name = ['a', 'm', 'p'] then some '&'
  else if name = ['a', 'p', 'o', 's'] then some (Char.ofNat 39)
  else if name = ['q', 'u', 'o', 't'] then some (Char.ofNat 34)
  else none

/-- The text buffer made a text node, when it holds something. -/
def ref_flush (s : ref_state) : List XmlNode :=
  s.nodes ++ (if s.buf.isEmpty then [] else [.text (String.mk s.buf)])

/-- One character of plain text: `&` opens a reference, any other character
goes to the text. -/
def ref_text_step (s : ref_state) (c : Char) : ref_state :=
  if c = '&' then { s with mode := .amp } else { s with mode := .text, buf := s.buf ++ [c] }

/-- One character in the decimal digits of a character reference.  A character
that is neither a digit nor `;` ends the reference, which then stands for
nothing, and is read as plain text. -/
def ref_dec_step (s : ref_state) (charval : Int) (c : Char) : ref_state :=
  if c = ';' then { s with mode := .text, buf := s.buf ++ charval_text charval }
  else
    match ref_digit 10 c with
    | some d => { s with mode := .dec (wrap_int (charval * 10 + d)) }
    | none => ref_text_step s c

/-- One turn of the loop of `xmlStringGetNodeList` (libxml2 2.9, tree.c), for a
document that declares no entity.  A reference to a predefined entity and a
character reference add a character to the text; a reference to another name
closes the text read so far into a text node and makes an entity-reference
node, which has no content and which the tree of the model leaves out. -/
def ref_step (s : ref_state) (c : Char) : ref_state :=
  match s.mode with
  | .text => ref_text_step s c
  | .amp =>
    if c = '#' then { s with mode := .hash }
    else if c = ';' then { s with mode := .text }
    else { s with mode := .name [c] }
  | .hash => if c = 'x' then { s with mode := .hex 0 } else ref_dec_step s 0 c
  | .hex charval =>
    if c = ';' then { s with mode := .text, buf := s.buf ++ charval_text charval }
    else
      match ref_digit 16 c with
      | some d => { s with mode := .hex (wrap_int (charval * 16 + d)) }
      | none => ref_text_step s c
  | .dec charval => ref_dec_step s charval c
  | .name chars =>
    if c = ';' then
      match predefined_entity chars with
      | some ch => { s with mode := .text, buf := s.buf ++ [ch] }
      | none => { mode := .text, buf := [], nodes := ref_flush s }
    else { s with mode := .name (chars ++ [c]) }

/-- Library call `xmlStringGetNodeList` (libxml2 2.9): the nodes that stand for a
value read as XML content.  At the end of the value the text read is closed into
a text node; when the value ends inside an entity reference (a `&` without its
`;`) the function gives up and returns the nodes made before, the text read since
being lost. -/
def xmlStringGetNodeList (value : String) : List XmlNode :=
  let s := value.toList.foldl ref_step { mode := .text, buf := [], nodes := [] }
  match s.mode with
  | .amp => s.nodes
  | .name _ => s.nodes
  | _ => ref_flush s

/-- Library call `xmlNodeSetContent`: the children of an element are replaced by
the nodes `xmlStringGetNodeList` makes of the content, which it reads as XML
content and not as plain text: one text node holding the content when the content
holds no `&`, nothing for an empty content. -/
def xmlNodeSetContent : XmlNode → String → XmlNode
  | .element n a _, v => .element n a (xmlStringGetNodeList v)
  | .text _, v => .text v
  | .comment _, v => .comment v

/-- Library call `xmlNewNode(NULL, name)`. -/
def xmlNewNode (name : String) : XmlNode := .element name [] []

/-- Library call `xmlNewProp`: one more attribute at the end of the list. -/
def xmlNewProp : XmlNode → String → String → XmlNode
  | .element n a c, k, v => .element n (a ++ [(k, v)]) c
  | other, _, _ => other

/-- Library call `xmlCopyNodeList`: a deep copy of the node *and of all the
siblings that follow it*. -/
def xmlCopyNodeList (node : List XmlNode) : List XmlNode := node

/-- Library call `xmlAddChildList`, on the child chain of the parent: the list
`cur` is linked after the last child; when `cur` starts with a text node and the
last child is a text node the two are merged. -/
def xmlAddChildList (children cur : List XmlNode) : List XmlNode :=
  match cur, children.getLast? with
  | .text c :: rest, some (.text l) => children.dropLast ++ .text (l ++ c) :: rest
  | _, _ => children ++ cur

/-- Library call `xmlAddChild`, on the child chain of the parent. -/
def xmlAddChild (children : List XmlNode) (cur : XmlNode) : List XmlNode :=
  xmlAddChildList children [cur]

/-! ## Constants of `tcs.c` -/

abbrev ATTR_KEY : String := "key"
abbrev ATTR_NAME : String := "name"
abbrev ATTR_OVERLAY_MODE : String := "overlay"
abbrev TAG_GROUP : String := "group"
abbrev TAG_CONFIG : String := "config"
abbrev TAG_LIST : String := "list"
abbrev TAG_STRING : String := "string"
abbrev TAG_INT : String := "int"
abbrev TAG_BOOL : String := "bool"
abbrev GROUP_SEPARATOR : Char := '.'

/-! ## Iteration and search -/

/-- Source `next_node` (tcs.c:165): `do cur = cur->next; while (cur && cur->type
!= XML_ELEMENT_NODE)`.  The node pointed to is left behind whatever its type:
the result is the first element strictly after it. -/
def next_node : List XmlNode → Except Fault (List XmlNode)
  | [] => .error .null_deref
  | _ :: rest => .ok (rest.dropWhile (fun n => !n.isElement))

/-- The nodes `next_node` leaves behind: the node pointed to and the
non-elements that follow it. -/
def passed_over : List XmlNode → List XmlNode
  | [] => []
  | n :: rest => n :: rest.takeWhile (fun n => !n.isElement)

/-- A node found in a sibling chain: the nodes of the chain before it, the node,
and the nodes after it.  The pointer returned by the C code is `node :: after`. -/
abbrev Found := List XmlNode × XmlNode × List XmlNode

/-- Moves a search result one node to the right (the chain got one more node in
front). -/
def shift (n : XmlNode) : Except Fault (Option Found) → Except Fault (Option Found)
  | .ok (some (before, node, after)) => .ok (some (n :: before, node, after))
  | r => r

/-- Body of the loop of `search_node` (tcs.c:224-232) at one node: does the node
match?  An element of the wanted tag without the attribute fails the assertion. -/
def search_visit (tag prop key : String) (node : XmlNode) : Except Fault Bool :=
  if node.name = tag then
    match xmlGetProp node prop with
    | none => .error .assertion
    | some attr => .ok (decide (key = attr))
  else .ok false

/-- The loop of `search_node` once it has left its first node: every further
node is reached through `next_node`, so only elements are visited. -/
def search_next (tag prop key : String) : List XmlNode → Except Fault (Option Found)
  | [] => .ok none
  | n :: rest =>
    if n.isElement then
      match search_visit tag prop key n with
      | .error e => .error e
      | .ok true => .ok (some ([], n, rest))
      | .ok false => shift n (search_next tag prop key rest)
    else shift n (search_next tag prop key rest)

/-- Source `search_node` (tcs.c:215): first node of the chain, starting with
`node` itself, whose name is `tag` and whose attribute `prop` equals `key`. -/
def search_node (node : List XmlNode) (tag prop key : String) : Except Fault (Option Found) :=
  match node with
  | [] => .error .assertion
  | n :: rest =>
    match search_visit tag prop key n with
    | .error e => .error e
    | .ok true => .ok (some ([], n, rest))
    | .ok false => shift n (search_next tag prop key rest)

/-- Source `search_group` (tcs.c:238). -/
def search_group (node : List XmlNode) (name : String) : Except Fault (Option Found) :=
  search_node node TAG_GROUP ATTR_NAME name

/-- Source `search_list` (tcs.c:243). -/
def search_list (node : List XmlNode) (name : String) : Except Fault (Option Found) :=
  search_node node TAG_LIST ATTR_NAME name

/-- Source `search_property` (tcs.c:248). -/
def search_property (node : List XmlNode) (tag key : String) : Except Fault (Option Found) :=
  search_node node tag ATTR_KEY key

/-! ## The overlay merge -/

/-- The `do ... while (cur)` of tcs.c:298-304 on the child chain of the
destination list: the first child is unlinked, then every element reached by
`next_node`.  What stays are the non-elements after the first child.  With no
child at all `next_node(cur)` reads through `NULL`. -/
def remove_list_nodes : List XmlNode → Except Fault (List XmlNode)
  | [] => .error .null_deref
  | _ :: rest => .ok (rest.filter (fun n => !n.isElement))

/-- Branch `TAG_LIST` of the loop of `parse_overlay_group` (tcs.c:282-322).
`following` are the siblings after `overlay_node`, `sibs` is the chain that
starts at `root_node`; the result is that chain after the step. -/
def overlay_list (overlay_node : XmlNode) (following sibs : List XmlNode) :
    Except Fault (List XmlNode) :=
  match xmlGetProp overlay_node ATTR_NAME with
  | none => .error .assertion
  | some list_name =>
    match search_list sibs list_name with
    | .error e => .error e
    | .ok (some (before, dest_node, after)) =>
      let overlay_mode := xmlGetProp overlay_node ATTR_OVERLAY_MODE
      let overwrite : Bool := decide (overlay_mode = some "overwrite")
      match (if overwrite then remove_list_nodes dest_node.children
             else .ok dest_node.children) with
      | .error e => .error e
      | .ok kept =>
        match next_node overlay_node.children with
        | .error e => .error e
        | .ok [] => if overwrite then .ok (before ++ dest_node.setChildren kept :: after)
                    else .error .assertion
        | .ok (s :: ss) =>
          .ok (before ++
            dest_node.setChildren (xmlAddChildList kept (xmlCopyNodeList (s :: ss))) :: after)
    | .ok none => .ok (xmlAddChildList sibs (xmlCopyNodeList (overlay_node :: following)))

/-- Last branch of the loop of `parse_overlay_group` (tcs.c:323-348): a
`string`, `int` or `bool` property. -/
def overlay_property (overlay_node : XmlNode) (sibs : List XmlNode) :
    Except Fault (List XmlNode) :=
  if overlay_node.name = TAG_STRING ∨ overlay_node.name = TAG_INT ∨
      overlay_node.name = TAG_BOOL then
    match xmlGetProp overlay_node ATTR_KEY with
    | none => .error .assertion
    | some key =>
      let value := xmlNodeGetContent overlay_node
      match search_property sibs overlay_node.name key with
      | .error e => .error e
      | .ok (some (before, dest_node, after)) =>
        .ok (before ++ xmlNodeSetContent dest_node value :: after)
      | .ok none =>
        .ok (xmlAddChild sibs
          (xmlNodeSetContent (xmlNewProp (xmlNewNode overlay_node.name) ATTR_KEY key) value))
  else .error .assertion

mutual
/-- Source `parse_overlay_group` (tcs.c:253): merges the children of
`overlay_node` into `root_node` and gives `root_node` as it is afterwards.  The
first equation is the case of an overlay node that has children (the loop then
starts after the first of them); in the second, `overlay_node->children` is
`NULL` and `next_node` reads through it once `root_node` has been stepped. -/
def parse_overlay_group : XmlNode → XmlNode → Except Fault XmlNode
  | .element _ _ (_ :: following), root_node =>
    match next_node root_node.children with
    | .error e => .error e
    | .ok [] => .error .assertion
    | .ok (r :: rs) =>
      match parse_overlay_siblings following (r :: rs) with
      | .error e => .error e
      | .ok sibs => .ok (root_node.setChildren (passed_over root_node.children ++ sibs))
  | _, root_node =>
    match next_node root_node.children with
    | .error e => .error e
    | .ok [] => .error .assertion
    | .ok _ => .error .null_deref
/-- The `for` loop of `parse_overlay_group` (tcs.c:262-349).  The first argument
holds the nodes the overlay pointer still has to go through (non-elements are
stepped over, as `next_node` does); `sibs` is the destination chain from
`root_node` on. -/
def parse_overlay_siblings : List XmlNode → List XmlNode → Except Fault (List XmlNode)
  | [], sibs => .ok sibs
  | overlay_node :: following, sibs =>
    if overlay_node.isElement then
      if overlay_node.name = TAG_GROUP then
        match xmlGetProp overlay_node ATTR_NAME with
        | none => .error .assertion
        | some group_name =>
          match search_group sibs group_name with
          | .error e => .error e
          | .ok (some (before, dest_node, after)) =>
            match parse_overlay_group overlay_node dest_node with
            | .error e => .error e
            | .ok merged => parse_overlay_siblings following (before ++ merged :: after)
          | .ok none =>
            parse_overlay_siblings following
              (xmlAddChildList sibs (xmlCopyNodeList (overlay_node :: following)))
      else if overlay_node.name = TAG_LIST then
        match overlay_list overlay_node following sibs with
        | .error e => .error e
        | .ok sibs1 => parse_overlay_siblings following sibs1
      else
        match overlay_property overlay_node sibs with
        | .error e => .error e
        | .ok sibs1 => parse_overlay_siblings following sibs1
    else parse_overlay_siblings following sibs
end

/-! ## The context and group selection -/

/-- Source `tcs_internal_ctx_t` (tcs.c:123), the fields the lookups use.  A node
pointer is the node it points to followed by its later siblings; `[]` is
`NULL`. -/
structure tcs_internal_ctx where
  /-- Root element of the configuration document. -/
  root_node : XmlNode
  /-- Node pointing to the selected group (the cursor). -/
  select_group_node : List XmlNode
  /-- Node pointing to the group provided at init. -/
  default_group_node : List XmlNode
  /-- Only for logging purpose. -/
  select_group_name : Option String
  /-- Folder of the hardware documents. -/
  hw_xml_folder : String
  /-- Folder of the overlay documents (`none` for `NULL`). -/
  overlay_xml_folder : Option String
  deriving Repr

/-- The pieces of a path between separators, as the `strchr` calls of
`select_group` (tcs.c:379-396) cut them: "a.b" gives "a" and "b", a path that
ends with the separator has an empty last piece. -/
def path_segments : List Char → List (List Char)
  | [] => [[]]
  | c :: cs =>
    if c = GROUP_SEPARATOR then [] :: path_segments cs
    else
      match path_segments cs with
      | seg :: more => (c :: seg) :: more
      | [] => [[c]]

/-- The `for (;;)` loop of `select_group` (tcs.c:377-397) over the pieces of the
path, from the node selected so far.  The result is `select_group_node` when the
loop is left through `break`, and `none` when it is left through `return -1`
(a piece without match, `select_group_node` then being `NULL`).  The buffer
`group_name` of the loop has 40 bytes. -/
def select_group_walk : List (List Char) → List XmlNode → Except Fault (Option (List XmlNode))
  | [], node => .ok (some node)
  | seg :: more, node =>
    if (String.mk seg).utf8ByteSize + 1 ≤ 40 then
      match node with
      | [] => .error .null_deref
      | n :: _ =>
        match next_node n.children with
        | .error e => .error e
        | .ok level =>
          match search_group level (String.mk seg) with
          | .error e => .error e
          | .ok none => .ok none
          | .ok (some (_, group, after)) => select_group_walk more (group :: after)
    else .error .assertion

/-- Source `select_group` (tcs.c:355): the status returned and the context as it
is left. -/
def select_group (ctx : tcs_internal_ctx) (group_name : String) :
    Except Fault (Int × tcs_internal_ctx) :=
  let start : Option (List XmlNode × List Char) :=
    match group_name.toList with
    | c :: rest =>
      if c = GROUP_SEPARATOR then
        match ctx.default_group_node with
        | [] => none
        | d :: ds => some (d :: ds, rest)
      else some ([ctx.root_node], c :: rest)
    | [] => some ([ctx.root_node], [])
  match start with
  | none => .ok (-1, ctx)
  | some (node, cur) =>
    match select_group_walk (path_segments cur) node with
    | .error e => .error e
    | .ok none =>
      .ok (-1, { ctx with select_group_node := [], select_group_name := some group_name })
    | .ok (some []) => .error .null_deref
    | .ok (some (group :: _)) =>
      match next_node group.children with
      | .error e => .error e
      | .ok [] =>
        .ok (-1, { ctx with select_group_node := [], select_group_name := some group_name })
      | .ok (c :: cs) =>
        .ok (0, { ctx with select_group_node := c :: cs, select_group_name := some group_name })

/-! ## Typed getters -/

/-- Source `get_bool` (tcs.c:411).  `value` is what `*value` holds at the call;
the result is the status and what `*value` holds at the return. -/
def get_bool (ctx : tcs_internal_ctx) (key : String) (value : Bool) : Except Fault (Int × Bool) :=
  match ctx.select_group_node with
  | [] => .error .assertion
  | cursor =>
    match search_property cursor TAG_BOOL key with
    | .error e => .error e
    | .ok none => .ok (-1, value)
    | .ok (some (_, node, _)) =>
      let str := xmlNodeGetContent node
      if str = "true" then .ok (0, true)
      else if str = "false" then .ok (0, false)
      else .ok (-1, value)

/-- Library call `isspace` in the C locale. -/
def isspace (c : Char) : Bool :=
  c = ' ' || c = '\t' || c = '\n' || c = '\x0b' || c = '\x0c' || c = '\r'

/-- The value of a character taken as a digit (up to base 16), if it is one. -/
def digit_value (c : Char) : Option Nat :=
  if '0' ≤ c ∧ c ≤ '9' then some (c.toNat - 48)
  else if 'a' ≤ c ∧ c ≤ 'f' then some (c.toNat - 87)
  else if 'A' ≤ c ∧ c ≤ 'F' then some (c.toNat - 55)
  else none

/-- Test: is the character a digit of the base? -/
def is_digit (base : Nat) (c : Char) : Bool :=
  match digit_value c with
  | some d => decide (d < base)
  | none => false

/-- The number written by a run of digits, most significant first, from the
value `acc` read so far. -/
def digits_value (base : Nat) : List Char → Nat → Nat
  | [], acc => acc
  | c :: cs, acc => digits_value base cs (acc * base + (digit_value c).getD 0)

/-- What `strtol` hands back: the `long` returned, how far `*endptr` is from the
start of the string, and whether `errno` was set to `ERANGE`. -/
structure strtol_result where
  value : Int
  end_ptr : Nat
  erange : Bool
  deriving DecidableEq, Repr

/-- First step of `strtol` after the white space: the optional sign.  The
result tells whether the number is negated, and what follows the sign. -/
def strtol_sign : List Char → Bool × List Char
  | [] => (false, [])
  | c :: r => if c = '-' then (true, r) else if c = '+' then (false, r) else (false, c :: r)

/-- Test: the text begins with "0x" or "0X" followed by a hexadecimal digit. -/
def hex_prefixed : List Char → Bool
  | c :: x :: h :: _ => decide (c = '0') && (decide (x = 'x') || decide (x = 'X')) && is_digit 16 h
  | _ => false

/-- Second step of `strtol` called with base 0: the base announced by the
beginning of the number, and where its digits start. -/
def strtol_base (s : List Char) : Nat × List Char :=
  if hex_prefixed s = true then (16, s.drop 2)
  else if s.head? = some '0' then (8, s)
  else (10, s)

/-- Library call `strtol(str, &end_ptr, 0)` of ISO C, for a `long` whose largest
value is `long_max`: white space, an optional sign, then a number whose base
follows from its beginning ("0x" or "0X" before a hexadecimal digit: 16, "0": 8,
otherwise 10) and that extends over the longest run of digits of that base.
Without any digit nothing is converted and `*endptr` is the start of the
string; a number out of range is clamped and sets `ERANGE`. -/
def strtol (long_max : Nat) (str : List Char) : strtol_result :=
  let signed := strtol_sign (str.dropWhile isspace)
  let based := strtol_base signed.2
  let digits := based.2.takeWhile (is_digit based.1)
  let rest := based.2.dropWhile (is_digit based.1)
  let n := digits_value based.1 digits 0
  if digits.isEmpty then { value := 0, end_ptr := 0, erange := false }
  else
    let end_ptr := str.length - rest.length
    if signed.1 then
      if n > long_max + 1 then
        { value := -((long_max : Int) + 1), end_ptr := end_ptr, erange := true }
      else { value := -(n : Int), end_ptr := end_ptr, erange := false }
    else
      if n > long_max then { value := (long_max : Int), end_ptr := end_ptr, erange := true }
      else { value := (n : Int), end_ptr := end_ptr, erange := false }

/-- The conversion of a `long` to the 32-bit `int` it is stored into: the low 32
bits, read as a signed number. -/
def long_to_int (v : Int) : Int :=
  (v + 2147483648) % 4294967296 - 2147483648

/-- Source `get_int` (tcs.c:444), for a target whose `long` goes up to
`long_max`.  `value` is what `*value` holds at the call; the result is the
status and what `*value` holds at the return. -/
def get_int (long_max : Nat) (ctx : tcs_internal_ctx) (key : String) (value : Int) :
    Except Fault (Int × Int) :=
  match ctx.select_group_node with
  | [] => .error .assertion
  | cursor =>
    match search_property cursor TAG_INT key with
    | .error e => .error e
    | .ok none => .ok (-1, value)
    | .ok (some (_, node, _)) =>
      let str := (xmlNodeGetContent node).toList
      let r := strtol long_max str
      let value1 := long_to_int r.value
      if r.erange ∨ r.end_ptr = 0 ∨ r.end_ptr ≠ str.length then .ok (-1, value1)
      else .ok (0, value1)

/-- Source `get_string` (tcs.c:476): a copy of the content, `none` for `NULL`. -/
def get_string (ctx : tcs_internal_ctx) (key : String) : Except Fault (Option String) :=
  match ctx.select_group_node with
  | [] => .error .assertion
  | cursor =>
    match search_property cursor TAG_STRING key with
    | .error e => .error e
    | .ok none => .ok none
    | .ok (some (_, node, _)) => .ok (some (xmlNodeGetContent node))

/-- Source `get_string_array` (tcs.c:500): the array returned (`none` for
`NULL`) and what `*nb` holds at the return. -/
def get_string_array (ctx : tcs_internal_ctx) (list_name : String) :
    Except Fault (Option (List String) × Int) :=
  match ctx.select_group_node with
  | [] => .error .assertion
  | cursor =>
    match search_list cursor list_name with
    | .error e => .error e
    | .ok none => .ok (none, 0)
    | .ok (some (_, node, _)) =>
      match next_node node.children with
      | .error e => .error e
      | .ok [] => .ok (none, 0)
      | .ok (first :: rest) =>
        let items := first :: rest.filter XmlNode.isElement
        .ok (some (items.map xmlNodeGetContent), (items.length : Int))

/-! ## Loading documents -/

/-- A parsed document, seen from `xmlDocGetRootElement`: the root element and the
nodes that follow it at the top of the document (comments). -/
structure xml_doc where
  root : XmlNode
  trailer : List XmlNode
  deriving Repr

/-- What the device provides to the library: the outcome of the platform
detection and the files. -/
structure Deployment where
  /-- Name found by `get_config_file` (tcs.c:563), `none` when it returns -1. -/
  config_name : Option String
  /-- Result of `get_hw_config_folder` (tcs.c:622). -/
  hw_xml_folder : String
  /-- Result of `get_overlay_folder` (tcs.c:591), `none` for `NULL`. -/
  overlay_xml_folder : Option String
  /-- Library call `xmlReadFile`: `none` when the file is missing or ill-formed. -/
  xmlReadFile : String → Option xml_doc
  /-- Library call `scandir` with `alphasort`: the entries of a folder, in order
  (none when the folder cannot be read). -/
  scandir : String → List String

/-- The longest run of characters from the start that fits in `room` bytes. -/
def fit : Nat → List Char → List Char
  | _, [] => []
  | room, c :: cs => if c.utf8Size ≤ room then c :: fit (room - c.utf8Size) cs else []

/-- Library call `snprintf(buf, size, ...)` once the text is formatted: the
buffer keeps at most `size - 1` bytes of it. -/
def snprintf (size : Nat) (text : String) : String :=
  String.mk (fit (size - 1) text.toList)

/-- Call `strsep(&group, "0123456789")` of tcs.c:649 and tcs.c:715: the name up
to its first decimal digit. -/
def module_family (group_name : String) : String :=
  String.mk (group_name.toList.takeWhile (fun c => !c.isDigit))

mutual
/-- Source `print_node` (tcs.c:173), without the log lines: what is left is
whether the walk completes. -/
def print_node : XmlNode → Except Fault Unit
  | .element tag _ cs =>
    if tag = TAG_GROUP ∨ tag = TAG_LIST then
      match cs with
      | [] => .error .null_deref
      | _ :: rest => print_nodes rest
    else if tag = TAG_STRING ∨ tag = TAG_INT ∨ tag = TAG_BOOL then .ok ()
    else .error .assertion
  | _ => .error .assertion
/-- The `for` loop of `print_node` over the elements of a chain. -/
def print_nodes : List XmlNode → Except Fault Unit
  | [] => .ok ()
  | n :: rest =>
    if n.isElement then
      match print_node n with
      | .error e => .error e
      | .ok _ => print_nodes rest
    else print_nodes rest
end

/-- The loop of `parse_overlay` (tcs.c:657-692) over the entries of the overlay
folder; `root` is the root element of the configuration, given back as the
merges leave it. -/
def parse_overlay_files (dep : Deployment) (group_name : String) (config : Bool)
    (folder : String) : List String → XmlNode → Except Fault XmlNode
  | [], root => .ok root
  | d_name :: more, root =>
    if d_name.toList.head? = some '.' then
      parse_overlay_files dep group_name config folder more root
    else
      let xml_file := snprintf 256 (folder ++ "/" ++ d_name)
      match dep.xmlReadFile xml_file with
      | none => .error .assertion
      | some doc =>
        let overlay_node := doc.root
        if config then
          if overlay_node.name = TAG_CONFIG then
            match parse_overlay_group overlay_node root with
            | .error e => .error e
            | .ok root1 => parse_overlay_files dep group_name config folder more root1
          else parse_overlay_files dep group_name config folder more root
        else
          match search_group (overlay_node :: doc.trailer) group_name with
          | .error e => .error e
          | .ok none => parse_overlay_files dep group_name config folder more root
          | .ok (some _) =>
            match search_group root.children group_name with
            | .error e => .error e
            | .ok none => .error .assertion
            | .ok (some (before, dest_node, after)) =>
              match parse_overlay_group overlay_node dest_node with
              | .error e => .error e
              | .ok merged =>
                parse_overlay_files dep group_name config folder more
                  (root.setChildren (before ++ merged :: after))

/-- Source `parse_overlay` (tcs.c:639). -/
def parse_overlay (dep : Deployment) (overlay_xml_folder : Option String) (root : XmlNode)
    (group_name : String) (config : Bool) : Except Fault XmlNode :=
  match overlay_xml_folder with
  | none => .ok root
  | some overlay =>
    let folder := snprintf 256 (overlay ++ "/" ++ module_family group_name)
    parse_overlay_files dep group_name config folder (dep.scandir folder) root

/-- Source `priv_add_group` (tcs.c:696): the root element as it is left, and the
node returned. -/
def priv_add_group (dep : Deployment) (hw_xml_folder : String)
    (overlay_xml_folder : Option String) (root : XmlNode) (group_name : String)
    (print_group : Bool) : Except Fault (XmlNode × List XmlNode) :=
  match next_node root.children with
  | .error e => .error e
  | .ok level =>
    match search_group level "modules" with
    | .error e => .error e
    | .ok none => .error .assertion
    | .ok (some (_, modules, _)) =>
      match next_node modules.children with
      | .error e => .error e
      | .ok entries =>
        match search_property entries TAG_STRING group_name with
        | .error e => .error e
        | .ok none => .error .assertion
        | .ok (some (_, entry, _)) =>
          let xml_name := xmlNodeGetContent entry
          let path := snprintf 256
            (hw_xml_folder ++ "/" ++ module_family group_name ++ "/" ++ xml_name)
          match dep.xmlReadFile path with
          | none => .error .assertion
          | some doc =>
            if doc.root.name = TAG_GROUP then
              let root1 := root.setChildren
                (xmlAddChildList root.children (xmlCopyNodeList (doc.root :: doc.trailer)))
              match parse_overlay dep overlay_xml_folder root1 group_name false with
              | .error e => .error e
              | .ok root2 =>
                match search_group root2.children group_name with
                | .error e => .error e
                | .ok none => .error .assertion
                | .ok (some (_, node, after)) =>
                  if print_group then
                    match print_nodes (node :: after) with
                    | .error e => .error e
                    | .ok _ => .ok (root2, node :: after)
                  else .ok (root2, node :: after)
            else .error .assertion

/-- Source `parse_config` (tcs.c:754): the root element of the configuration
once the `config` overlays are merged, `none` when the function returns -1. -/
def parse_config (dep : Deployment) : Except Fault (Option XmlNode) :=
  match dep.config_name with
  | none => .ok none
  | some xml_file =>
    let path := snprintf 256 (dep.hw_xml_folder ++ "/config/TCS2_" ++ xml_file ++ ".xml")
    match dep.xmlReadFile path with
    | none => .error .assertion
    | some doc =>
      if doc.root.name = TAG_CONFIG then
        match parse_overlay dep dep.overlay_xml_folder doc.root "config" true with
        | .error e => .error e
        | .ok root => .ok (some root)
      else .error .assertion

/-- Source `tcs2_init` (tcs.c:804): the context returned, `none` for `NULL`. -/
def tcs2_init (dep : Deployment) (optional_group : Option String) :
    Except Fault (Option tcs_internal_ctx) :=
  match parse_config dep with
  | .error e => .error e
  | .ok none => .ok none
  | .ok (some root) =>
    match optional_group with
    | none =>
      .ok (some
        { root_node := root, select_group_node := [], default_group_node := [],
          select_group_name := none, hw_xml_folder := dep.hw_xml_folder,
          overlay_xml_folder := dep.overlay_xml_folder })
    | some group =>
      match priv_add_group dep dep.hw_xml_folder dep.overlay_xml_folder root group false with
      | .error e => .error e
      | .ok (root1, default_group) =>
        match default_group with
        | [] => .error .null_deref
        | d :: _ =>
          match next_node d.children with
          | .error e => .error e
          | .ok selected =>
            .ok (some
              { root_node := root1, select_group_node := selected,
                default_group_node := default_group, select_group_name := some group,
                hw_xml_folder := dep.hw_xml_folder,
                overlay_xml_folder := dep.overlay_xml_folder })

/-! ## Building documents -/

/-- White space between two tags, as the parser keeps it. -/
def ws : XmlNode := .text " "

/-- Element `<group name=...>`. -/
def mkGroup (name : String) (children : List XmlNode) : XmlNode :=
  .element TAG_GROUP [(ATTR_NAME, name)] children

/-- Element `<list name=...>`, with its `overlay` attribute when given. -/
def mkList (name : String) (mode : Option String) (children : List XmlNode) : XmlNode :=
  .element TAG_LIST
    ((ATTR_NAME, name) :: (match mode with
      | some m => [(ATTR_OVERLAY_MODE, m)]
      | none => [])) children

/-- Element `<tag key=...>content</tag>`. -/
def mkScalar (tag key content : String) : XmlNode :=
  .element tag [(ATTR_KEY, key)] (if content = "" then [] else [.text content])

/-- Element `<string>content</string>` of a list. -/
def mkItem (content : String) : XmlNode :=
  .element TAG_STRING [] [.text content]

/-- The children of an element written one per line: white space first, and
white space after each child. -/
def indent : List XmlNode → List XmlNode
  | [] => [ws]
  | c :: cs => ws :: c :: indent cs

/-! ## Documents used as concrete inputs -/

/-- Base group with the list `tlvs` of the test suite, written one child per
line. -/
def base_streamline : XmlNode :=
  mkGroup "streamline1"
    (indent [mkList "tlvs" none (indent [mkItem "TLV1", mkItem "TLV2", mkItem "TLV3"])])

/-- Overlay whose list `tlvs` (default mode) is written on one line:
`<list name="tlvs"><string>TLV4</string><string>TLV5</string></list>`. -/
def overlay_compact_list : XmlNode :=
  mkGroup "streamline1" (indent [mkList "tlvs" none [mkItem "TLV4", mkItem "TLV5"]])

/-- Base group whose list is `<list name="tlvs"/>`: it has no child node. -/
def base_childless_list : XmlNode :=
  mkGroup "streamline1" (indent [mkList "tlvs" none []])

/-- Overlay with `<list name="tlvs" overlay="overwrite">` holding one item. -/
def overlay_overwrite_one : XmlNode :=
  mkGroup "streamline1" (indent [mkList "tlvs" (some "overwrite") (indent [mkItem "A"])])

/-- Base group written on one line:
`<group name="hal"><int key="a">1</int><int key="b">2</int></group>`. -/
def base_compact_scalars : XmlNode :=
  mkGroup "hal" [mkScalar "int" "a" "1", mkScalar "int" "b" "2"]

/-- Overlay that sets the `int` of key `a` to 7. -/
def overlay_set_a : XmlNode :=
  mkGroup "hal" (indent [mkScalar "int" "a" "7"])

/-- Base group with one scalar, one child per line. -/
def base_one_scalar : XmlNode :=
  mkGroup "crm1" (indent [mkScalar "int" "x" "1"])

/-- Overlay bringing a new group `g` followed by a new list `l` with one item. -/
def overlay_new_group_then_list : XmlNode :=
  mkGroup "crm1" (indent [mkGroup "g" (indent [mkScalar "int" "a" "1"]),
    mkList "l" none (indent [mkItem "A"])])

/-- Configuration written on one line:
`<config><group name="common">...</group><group name="modules">...</group></config>`. -/
def base_compact_config : XmlNode :=
  .element TAG_CONFIG [] [mkGroup "common" (indent [mkScalar "int" "test" "5"]),
    mkGroup "modules" (indent [mkScalar "string" "crm1" "crm_test.xml"])]

/-- Overlay of the configuration whose only element child is the group `common`. -/
def overlay_common : XmlNode :=
  .element TAG_CONFIG [] (indent [mkGroup "common" (indent [mkScalar "int" "test" "0x20"])])

/-- Configuration written on one line, groups included:
`<config><group name="common"><int key="test">5</int></group><group
name="hal"><int key="x">1</int><int key="y">2</int></group></config>`. -/
def compact_config_hal : XmlNode :=
  .element TAG_CONFIG [] [mkGroup "common" [mkScalar "int" "test" "5"],
    mkGroup "hal" [mkScalar "int" "x" "1", mkScalar "int" "y" "2"]]

/-- Overlay with `<list name="tlvs" overlay="overwrite"/>`: a list without any
child node. -/
def overlay_overwrite_childless : XmlNode :=
  mkGroup "streamline1" (indent [mkList "tlvs" (some "overwrite") []])

/-- A context on a root element, as `tcs2_init(NULL)` leaves it. -/
def ctx_of_root (root : XmlNode) : tcs_internal_ctx :=
  { root_node := root, select_group_node := [], default_group_node := [],
    select_group_name := none, hw_xml_folder := "/hw", overlay_xml_folder := none }

/-- A device with one file, the configuration `TCS2_test.xml`, and no overlay
folder. -/
def single_config_device (config : XmlNode) : Deployment :=
  { config_name := some "test", hw_xml_folder := "/hw", overlay_xml_folder := none,
    xmlReadFile := fun path =>
      if path = "/hw/config/TCS2_test.xml" then some { root := config, trailer := [] } else none,
    scandir := fun _ => [] }

/-- Configuration of the test suite, one child per line. -/
def config_document : XmlNode :=
  .element TAG_CONFIG [] (indent [mkGroup "common" (indent [mkScalar "int" "test" "0x20"]),
    mkGroup "modules" (indent [mkScalar "string" "crm1" "crm_test.xml"])])

/-- A group name of 40 bytes. -/
def name_of_40_bytes : String := String.mk (List.replicate 40 'a')

/-- A context whose cursor is on the children of a group `hal`. -/
def hal_ctx : tcs_internal_ctx :=
  { ctx_of_root config_document with
    select_group_node := [mkScalar "int" "ping_timeout" "0x20", ws,
      mkScalar "bool" "boolean_true" "true", ws, mkScalar "bool" "bad_bool" "abc", ws] }

/-- A context whose cursor is on `<int key="test"> 7</int>`: the content begins
with a space. -/
def blank_int_ctx : tcs_internal_ctx :=
  { ctx_of_root config_document with select_group_node := [mkScalar "int" "test" " 7"] }

/-! ## Notions used to state the properties -/

/-- Test: the node has name `tag` and its attribute `prop` has the value `key`. -/
def has_tag_prop (tag prop key : String) (n : XmlNode) : Bool :=
  decide (n.name = tag) && decide (xmlGetProp n prop = some key)

/-- The first node of a chain that passes the test, with the nodes before it and
the nodes after it. -/
def find_split (p : XmlNode → Bool) : List XmlNode → Option Found
  | [] => none
  | n :: rest =>
    if p n then some ([], n, rest)
    else
      match find_split p rest with
      | some (before, node, after) => some (n :: before, node, after)
      | none => none

/-- Every node of the chain named `tag` carries the attribute `prop` (the
document format gives a `name` to groups and lists and a `key` to the scalars of
a group). -/
def carries (tag prop : String) (chain : List XmlNode) : Prop :=
  ∀ n ∈ chain, n.name = tag → xmlGetProp n prop ≠ none

/-- The first scalar of the chain with the given tag and key. -/
def first_scalar (tag key : String) (chain : List XmlNode) : Option XmlNode :=
  chain.find? (has_tag_prop tag ATTR_KEY key)

/-- The first group of the given name among the element children. -/
def first_group (name : String) (children : List XmlNode) : Option XmlNode :=
  (elements children).find? (has_tag_prop TAG_GROUP ATTR_NAME name)

/-- The group a list of names leads to from a node: each name picks the first
group of that name among the element children of the node reached so far. -/
def resolve : XmlNode → List String → Option XmlNode
  | n, [] => some n
  | n, seg :: more =>
    match first_group seg n.children with
    | some g => resolve g more
    | none => none

/-- Test: on the way along the names, a node in which a group has to be looked
up (the start node, or the group matched for a name other than the last) has no
element child. -/
def empty_level : XmlNode → List String → Bool
  | _, [] => false
  | n, seg :: more =>
    (elements n.children).isEmpty ||
      match first_group seg n.children with
      | some g => empty_level g more
      | none => false

/-- Test: the child list begins with a node that is not an element (the white
space that follows the opening tag in a document written one child per line). -/
def starts_blank : List XmlNode → Bool
  | c :: _ => !c.isElement
  | [] => false

mutual
/-- Test on a node and the groups below it: the child list of the node begins
with a node that is not an element, each child named `group` carries a `name`,
and the same holds in turn for each of these groups. -/
def groups_well_formed : XmlNode → Bool
  | .element _ _ cs => starts_blank cs && groups_well_formed_in cs
  | _ => false
/-- The part of `groups_well_formed` that concerns the children. -/
def groups_well_formed_in : List XmlNode → Bool
  | [] => true
  | c :: cs =>
    (if c.name = TAG_GROUP then (xmlGetProp c ATTR_NAME).isSome && groups_well_formed c
     else true) && groups_well_formed_in cs
end

/-- The names of a path, piece by piece. -/
def path_names (path : List Char) : List String :=
  (path_segments path).map String.mk

/-- The text is one integer literal and `n` is the number it denotes: a decimal
literal (digits, the first one not 0), a hexadecimal literal ("0x" or "0X" and at
least one hexadecimal digit), or an octal literal (a 0 and octal digits). -/
def is_literal (body : List Char) (n : Nat) : Prop :=
  (body ≠ [] ∧ body.head? ≠ some '0' ∧ (∀ c ∈ body, is_digit 10 c = true) ∧
      n = digits_value 10 body 0) ∨
  (∃ x ds, body = '0' :: x :: ds ∧ (x = 'x' ∨ x = 'X') ∧ ds ≠ [] ∧
      (∀ c ∈ ds, is_digit 16 c = true) ∧ n = digits_value 16 ds 0) ∨
  (∃ ds, body = '0' :: ds ∧ (∀ c ∈ ds, is_digit 8 c = true) ∧ n = digits_value 8 ds 0)

/-- The content reads as the integer `v`: white space (possibly none), an
optional sign, then one integer literal and nothing after it. -/
def reads_as (content : List Char) (v : Int) : Prop :=
  ∃ (blanks sign body : List Char) (n : Nat), content = blanks ++ sign ++ body ∧
    (∀ c ∈ blanks, isspace c = true) ∧
    ((sign = [] ∧ v = (n : Int)) ∨ (sign = ['+'] ∧ v = (n : Int)) ∨
      (sign = ['-'] ∧ v = -(n : Int))) ∧
    is_literal body n

/-- Where the resolution of a path starts and what is left of the path: the
group given at init for a path with a leading separator (if there is one), the
root otherwise. -/
def path_start (ctx : tcs_internal_ctx) : List Char → Option (XmlNode × List Char)
  | [] => some (ctx.root_node, [])
  | c :: rest =>
    if c = GROUP_SEPARATOR then ctx.default_group_node.head?.map (fun d => (d, rest))
    else some (ctx.root_node, c :: rest)

/-- A context whose cursor is on the children of a group that holds an `int`
scalar of key `hello_text`, a child group in which a `string` scalar has that
key, and a `string` scalar of key `other`. -/
def nested_string_ctx : tcs_internal_ctx :=
  { ctx_of_root config_document with
    select_group_node := [mkScalar "int" "hello_text" "5", ws,
      mkGroup "sub" (indent [mkScalar "string" "hello_text" "nested"]), ws,
      mkScalar "string" "other" "hello world", ws] }

/-- A context whose cursor is on a list written on one line:
`<list name="tlvs"><string>TLV1</string><string>TLV2</string></list>`. -/
def compact_list_ctx : tcs_internal_ctx :=
  { ctx_of_root config_document with
    select_group_node := [mkList "tlvs" none [mkItem "TLV1", mkItem "TLV2"], ws] }

/-- A context whose cursor is on `<list name="tlvs"/>`, a list without any child
node. -/
def childless_list_ctx : tcs_internal_ctx :=
  { ctx_of_root config_document with select_group_node := [mkList "tlvs" none [], ws] }

/-- The first list of the given name in a chain. -/
def first_list (name : String) (chain : List XmlNode) : Option XmlNode :=
  chain.find? (has_tag_prop TAG_LIST ATTR_NAME name)

/-- A function of tcs.c that a pointer of `struct tcs_ctx` can hold. -/
inductive tcs_function where
  | dispose
  | add_group
  | print
  | select_group
  | get_bool
  | get_int
  | get_string
  | get_string_array
  deriving DecidableEq, Repr

/-- Source `struct tcs_ctx` (tcs.h:66): the function pointers through which a
caller reaches the operations; `none` is `NULL`. -/
structure tcs_ctx where
  dispose : Option tcs_function
  add_group : Option tcs_function
  print : Option tcs_function
  select_group : Option tcs_function
  select_group_array : Option tcs_function
  next_group_array : Option tcs_function
  get_bool : Option tcs_function
  get_int : Option tcs_function
  get_string : Option tcs_function
  get_string_array : Option tcs_function
  deriving DecidableEq, Repr

/-- The member `ctx` of the context `tcs2_init` returns: `calloc` zeroes the
structure (tcs.c:806) and the assignments of tcs.c:811-818 follow; no other
statement of tcs.c writes a member of `ctx`. -/
def tcs2_init_ctx : tcs_ctx :=
  { dispose := some .dispose,
    select_group := some .select_group,
    get_string := some .get_string,
    get_string_array := some .get_string_array,
    get_int := some .get_int,
    get_bool := some .get_bool,
    print := some .print,
    add_group := some .add_group,
    select_group_array := none,
    next_group_array := none }

/-- Configuration in which the group `a` holds white space only:
`<config> <group name="a"> </group> <group name="b"> ... </group> </config>`. -/
def config_with_empty_group : XmlNode :=
  .element TAG_CONFIG [] (indent [mkGroup "a" [ws],
    mkGroup "b" (indent [mkScalar "int" "x" "1"])])

/-- Base group written on one line, the list first:
`<group name="streamline1"><list name="tlvs"> ... </list><int key="n">1</int></group>`. -/
def base_compact_list_first : XmlNode :=
  mkGroup "streamline1" [mkList "tlvs" none (indent [mkItem "TLV1"]), mkScalar "int" "n" "1"]

/-- Overlay with `<list name="tlvs"> </list>`: default mode, white space only. -/
def overlay_append_empty : XmlNode :=
  mkGroup "streamline1" (indent [mkList "tlvs" none [ws]])

/-- Base group with a list holding one item, one child per line. -/
def base_one_item : XmlNode :=
  mkGroup "streamline1" (indent [mkList "tlvs" none (indent [mkItem "TLV1"])])

/-- Overlay bringing a new group `extra` followed by the list `tlvs` (default
mode) with the item TLV4, one child per line. -/
def overlay_new_group_then_tlvs : XmlNode :=
  mkGroup "streamline1" (indent [mkGroup "extra" (indent [mkScalar "int" "a" "1"]),
    mkList "tlvs" none (indent [mkItem "TLV4"])])

/-- The name under which the uniqueness invariant counts a child: its tag with
its `name` for a group or a list, its tag with its `key` for a scalar. -/
def invariant_key (n : XmlNode) : Option (String × String) :=
  if n.name = TAG_GROUP ∨ n.name = TAG_LIST then
    (xmlGetProp n ATTR_NAME).map (fun v => (n.name, v))
  else if n.name = TAG_STRING ∨ n.name = TAG_INT ∨ n.name = TAG_BOOL then
    (xmlGetProp n ATTR_KEY).map (fun v => (n.name, v))
  else none

mutual
/-- The uniqueness invariant of the data model at and below a node: no two
child groups share a name, no two child lists share a name, no two child scalars
of the same tag share a key, and the same holds in every child group.  The
children of a list are anonymous and not concerned. -/
def unique_names : XmlNode → Bool
  | .element tag _ cs =>
    if tag = TAG_LIST then true
    else decide ((cs.filterMap invariant_key).Nodup) && unique_names_in cs
  | _ => true
/-- The part of `unique_names` that concerns the subtrees of the children. -/
def unique_names_in : List XmlNode → Bool
  | [] => true
  | c :: cs => unique_names c && unique_names_in cs
end

/-- The context `hal_ctx` after a selection that found no group: the cursor is
`NULL` and the stored path is the one asked for. -/
def hal_ctx_after_failure : tcs_internal_ctx :=
  { hal_ctx with select_group_node := [], select_group_name := some "wrong_group_name" }

/-- The loop of `select_group` as the specification has it, without bound on the
length of a name: `select_group_walk` less the assertion on the 40-byte buffer. -/
def select_group_walk_unbounded :
    List (List Char) → List XmlNode → Except Fault (Option (List XmlNode))
  | [], node => .ok (some node)
  | seg :: more, node =>
    match node with
    | [] => .error .null_deref
    | n :: _ =>
      match next_node n.children with
      | .error e => .error e
      | .ok level =>
        match search_group level (String.mk seg) with
        | .error e => .error e
        | .ok none => .ok none
        | .ok (some (_, group, after)) => select_group_walk_unbounded more (group :: after)

/-- Function `select_group` with `select_group_walk_unbounded` for its loop. -/
def select_group_unbounded (ctx : tcs_internal_ctx) (group_name : String) :
    Except Fault (Int × tcs_internal_ctx) :=
  let start : Option (List XmlNode × List Char) :=
    match group_name.toList with
    | c :: rest =>
      if c = GROUP_SEPARATOR then
        match ctx.default_group_node with
        | [] => none
        | d :: ds => some (d :: ds, rest)
      else some ([ctx.root_node], c :: rest)
    | [] => some ([ctx.root_node], [])
  match start with
  | none => .ok (-1, ctx)
  | some (node, cur) =>
    match select_group_walk_unbounded (path_segments cur) node with
    | .error e => .error e
    | .ok none =>
      .ok (-1, { ctx with select_group_node := [], select_group_name := some group_name })
    | .ok (some []) => .error .null_deref
    | .ok (some (group :: _)) =>
      match next_node group.children with
      | .error e => .error e
      | .ok [] =>
        .ok (-1, { ctx with select_group_node := [], select_group_name := some group_name })
      | .ok (c :: cs) =>
        .ok (0, { ctx with select_group_node := c :: cs, select_group_name := some group_name })

/-- The path without its leading separator, if it has one. -/
def path_rest : List Char → List Char
  | [] => []
  | c :: rest => if c = GROUP_SEPARATOR then rest else c :: rest

/-- A group name of 63 bytes. -/
def name_of_63_bytes : String := String.mk (List.replicate 63 'a')

/-- Configuration with a group whose name has 63 bytes, one child per line. -/
def config_long_group : XmlNode :=
  .element TAG_CONFIG [] (indent [mkGroup name_of_63_bytes (indent [mkScalar "int" "x" "1"])])

/-- What `select_group` does once its loop is over (tcs.c:399-405), from the
outcome of the loop: the status returned and the cursor left. -/
def select_group_end :
    Except Fault (Option (List XmlNode)) → Except Fault (Int × List XmlNode)
  | .error e => .error e
  | .ok none => .ok (-1, [])
  | .ok (some []) => .error .null_deref
  | .ok (some (group :: _)) =>
    match next_node group.children with
    | .error e => .error e
    | .ok [] => .ok (-1, [])
    | .ok (c :: cs) => .ok (0, c :: cs)

/-- A device with two files: the configuration `TCS2_test.xml` and the document
of one module. -/
def device_with_module (config : XmlNode) (module_path : String) (module : XmlNode) :
    Deployment :=
  { config_name := some "test", hw_xml_folder := "/hw", overlay_xml_folder := none,
    xmlReadFile := fun path =>
      if path = "/hw/config/TCS2_test.xml" then some { root := config, trailer := [] }
      else if path = module_path then some { root := module, trailer := [] }
      else none,
    scandir := fun _ => [] }

/-- Document of a module: the group of the given name, holding a group `hal`. -/
def module_document (name : String) : XmlNode :=
  mkGroup name (indent [mkGroup "hal" (indent [mkScalar "int" "x" "1"])])

/-- Configuration that declares one module, one child per line. -/
def config_with_module (name file : String) : XmlNode :=
  .element TAG_CONFIG [] (indent [mkGroup "modules" (indent [mkScalar "string" name file])])

/-- The device of the test suite: module `crm1` in `crm/crm_test.xml`. -/
def crm_device : Deployment :=
  device_with_module (config_with_module "crm1" "crm_test.xml") "/hw/crm/crm_test.xml"
    (module_document "crm1")

/-- The context `tcs2_init("crm1")` returns on `crm_device`. -/
def crm_ctx : tcs_internal_ctx :=
  { root_node := .element TAG_CONFIG []
      (indent [mkGroup "modules" (indent [mkScalar "string" "crm1" "crm_test.xml"])] ++
        [module_document "crm1"]),
    select_group_node := [mkGroup "hal" (indent [mkScalar "int" "x" "1"]), ws],
    default_group_node := [module_document "crm1"],
    select_group_name := some "crm1", hw_xml_folder := "/hw", overlay_xml_folder := none }

/-- A device whose module has a name with a separator in it, `a.b`. -/
def dotted_device : Deployment :=
  device_with_module (config_with_module "a.b" "ab.xml") "/hw/a.b/ab.xml"
    (module_document "a.b")

/-- A device whose module has a name of 40 bytes. -/
def long_name_device : Deployment :=
  device_with_module (config_with_module name_of_40_bytes "long.xml")
    ("/hw/" ++ name_of_40_bytes ++ "/long.xml") (module_document name_of_40_bytes)

/-- The two nodes look the same to a search: same type, same name and same
attributes (their children may differ). -/
def same_label (a b : XmlNode) : Prop :=
  a.isElement = b.isElement ∧ a.name = b.name ∧ ∀ prop, xmlGetProp a prop = xmlGetProp b prop

/-- The search along a chain, from any of its nodes on, reaches `x` as its first
match. -/
def search_finds (tag prop key : String) (chain : List XmlNode) (x : XmlNode) : Prop :=
  ∃ before after, search_next tag prop key chain = .ok (some (before, x, after))

/-- One turn of the loop of `parse_overlay_group` (tcs.c:262-349), at the node
`overlay_node` of the overlay: the destination chain as the turn leaves it. -/
def overlay_step (overlay_node : XmlNode) (following sibs : List XmlNode) :
    Except Fault (List XmlNode) :=
  if overlay_node.isElement then
    if overlay_node.name = TAG_GROUP then
      match xmlGetProp overlay_node ATTR_NAME with
      | none => .error .assertion
      | some group_name =>
        match search_group sibs group_name with
        | .error e => .error e
        | .ok (some (before, dest_node, after)) =>
          match parse_overlay_group overlay_node dest_node with
          | .error e => .error e
          | .ok merged => .ok (before ++ merged :: after)
        | .ok none => .ok (xmlAddChildList sibs (xmlCopyNodeList (overlay_node :: following)))
    else if overlay_node.name = TAG_LIST then overlay_list overlay_node following sibs
    else overlay_property overlay_node sibs
  else .ok sibs

/-- Configuration of the test suite before the overlay, one child per line. -/
def base_config : XmlNode :=
  .element TAG_CONFIG [] (indent [mkGroup "common" (indent [mkScalar "int" "test" "5"]),
    mkGroup "modules" (indent [mkScalar "string" "crm1" "crm_test.xml",
      mkScalar "string" "streamline1" "streamline_test.xml"])])

/-- Overlay of the configuration that sets `test` to a literal of twenty digits. -/
def overlay_huge : XmlNode :=
  .element TAG_CONFIG []
    (indent [mkGroup "common" (indent [mkScalar "int" "test" "99999999999999999999"])])

/-- The configuration of the test suite once `overlay_common` is merged. -/
def merged_config : XmlNode :=
  .element TAG_CONFIG [] (indent [mkGroup "common" (indent [mkScalar "int" "test" "0x20"]),
    mkGroup "modules" (indent [mkScalar "string" "crm1" "crm_test.xml",
      mkScalar "string" "streamline1" "streamline_test.xml"])])

/-- The name with its trailing decimal digits stripped and nothing else removed:
the module family as the specification words it. -/
def strip_trailing_digits (group_name : String) : String :=
  String.mk (group_name.toList.reverse.dropWhile Char.isDigit).reverse

/-- A context whose cursor is on one scalar, `<int key="test">content</int>`. -/
def int_ctx (content : String) : tcs_internal_ctx :=
  { ctx_of_root config_document with select_group_node := [mkScalar "int" "test" content] }

mutual
/-- The element structure of a tree: in every node that has element children the
children that are not elements (white space, comments) are left out; a node
without element child keeps its content. -/
def element_structure : XmlNode → XmlNode
  | .element n a cs =>
    .element n a (if (elements cs).isEmpty then cs else element_structure_in cs)
  | other => other
/-- The element structures of the elements of a child list. -/
def element_structure_in : List XmlNode → List XmlNode
  | [] => []
  | c :: cs =>
    if c.isElement then element_structure c :: element_structure_in cs
    else element_structure_in cs
end

/-- The configuration `compact_config_hal` written one child per line. -/
def spaced_config_hal : XmlNode :=
  .element TAG_CONFIG [] (indent [mkGroup "common" (indent [mkScalar "int" "test" "5"]),
    mkGroup "hal" (indent [mkScalar "int" "x" "1", mkScalar "int" "y" "2"])])

/-- The group `base_compact_scalars` written one child per line. -/
def spaced_scalars : XmlNode :=
  mkGroup "hal" (indent [mkScalar "int" "a" "1", mkScalar "int" "b" "2"])

/-- A context whose cursor is on the list of `compact_list_ctx` written one child
per line. -/
def spaced_list_ctx : tcs_internal_ctx :=
  { ctx_of_root config_document with
    select_group_node := [mkList "tlvs" none (indent [mkItem "TLV1", mkItem "TLV2"]), ws] }

/-- Overlay document for the module `crm2`. -/
def overlay_crm2 : XmlNode :=
  mkGroup "crm2" (indent [mkGroup "hal" (indent [mkScalar "int" "x" "2"])])

/-- A device whose overlay folder for the family `crm` holds one document, made
for the module `crm2`. -/
def crm2_overlay_device : Deployment :=
  { config_name := some "test", hw_xml_folder := "/hw", overlay_xml_folder := some "/overlay",
    xmlReadFile := fun path =>
      if path = "/overlay/crm/crm2_test.xml" then some { root := overlay_crm2, trailer := [] }
      else none,
    scandir := fun folder => if folder = "/overlay/crm" then ["crm2_test.xml"] else [] }

mutual
/-- Source `parse_overlay_group` run with a bound on its steps: every call of the
function and every turn of its loop takes one unit of `fuel`, and the result is
`none` when the units run out before the function returns.  The recursion is on
`fuel`, not on the overlay. -/
def parse_overlay_group_fuel : Nat → XmlNode → XmlNode → Option (Except Fault XmlNode)
  | 0, _, _ => none
  | fuel + 1, overlay_node, root_node =>
    match next_node root_node.children with
    | .error e => some (.error e)
    | .ok [] => some (.error .assertion)
    | .ok (r :: rs) =>
      match overlay_node.children with
      | [] => some (.error .null_deref)
      | _ :: following =>
        match parse_overlay_siblings_fuel fuel following (r :: rs) with
        | none => none
        | some (.error e) => some (.error e)
        | some (.ok sibs) =>
          some (.ok (root_node.setChildren (passed_over root_node.children ++ sibs)))
/-- The loop of `parse_overlay_group` run with a bound on its steps. -/
def parse_overlay_siblings_fuel :
    Nat → List XmlNode → List XmlNode → Option (Except Fault (List XmlNode))
  | 0, _, _ => none
  | _ + 1, [], sibs => some (.ok sibs)
  | fuel + 1, overlay_node :: following, sibs =>
    if overlay_node.isElement then
      if overlay_node.name = TAG_GROUP then
        match xmlGetProp overlay_node ATTR_NAME with
        | none => some (.error .assertion)
        | some group_name =>
          match search_group sibs group_name with
          | .error e => some (.error e)
          | .ok (some (before, dest_node, after)) =>
            match parse_overlay_group_fuel fuel overlay_node dest_node with
            | none => none
            | some (.error e) => some (.error e)
            | some (.ok merged) =>
              parse_overlay_siblings_fuel fuel following (before ++ merged :: after)
          | .ok none =>
            parse_overlay_siblings_fuel fuel following
              (xmlAddChildList sibs (xmlCopyNodeList (overlay_node :: following)))
      else if overlay_node.name = TAG_LIST then
        match overlay_list overlay_node following sibs with
        | .error e => some (.error e)
        | .ok sibs1 => parse_overlay_siblings_fuel fuel following sibs1
      else
        match overlay_property overlay_node sibs with
        | .error e => some (.error e)
        | .ok sibs1 => parse_overlay_siblings_fuel fuel following sibs1
    else parse_overlay_siblings_fuel fuel following sibs
end

mutual
/-- The number of nodes of a tree. -/
def node_count : XmlNode → Nat
  | .element _ _ cs => 1 + node_count_in cs
  | _ => 1
/-- The number of nodes of the trees of a list. -/
def node_count_in : List XmlNode → Nat
  | [] => 0
  | c :: cs => node_count c + node_count_in cs
end

/-- What a search looks at in a node, and what the document format identifies it
by: its type, its name and its attributes. -/
def label : XmlNode → Bool × String × List (String × String)
  | .element n a _ => (true, n, a)
  | .text _ => (false, "text", [])
  | .comment _ => (false, "comment", [])

/-- The node `d1` is what zero or more merges have made of the node `d`. -/
inductive merged_from : XmlNode → XmlNode → Prop
  | same (d : XmlNode) : merged_from d d
  | step {d d1 d2 overlay : XmlNode} :
      merged_from d d1 → parse_overlay_group overlay d1 = .ok d2 → merged_from d d2

/-- What a search finds below `d`, from `next_node` of its children, is found
below `d1` too: a node with the same label, and for a group what zero or more merges
have made of it. -/
def tracks (d d1 : XmlNode) : Prop :=
  ∀ (chain : List XmlNode) (tag prop key : String) (b : List XmlNode) (x : XmlNode)
    (a : List XmlNode),
    next_node d.children = .ok chain → search_node chain tag prop key = .ok (some (b, x, a)) →
    ∃ chain1 b1 x1 a1, next_node d1.children = .ok chain1 ∧
      search_node chain1 tag prop key = .ok (some (b1, x1, a1)) ∧ label x1 = label x ∧
      (x.name = TAG_GROUP → merged_from x x1)

/-- The destination `d` of a merge is the root of the context `ctx` or a child of
its root, and the context `ctx1` has the merged destination `d1` in its place; the
default group of `ctx1` is the one of `ctx`, or `d1` when the default group of `ctx`
is `d`. -/
def destination_in (d d1 : XmlNode) (ctx ctx1 : tcs_internal_ctx) : Prop :=
  ((ctx.root_node = d ∧ ctx1.root_node = d1) ∨
    ∃ b a, ctx.root_node.children = b ++ d :: a ∧ ctx1.root_node.children = b ++ d1 :: a) ∧
  (ctx1.default_group_node.head? = ctx.default_group_node.head? ∨
    (ctx.default_group_node.head? = some d ∧ ctx1.default_group_node.head? = some d1))

/-- Overlay that sets the `int` of key `a` and brings the `int` of key `n` twice,
with the contents 5 and 6, one child per line. -/
def overlay_repeated_key : XmlNode :=
  mkGroup "hal" (indent [mkScalar "int" "a" "7", mkScalar "int" "n" "5",
    mkScalar "int" "n" "6"])

/-- The group `spaced_scalars` once `overlay_repeated_key` is merged into it:
`a` is 7 and one `int` of key `n`, of content 6, stands after the last child. -/
def merged_repeated_key : XmlNode :=
  mkGroup "hal" (indent [mkScalar "int" "a" "7", mkScalar "int" "b" "2"] ++
    [mkScalar "int" "n" "6"])

/-- The beginning `pre` of the content is the longest one that reads as an integer,
and `n` is that integer. -/
def numeric_head (content pre : List Char) (n : Int) : Prop :=
  (∃ rest, content = pre ++ rest) ∧ reads_as pre n ∧
    ∀ pre1 rest1 m, content = pre1 ++ rest1 → reads_as pre1 m → pre1.length ≤ pre.length

/-- Overlay that brings the `string` of key `n` twice, one child per line, the
second time with the content `R&D` (written `R&amp;D` in the document). -/
def overlay_repeated_amp : XmlNode :=
  mkGroup "hal" (indent [mkScalar "string" "n" "lab", mkScalar "string" "n" "R&D"])

/-- The group `spaced_scalars` once `overlay_repeated_amp` is merged into it: one
`string` of key `n` stands after the last child, and it is empty. -/
def merged_repeated_amp : XmlNode :=
  mkGroup "hal" (indent [mkScalar "int" "a" "1", mkScalar "int" "b" "2"] ++
    [mkScalar "string" "n" ""])

/-- Overlay that brings a new group `g` holding the `string` of key `n` with the
content `R&D`, one child per line. -/
def overlay_group_amp : XmlNode :=
  mkGroup "hal" (indent [mkGroup "g" (indent [mkScalar "string" "n" "R&D"])])

/-! ## Theorems -/

/-! ### Search -/

theorem xmlGetProp_of_not_element {n : XmlNode} (h : n.isElement = false) (prop : String) :
    xmlGetProp n prop = none := by
  cases n <;> simp_all [XmlNode.isElement, xmlGetProp]

theorem has_tag_prop_isElement {tag prop key : String} {n : XmlNode}
    (h : has_tag_prop tag prop key n = true) : n.isElement = true := by
  cases n <;> simp_all [has_tag_prop, XmlNode.isElement, xmlGetProp]

theorem find_split_map_find (p : XmlNode → Bool) (l : List XmlNode) :
    (find_split p l).map (fun f => f.2.1) = l.find? p := by
  induction l with
  | nil => rfl
  | cons n rest ih =>
    unfold find_split
    by_cases hp : p n = true
    · simp [hp]
    · simp only [hp, Bool.false_eq_true, ↓reduceIte, List.find?_cons]
      rw [← ih]
      cases find_split p rest with
      | none => simp
      | some f => obtain ⟨b, x, a⟩ := f; simp

theorem find_split_some {p : XmlNode → Bool} {l before after : List XmlNode} {node : XmlNode}
    (h : find_split p l = some (before, node, after)) :
    l = before ++ node :: after ∧ p node = true ∧ ∀ x ∈ before, p x = false := by
  induction l generalizing before with
  | nil => simp [find_split] at h
  | cons n rest ih =>
    unfold find_split at h
    by_cases hp : p n = true
    · simp only [hp, ↓reduceIte, Option.some.injEq, Prod.mk.injEq] at h
      obtain ⟨rfl, rfl, rfl⟩ := h
      simp [hp]
    · simp only [hp, Bool.false_eq_true, ↓reduceIte] at h
      cases hr : find_split p rest with
      | none => simp [hr] at h
      | some f =>
        obtain ⟨b, x, a⟩ := f
        simp only [hr, Option.some.injEq, Prod.mk.injEq] at h
        obtain ⟨rfl, rfl, rfl⟩ := h
        obtain ⟨h1, h2, h3⟩ := ih hr
        refine ⟨by simp [h1], h2, ?_⟩
        intro y hy
        rcases List.mem_cons.mp hy with rfl | hy
        · simpa using hp
        · exact h3 y hy

theorem find_split_none {p : XmlNode → Bool} {l : List XmlNode} :
    find_split p l = none ↔ ∀ x ∈ l, p x = false := by
  induction l with
  | nil => simp [find_split]
  | cons n rest ih =>
    unfold find_split
    by_cases hp : p n = true
    · simp [hp]
    · simp only [hp, Bool.false_eq_true, ↓reduceIte, List.mem_cons, forall_eq_or_imp]
      rw [← ih]
      cases find_split p rest with
      | none => simp [hp]
      | some f => obtain ⟨b, x, a⟩ := f; simp

theorem search_visit_eq {tag prop key : String} {n : XmlNode}
    (h : n.name = tag → xmlGetProp n prop ≠ none) :
    search_visit tag prop key n = .ok (has_tag_prop tag prop key n) := by
  unfold search_visit has_tag_prop
  by_cases hn : n.name = tag
  · cases hp : xmlGetProp n prop with
    | none => exact absurd hp (h hn)
    | some attr =>
      simp only [hn, ↓reduceIte, decide_True, Bool.true_and, Option.some.injEq]
      by_cases hk : key = attr
      · simp [hk]
      · have : ¬ attr = key := fun e => hk e.symm
        simp [hk, this]
  · simp [hn]

theorem shift_ok (n : XmlNode) (r : Option Found) :
    shift n (.ok r) = .ok (match r with
      | some (before, node, after) => some (n :: before, node, after)
      | none => none) := by
  cases r with
  | none => rfl
  | some f => obtain ⟨b, x, a⟩ := f; rfl

theorem search_next_eq {tag prop key : String} {l : List XmlNode} (h : carries tag prop l) :
    search_next tag prop key l = .ok (find_split (has_tag_prop tag prop key) l) := by
  induction l with
  | nil => rfl
  | cons n rest ih =>
    have hrest : carries tag prop rest := fun x hx => h x (List.mem_cons_of_mem _ hx)
    unfold search_next find_split
    rw [ih hrest, shift_ok]
    by_cases he : n.isElement = true
    · rw [search_visit_eq (h n (List.mem_cons_self _ _))]
      by_cases hp : has_tag_prop tag prop key n = true
      · simp [he, hp]
      · simp only [Bool.not_eq_true] at hp
        simp [he, hp]
    · have hp : has_tag_prop tag prop key n = false := by
        cases hq : has_tag_prop tag prop key n with
        | false => rfl
        | true => exact absurd (has_tag_prop_isElement hq) he
      simp [he, hp]

theorem search_node_eq {tag prop key : String} {l : List XmlNode} (h : carries tag prop l)
    (hne : l ≠ []) :
    search_node l tag prop key = .ok (find_split (has_tag_prop tag prop key) l) := by
  cases l with
  | nil => exact absurd rfl hne
  | cons n rest =>
    have hrest : carries tag prop rest := fun x hx => h x (List.mem_cons_of_mem _ hx)
    unfold search_node find_split
    simp only []
    rw [search_next_eq hrest, shift_ok, search_visit_eq (h n (List.mem_cons_self _ _))]
    by_cases hp : has_tag_prop tag prop key n = true
    · simp [hp]
    · simp only [Bool.not_eq_true] at hp
      simp [hp]

/-- A search that meets the wanted node `x` after nodes that do not match stops
on `x`, whatever follows it. -/
theorem search_next_append {tag prop key : String} (l1 : List XmlNode) {x : XmlNode}
    (l2 : List XmlNode) (hcar : carries tag prop l1)
    (hno : ∀ y ∈ l1, has_tag_prop tag prop key y = false)
    (hx : has_tag_prop tag prop key x = true) :
    search_next tag prop key (l1 ++ x :: l2) = .ok (some (l1, x, l2)) := by
  induction l1 with
  | nil =>
    have hxe := has_tag_prop_isElement hx
    have hv : search_visit tag prop key x = .ok true := by
      rw [search_visit_eq, hx]
      intro hn
      simp only [has_tag_prop, Bool.and_eq_true, decide_eq_true_eq] at hx
      rw [hx.2]
      simp
    simp [search_next, hxe, hv]
  | cons a as ih =>
    have ih1 := ih (fun y hy => hcar y (List.mem_cons_of_mem _ hy))
      (fun y hy => hno y (List.mem_cons_of_mem _ hy))
    have hv : search_visit tag prop key a = .ok false := by
      rw [search_visit_eq (hcar a (List.mem_cons_self _ _)), hno a (List.mem_cons_self _ _)]
    rw [List.cons_append, search_next, ih1, hv]
    by_cases ha : a.isElement = true
    · simp [ha, shift]
    · simp [ha, shift]

theorem search_node_append {tag prop key : String} (l1 : List XmlNode) {x : XmlNode}
    (l2 : List XmlNode) (hcar : carries tag prop l1)
    (hno : ∀ y ∈ l1, has_tag_prop tag prop key y = false)
    (hx : has_tag_prop tag prop key x = true) :
    search_node (l1 ++ x :: l2) tag prop key = .ok (some (l1, x, l2)) := by
  cases l1 with
  | nil =>
    have hv : search_visit tag prop key x = .ok true := by
      rw [search_visit_eq, hx]
      intro hn
      simp only [has_tag_prop, Bool.and_eq_true, decide_eq_true_eq] at hx
      rw [hx.2]
      simp
    simp [search_node, hv]
  | cons a as =>
    have hv : search_visit tag prop key a = .ok false := by
      rw [search_visit_eq (hcar a (List.mem_cons_self _ _)), hno a (List.mem_cons_self _ _)]
    have hn := search_next_append as l2
      (fun y hy => hcar y (List.mem_cons_of_mem _ hy))
      (fun y hy => hno y (List.mem_cons_of_mem _ hy)) hx
    simp [search_node, hv, hn, shift]

/-- A search in a chain without matching node finds nothing. -/
theorem search_node_none {tag prop key : String} {l : List XmlNode} (hne : l ≠ [])
    (hcar : carries tag prop l) (hno : ∀ y ∈ l, has_tag_prop tag prop key y = false) :
    search_node l tag prop key = .ok none := by
  rw [search_node_eq hcar hne, find_split_none.mpr hno]

theorem find_elements (p : XmlNode → Bool)
    (hp : ∀ x, p x = true → x.isElement = true) (l : List XmlNode) :
    (elements l).find? p = l.find? p := by
  induction l with
  | nil => rfl
  | cons c rest ih =>
    unfold elements at ih ⊢
    by_cases he : c.isElement = true
    · simp only [List.filter_cons, he, ↓reduceIte, List.find?_cons, ih]
    · simp only [Bool.not_eq_true] at he
      have hpc : p c = false := by
        cases hq : p c with
        | false => rfl
        | true => rw [hp c hq] at he; cases he
      simp only [List.filter_cons, he, Bool.false_eq_true, ↓reduceIte, List.find?_cons, hpc, ih]

theorem find_dropWhile_not_element (p : XmlNode → Bool)
    (hp : ∀ x, p x = true → x.isElement = true) (l : List XmlNode) :
    (l.dropWhile (fun n => !n.isElement)).find? p = (elements l).find? p := by
  rw [find_elements p hp]
  induction l with
  | nil => rfl
  | cons c rest ih =>
    by_cases he : c.isElement = true
    · simp [List.dropWhile, he]
    · simp only [Bool.not_eq_true] at he
      have hpc : p c = false := by
        cases hq : p c with
        | false => rfl
        | true => rw [hp c hq] at he; cases he
      simp only [List.dropWhile, he, Bool.not_false, List.find?_cons, hpc]
      exact ih

theorem elements_dropWhile (l : List XmlNode) :
    elements (l.dropWhile (fun n => !n.isElement)) = elements l := by
  induction l with
  | nil => rfl
  | cons c rest ih =>
    by_cases he : c.isElement = true
    · simp [List.dropWhile, he]
    · simp only [Bool.not_eq_true] at he
      simp only [List.dropWhile, he, Bool.not_false, elements, List.filter_cons,
        Bool.false_eq_true, ↓reduceIte]
      exact ih

theorem dropWhile_eq_nil_iff_elements (l : List XmlNode) :
    l.dropWhile (fun n => !n.isElement) = [] ↔ elements l = [] := by
  induction l with
  | nil => simp [elements]
  | cons c rest ih =>
    by_cases he : c.isElement = true
    · simp [List.dropWhile, he, elements, List.filter_cons]
    · simp only [Bool.not_eq_true] at he
      simp only [List.dropWhile, he, Bool.not_false, elements, List.filter_cons,
        Bool.false_eq_true, ↓reduceIte]
      exact ih

theorem head_elements (l : List XmlNode) :
    (elements l).head? = (l.dropWhile (fun n => !n.isElement)).head? := by
  induction l with
  | nil => rfl
  | cons c rest ih =>
    by_cases he : c.isElement = true
    · simp [elements, List.filter_cons, he]
    · simp only [Bool.not_eq_true] at he
      simp only [elements, List.filter_cons, he, Bool.false_eq_true, ↓reduceIte,
        List.dropWhile_cons, Bool.not_false]
      exact ih

theorem dropWhile_append_element (mid : List XmlNode) {x : XmlNode} (after : List XmlNode)
    (hx : x.isElement = true) :
    (mid ++ x :: after).dropWhile (fun n => !n.isElement) =
      mid.dropWhile (fun n => !n.isElement) ++ x :: after := by
  induction mid with
  | nil => simp [List.dropWhile, hx]
  | cons m ms ih =>
    by_cases hm : m.isElement = true
    · simp [List.dropWhile, hm]
    · simp only [Bool.not_eq_true] at hm
      simp only [List.cons_append, List.dropWhile_cons, hm, Bool.not_false, ↓reduceIte]
      exact ih

theorem takeWhile_append_element (mid : List XmlNode) {x : XmlNode} (after : List XmlNode)
    (hx : x.isElement = true) :
    (mid ++ x :: after).takeWhile (fun n => !n.isElement) =
      mid.takeWhile (fun n => !n.isElement) := by
  induction mid with
  | nil => simp [List.takeWhile, hx]
  | cons m ms ih =>
    by_cases hm : m.isElement = true
    · simp [List.takeWhile, hm]
    · simp only [Bool.not_eq_true] at hm
      simp only [List.cons_append, List.takeWhile_cons, hm, Bool.not_false, ↓reduceIte]
      rw [ih]

theorem takeWhile_append_dropWhile_rest (mid rest : List XmlNode) :
    mid.takeWhile (fun n => !n.isElement) ++ (mid.dropWhile (fun n => !n.isElement) ++ rest) =
      mid ++ rest := by
  rw [← List.append_assoc, List.takeWhile_append_dropWhile]

theorem carries_dropWhile {tag prop : String} {l : List XmlNode} (h : carries tag prop l) :
    carries tag prop (l.dropWhile (fun n => !n.isElement)) :=
  fun y hy => h y ((List.dropWhile_sublist _).subset hy)

theorem no_match_dropWhile {p : XmlNode → Bool} {l : List XmlNode}
    (h : ∀ y ∈ l, p y = false) : ∀ y ∈ l.dropWhile (fun n => !n.isElement), p y = false :=
  fun y hy => h y ((List.dropWhile_sublist _).subset hy)

/-! ### Overlay merge: one overlay element at a time -/

theorem children_element (n : String) (a : List (String × String)) (c : List XmlNode) :
    (XmlNode.element n a c).children = c := rfl

theorem isElement_element (n : String) (a : List (String × String)) (c : List XmlNode) :
    (XmlNode.element n a c).isElement = true := rfl

theorem name_element (n : String) (a : List (String × String)) (c : List XmlNode) :
    (XmlNode.element n a c).name = n := rfl

theorem xmlGetProp_element (n : String) (a : List (String × String)) (c : List XmlNode)
    (prop : String) : xmlGetProp (XmlNode.element n a c) prop = a.lookup prop := rfl

theorem xmlAddChildList_of_element (children : List XmlNode) {c : XmlNode} (rest : List XmlNode)
    (hc : c.isElement = true) : xmlAddChildList children (c :: rest) = children ++ c :: rest := by
  cases c with
  | element n a cs => rfl
  | text s => cases hc
  | comment s => cases hc

/-- Plain text, without `&`, goes to the text buffer as it is. -/
theorem foldl_ref_step_plain (l : List Char) (buf : List Char) (nodes : List XmlNode)
    (h : '&' ∉ l) :
    l.foldl ref_step { mode := .text, buf := buf, nodes := nodes } =
      { mode := .text, buf := buf ++ l, nodes := nodes } := by
  induction l generalizing buf with
  | nil => simp
  | cons c cs ih =>
    have hc : c ≠ '&' := fun e => h (e ▸ List.mem_cons_self _ _)
    have hcs : '&' ∉ cs := fun e => h (List.mem_cons_of_mem _ e)
    rw [List.foldl_cons]
    have hstep : ref_step { mode := .text, buf := buf, nodes := nodes } c =
        { mode := .text, buf := buf ++ [c], nodes := nodes } := by
      simp [ref_step, ref_text_step, hc]
    rw [hstep, ih (buf ++ [c]) hcs, List.append_assoc]
    rfl

/-- A value without `&` is made one text node that holds it, no node when it is
empty. -/
theorem xmlStringGetNodeList_plain (value : String) (h : '&' ∉ value.toList) :
    xmlStringGetNodeList value = if value = "" then [] else [.text value] := by
  unfold xmlStringGetNodeList
  rw [foldl_ref_step_plain value.toList [] [] h]
  simp only [ref_flush, List.nil_append]
  by_cases hv : value = ""
  · subst hv
    rfl
  · have hne : value.toList ≠ [] := by
      intro e
      apply hv
      have : value = String.mk value.toList := rfl
      rw [this, e]
    have hem : value.toList.isEmpty = false := by
      cases hl : value.toList with
      | nil => exact absurd hl hne
      | cons _ _ => rfl
    simp only [hem, hv, Bool.false_eq_true, ↓reduceIte]
    rfl

/-- Setting a content without `&` on an element gives the element that content;
on a text node or a comment the content is stored as it is. -/
theorem xmlNodeGetContent_setContent (node : XmlNode) (value : String)
    (h : '&' ∉ value.toList) :
    xmlNodeGetContent (xmlNodeSetContent node value) = value := by
  cases node with
  | element n a cs =>
    simp only [xmlNodeSetContent, xmlStringGetNodeList_plain value h]
    by_cases hv : value = ""
    · simp [hv, xmlNodeGetContent, xmlNodeListGetContent]
    · simp [hv, xmlNodeGetContent, xmlNodeListGetContent]
  | text s => simp [xmlNodeSetContent, xmlNodeGetContent]
  | comment s => simp [xmlNodeSetContent, xmlNodeGetContent]

theorem xmlNodeSetContent_name (node : XmlNode) (value : String) :
    (xmlNodeSetContent node value).name = node.name := by
  cases node <;> rfl

theorem xmlGetProp_setContent (node : XmlNode) (value prop : String) :
    xmlGetProp (xmlNodeSetContent node value) prop = xmlGetProp node prop := by
  cases node <;> rfl

theorem parse_overlay_siblings_blank (n : XmlNode) (following sibs : List XmlNode)
    (hn : n.isElement = false) :
    parse_overlay_siblings (n :: following) sibs = parse_overlay_siblings following sibs := by
  rw [parse_overlay_siblings]
  simp [hn]

theorem parse_overlay_siblings_blanks (blanks following sibs : List XmlNode)
    (hb : ∀ x ∈ blanks, x.isElement = false) :
    parse_overlay_siblings (blanks ++ following) sibs = parse_overlay_siblings following sibs := by
  induction blanks with
  | nil => rfl
  | cons b bs ih =>
    rw [List.cons_append, parse_overlay_siblings_blank _ _ _ (hb b (List.mem_cons_self _ _))]
    exact ih (fun x hx => hb x (List.mem_cons_of_mem _ hx))

theorem parse_overlay_siblings_only_blanks (blanks sibs : List XmlNode)
    (hb : ∀ x ∈ blanks, x.isElement = false) :
    parse_overlay_siblings blanks sibs = .ok sibs := by
  have := parse_overlay_siblings_blanks blanks [] sibs hb
  rw [List.append_nil] at this
  rw [this, parse_overlay_siblings]

/-- The merge into a destination whose children after the first hold an element
`x`: the loop runs on the chain that starts at the first element after the first
child, and the nodes before that chain stay as they are. -/
theorem parse_overlay_group_frame (tag : String) (attrs : List (String × String))
    (o0 : XmlNode) (following : List XmlNode) (dn : String) (da : List (String × String))
    (d0 : XmlNode) (mid : List XmlNode) (x : XmlNode) (after : List XmlNode)
    (hx : x.isElement = true) :
    parse_overlay_group (.element tag attrs (o0 :: following))
        (.element dn da (d0 :: (mid ++ x :: after))) =
      match parse_overlay_siblings following
          (mid.dropWhile (fun n => !n.isElement) ++ x :: after) with
      | .error e => .error e
      | .ok sibs =>
        .ok (.element dn da (d0 :: (mid.takeWhile (fun n => !n.isElement) ++ sibs))) := by
  rw [parse_overlay_group]
  simp only [XmlNode.children, next_node, List.cons_append]
  rw [dropWhile_append_element mid after hx]
  cases hm : mid.dropWhile (fun n => !n.isElement) with
  | nil =>
    simp only [List.nil_append, passed_over, XmlNode.setChildren]
    rw [takeWhile_append_element mid after hx]
    rfl
  | cons m ms =>
    simp only [List.cons_append, passed_over, XmlNode.setChildren]
    rw [takeWhile_append_element mid after hx]

/-- The general form of `parse_overlay_group_frame`: the destination has an
element after its first child. -/
theorem parse_overlay_group_frame_general (tag : String) (attrs : List (String × String))
    (o0 : XmlNode) (following : List XmlNode) (dn : String) (da : List (String × String))
    (d0 : XmlNode) (rest : List XmlNode) (hrest : elements rest ≠ []) :
    parse_overlay_group (.element tag attrs (o0 :: following)) (.element dn da (d0 :: rest)) =
      match parse_overlay_siblings following (rest.dropWhile (fun n => !n.isElement)) with
      | .error e => .error e
      | .ok sibs =>
        .ok (.element dn da (d0 :: (rest.takeWhile (fun n => !n.isElement) ++ sibs))) := by
  rw [parse_overlay_group]
  simp only [XmlNode.children, next_node]
  cases hm : rest.dropWhile (fun n => !n.isElement) with
  | nil => exact absurd ((dropWhile_eq_nil_iff_elements rest).mp hm) hrest
  | cons m ms =>
    simp only [passed_over, XmlNode.setChildren]
    rfl

/-- Step of the merge loop on a `list` element of the overlay. -/
theorem parse_overlay_siblings_list (o : XmlNode) (following sibs : List XmlNode)
    (he : o.isElement = true) (hn : o.name = TAG_LIST) :
    parse_overlay_siblings (o :: following) sibs =
      match overlay_list o following sibs with
      | .error e => .error e
      | .ok sibs1 => parse_overlay_siblings following sibs1 := by
  have hne : ¬ TAG_LIST = TAG_GROUP := by decide
  rw [parse_overlay_siblings]
  simp [he, hn, hne]

/-- Step of the merge loop on a `string`, `int` or `bool` element of the overlay. -/
theorem parse_overlay_siblings_property (o : XmlNode) (following sibs : List XmlNode)
    (he : o.isElement = true) (hg : o.name ≠ TAG_GROUP) (hl : o.name ≠ TAG_LIST) :
    parse_overlay_siblings (o :: following) sibs =
      match overlay_property o sibs with
      | .error e => .error e
      | .ok sibs1 => parse_overlay_siblings following sibs1 := by
  rw [parse_overlay_siblings]
  simp [he, hg, hl]

/-- Step of the merge loop on a `group` element of the overlay that has no match
in the destination chain. -/
theorem parse_overlay_siblings_new_group (gattrs : List (String × String))
    (gchildren following sibs : List XmlNode) (n : String)
    (hname : gattrs.lookup ATTR_NAME = some n) (hne : sibs ≠ [])
    (hcar : carries TAG_GROUP ATTR_NAME sibs)
    (hno : ∀ y ∈ sibs, has_tag_prop TAG_GROUP ATTR_NAME n y = false) :
    parse_overlay_siblings (.element TAG_GROUP gattrs gchildren :: following) sibs =
      parse_overlay_siblings following
        (sibs ++ .element TAG_GROUP gattrs gchildren :: following) := by
  have hsearch : search_group sibs n = .ok none := search_node_none hne hcar hno
  rw [parse_overlay_siblings]
  simp only [isElement_element, ↓reduceIte, name_element, xmlGetProp_element, hname, hsearch,
    xmlCopyNodeList, xmlAddChildList_of_element _ _ (isElement_element _ _ _)]

/-- Appending (default mode): the destination holds, after its first child, the
nodes `mid` without list named `n`, then a list `dl` named `n`; the only element
child of the overlay, found after its first child, is a list named `n` whose mode is
not "overwrite" and whose children after the first hold an element.  The merge
completes and changes the destination in one place: the children of the overlay
list from the first element after its first child on are added at the end of `dl`. -/
theorem merge_list_append (n : String) (otag : String) (oattrs : List (String × String))
    (o0 : XmlNode) (pre post : List XmlNode) (lattrs : List (String × String))
    (c0 : XmlNode) (items : List XmlNode)
    (dn : String) (da : List (String × String)) (d0 : XmlNode) (mid : List XmlNode)
    (dl : XmlNode) (after : List XmlNode)
    (hpre : ∀ x ∈ pre, x.isElement = false) (hpost : ∀ x ∈ post, x.isElement = false)
    (hname : lattrs.lookup ATTR_NAME = some n)
    (hmode : lattrs.lookup ATTR_OVERLAY_MODE ≠ some "overwrite")
    (hitems : elements items ≠ [])
    (hcar : carries TAG_LIST ATTR_NAME mid)
    (hmid : ∀ y ∈ mid, has_tag_prop TAG_LIST ATTR_NAME n y = false)
    (hdl : has_tag_prop TAG_LIST ATTR_NAME n dl = true) :
    parse_overlay_group
        (.element otag oattrs (o0 :: (pre ++ .element TAG_LIST lattrs (c0 :: items) :: post)))
        (.element dn da (d0 :: (mid ++ dl :: after))) =
      .ok (.element dn da (d0 :: (mid ++
        dl.setChildren (dl.children ++ items.dropWhile (fun x => !x.isElement)) :: after))) ∧
    elements (dl.children ++ items.dropWhile (fun x => !x.isElement)) =
      elements dl.children ++ elements items := by
  constructor
  · rw [parse_overlay_group_frame _ _ _ _ _ _ _ _ _ _ (has_tag_prop_isElement hdl),
      parse_overlay_siblings_blanks _ _ _ hpre,
      parse_overlay_siblings_list (.element TAG_LIST lattrs (c0 :: items)) post _ rfl rfl]
    have hsearch : search_list (mid.dropWhile (fun n => !n.isElement) ++ dl :: after) n =
        .ok (some (mid.dropWhile (fun n => !n.isElement), dl, after)) :=
      search_node_append _ _ (carries_dropWhile hcar) (no_match_dropWhile hmid) hdl
    have hsrc : ∃ s ss, items.dropWhile (fun x => !x.isElement) = s :: ss ∧ s.isElement = true := by
      cases hd : items.dropWhile (fun x => !x.isElement) with
      | nil => exact absurd ((dropWhile_eq_nil_iff_elements items).mp hd) hitems
      | cons s ss =>
        refine ⟨s, ss, rfl, ?_⟩
        have := List.head_dropWhile_not (fun x : XmlNode => !x.isElement) items
          (by rw [hd]; simp)
        simpa [hd] using this
    obtain ⟨s, ss, hs, hse⟩ := hsrc
    have hov : decide (lattrs.lookup ATTR_OVERLAY_MODE = some "overwrite") = false := by
      simpa using hmode
    simp only [overlay_list, xmlGetProp, hname, hsearch, hov, Bool.false_eq_true, ↓reduceIte,
      XmlNode.children, next_node, hs, xmlCopyNodeList, xmlAddChildList_of_element _ _ hse]
    rw [parse_overlay_siblings_only_blanks _ _ hpost]
    simp only [takeWhile_append_dropWhile_rest]
  · rw [elements, List.filter_append]
    exact congrArg _ (elements_dropWhile items)

/-- Overwriting: as `merge_list_append`, with an overlay list whose mode is
"overwrite" and a destination list that has at least one child node.  The merge
completes; of the old children of the destination list only non-elements stay, and
the children of the overlay list from the first element after its first child on are
added (none when there is no such element). -/
theorem merge_list_overwrite (n : String) (otag : String) (oattrs : List (String × String))
    (o0 : XmlNode) (pre post : List XmlNode) (lattrs : List (String × String))
    (c0 : XmlNode) (items : List XmlNode)
    (dn : String) (da : List (String × String)) (d0 : XmlNode) (mid : List XmlNode)
    (dl : XmlNode) (k0 : XmlNode) (kept after : List XmlNode)
    (hpre : ∀ x ∈ pre, x.isElement = false) (hpost : ∀ x ∈ post, x.isElement = false)
    (hname : lattrs.lookup ATTR_NAME = some n)
    (hmode : lattrs.lookup ATTR_OVERLAY_MODE = some "overwrite")
    (hkids : dl.children = k0 :: kept)
    (hcar : carries TAG_LIST ATTR_NAME mid)
    (hmid : ∀ y ∈ mid, has_tag_prop TAG_LIST ATTR_NAME n y = false)
    (hdl : has_tag_prop TAG_LIST ATTR_NAME n dl = true) :
    parse_overlay_group
        (.element otag oattrs (o0 :: (pre ++ .element TAG_LIST lattrs (c0 :: items) :: post)))
        (.element dn da (d0 :: (mid ++ dl :: after))) =
      .ok (.element dn da (d0 :: (mid ++
        dl.setChildren (kept.filter (fun x => !x.isElement) ++
          items.dropWhile (fun x => !x.isElement)) :: after))) ∧
    elements (kept.filter (fun x => !x.isElement) ++ items.dropWhile (fun x => !x.isElement)) =
      elements items := by
  constructor
  · rw [parse_overlay_group_frame _ _ _ _ _ _ _ _ _ _ (has_tag_prop_isElement hdl),
      parse_overlay_siblings_blanks _ _ _ hpre,
      parse_overlay_siblings_list (.element TAG_LIST lattrs (c0 :: items)) post _ rfl rfl]
    have hsearch : search_list (mid.dropWhile (fun n => !n.isElement) ++ dl :: after) n =
        .ok (some (mid.dropWhile (fun n => !n.isElement), dl, after)) :=
      search_node_append _ _ (carries_dropWhile hcar) (no_match_dropWhile hmid) hdl
    cases hd : items.dropWhile (fun x => !x.isElement) with
    | nil =>
      simp only [overlay_list, xmlGetProp, hname, hsearch, hmode, decide_True, ↓reduceIte,
        hkids, remove_list_nodes, children_element, next_node, hd, List.append_nil]
      rw [parse_overlay_siblings_only_blanks _ _ hpost]
      simp only [takeWhile_append_dropWhile_rest]
    | cons s ss =>
      have hse : s.isElement = true := by
        have := List.head_dropWhile_not (fun x : XmlNode => !x.isElement) items
          (by rw [hd]; simp)
        simpa [hd] using this
      simp only [overlay_list, xmlGetProp, hname, hsearch, hmode, decide_True, ↓reduceIte,
        hkids, remove_list_nodes, children_element, next_node, hd, xmlCopyNodeList,
        xmlAddChildList_of_element _ _ hse]
      rw [parse_overlay_siblings_only_blanks _ _ hpost]
      simp only [takeWhile_append_dropWhile_rest]
  · rw [elements, List.filter_append, List.filter_filter]
    have h1 : kept.filter (fun a => (a.isElement && !a.isElement)) = [] := by
      apply List.filter_eq_nil_iff.mpr
      intro a _
      cases a.isElement <;> simp
    rw [h1, List.nil_append]
    exact elements_dropWhile items

/-- A scalar of the overlay whose tag and key exist in the destination: the
destination holds, after its first child, the nodes `mid` without scalar of tag `t`
and key `k`, then such a scalar `ds`; the only element child of the overlay, found
after its first child, is a scalar of tag `t` and key `k`.  The merge completes and
changes the destination in one place: the content of `ds` is replaced by what
`xmlNodeSetContent` makes of the content of the overlay scalar (its name and
attributes stay); no child is added. -/
theorem merge_scalar_replace (t k : String) (otag : String) (oattrs : List (String × String))
    (o0 : XmlNode) (pre post : List XmlNode) (sattrs : List (String × String))
    (schildren : List XmlNode)
    (dn : String) (da : List (String × String)) (d0 : XmlNode) (mid : List XmlNode)
    (ds : XmlNode) (after : List XmlNode)
    (ht : t = TAG_STRING ∨ t = TAG_INT ∨ t = TAG_BOOL)
    (hpre : ∀ x ∈ pre, x.isElement = false) (hpost : ∀ x ∈ post, x.isElement = false)
    (hkey : sattrs.lookup ATTR_KEY = some k)
    (hcar : carries t ATTR_KEY mid)
    (hmid : ∀ y ∈ mid, has_tag_prop t ATTR_KEY k y = false)
    (hds : has_tag_prop t ATTR_KEY k ds = true) :
    parse_overlay_group
        (.element otag oattrs (o0 :: (pre ++ .element t sattrs schildren :: post)))
        (.element dn da (d0 :: (mid ++ ds :: after))) =
      .ok (.element dn da (d0 :: (mid ++
        xmlNodeSetContent ds (xmlNodeGetContent (.element t sattrs schildren)) :: after))) := by
  have hg : t ≠ TAG_GROUP := by rcases ht with h | h | h <;> (rw [h]; decide)
  have hl : t ≠ TAG_LIST := by rcases ht with h | h | h <;> (rw [h]; decide)
  rw [parse_overlay_group_frame _ _ _ _ _ _ _ _ _ _ (has_tag_prop_isElement hds),
    parse_overlay_siblings_blanks _ _ _ hpre,
    parse_overlay_siblings_property (.element t sattrs schildren) post _ rfl hg hl]
  have hsearch : search_property (mid.dropWhile (fun n => !n.isElement) ++ ds :: after) t k =
      .ok (some (mid.dropWhile (fun n => !n.isElement), ds, after)) :=
    search_node_append _ _ (carries_dropWhile hcar) (no_match_dropWhile hmid) hds
  simp only [overlay_property, name_element, ht, ↓reduceIte, xmlGetProp_element, hkey, hsearch]
  rw [parse_overlay_siblings_only_blanks _ _ hpost]
  simp only [takeWhile_append_dropWhile_rest]

/-- A group of the overlay whose name exists in the destination: the
destination holds, after its first child, the nodes `mid` without group named `n`,
then a group `dg` named `n`; the only element child of the overlay, found after its
first child, is a group `g` named `n`.  The merge is the merge of `g` into `dg`, put
back in the place of `dg`: every other child of the destination keeps its place and
its subtree and no child is added. -/
theorem merge_group_recurse (n : String) (otag : String) (oattrs : List (String × String))
    (o0 : XmlNode) (pre post : List XmlNode) (gattrs : List (String × String))
    (gchildren : List XmlNode)
    (dn : String) (da : List (String × String)) (d0 : XmlNode) (mid : List XmlNode)
    (dg : XmlNode) (after : List XmlNode)
    (hpre : ∀ x ∈ pre, x.isElement = false) (hpost : ∀ x ∈ post, x.isElement = false)
    (hname : gattrs.lookup ATTR_NAME = some n)
    (hcar : carries TAG_GROUP ATTR_NAME mid)
    (hmid : ∀ y ∈ mid, has_tag_prop TAG_GROUP ATTR_NAME n y = false)
    (hdg : has_tag_prop TAG_GROUP ATTR_NAME n dg = true) :
    parse_overlay_group
        (.element otag oattrs (o0 :: (pre ++ .element TAG_GROUP gattrs gchildren :: post)))
        (.element dn da (d0 :: (mid ++ dg :: after))) =
      match parse_overlay_group (.element TAG_GROUP gattrs gchildren) dg with
      | .error e => .error e
      | .ok merged => .ok (.element dn da (d0 :: (mid ++ merged :: after))) := by
  rw [parse_overlay_group_frame _ _ _ _ _ _ _ _ _ _ (has_tag_prop_isElement hdg),
    parse_overlay_siblings_blanks _ _ _ hpre, parse_overlay_siblings]
  have hsearch : search_group (mid.dropWhile (fun n => !n.isElement) ++ dg :: after) n =
      .ok (some (mid.dropWhile (fun n => !n.isElement), dg, after)) :=
    search_node_append _ _ (carries_dropWhile hcar) (no_match_dropWhile hmid) hdg
  simp only [isElement_element, ↓reduceIte, name_element, xmlGetProp_element, hname, hsearch]
  cases parse_overlay_group (.element TAG_GROUP gattrs gchildren) dg with
  | error e => rfl
  | ok merged =>
    simp only []
    rw [parse_overlay_siblings_only_blanks _ _ hpost]
    simp only [takeWhile_append_dropWhile_rest]

/-- A group of the overlay whose name does not exist in the destination, when it
is the only element child of the overlay found after its first child: the merge
completes and adds at the end of the destination the group, as it is in the overlay,
followed by the non-elements that follow it in the overlay; the other children
stay as they are. -/
theorem merge_group_add (n : String) (otag : String) (oattrs : List (String × String))
    (o0 : XmlNode) (pre post : List XmlNode) (gattrs : List (String × String))
    (gchildren : List XmlNode)
    (dn : String) (da : List (String × String)) (d0 : XmlNode) (rest : List XmlNode)
    (hpre : ∀ x ∈ pre, x.isElement = false) (hpost : ∀ x ∈ post, x.isElement = false)
    (hname : gattrs.lookup ATTR_NAME = some n)
    (hrest : elements rest ≠ [])
    (hcar : carries TAG_GROUP ATTR_NAME rest)
    (hno : ∀ y ∈ rest, has_tag_prop TAG_GROUP ATTR_NAME n y = false) :
    parse_overlay_group
        (.element otag oattrs (o0 :: (pre ++ .element TAG_GROUP gattrs gchildren :: post)))
        (.element dn da (d0 :: rest)) =
      .ok (.element dn da (d0 :: (rest ++ .element TAG_GROUP gattrs gchildren :: post))) := by
  have hne : rest.dropWhile (fun n => !n.isElement) ≠ [] :=
    fun e => hrest ((dropWhile_eq_nil_iff_elements rest).mp e)
  rw [parse_overlay_group_frame_general _ _ _ _ _ _ _ _ hrest,
    parse_overlay_siblings_blanks _ _ _ hpre,
    parse_overlay_siblings_new_group gattrs gchildren post _ n hname hne
      (carries_dropWhile hcar) (no_match_dropWhile hno),
    parse_overlay_siblings_only_blanks _ _ hpost]
  simp only [takeWhile_append_dropWhile_rest]

/-! ### Overlay merge at concrete inputs (C1 to C5) -/

/-- C1 (code at a failing input): the destination list holds TLV1, TLV2, TLV3 and the
overlay list, in default mode and written on one line, holds TLV4 and TLV5.  After
the merge the destination list holds TLV1, TLV2, TLV3, TLV5: the first item of the
overlay list is not appended. -/
theorem append_compact_overlay_list_loses_first_item :
    parse_overlay_group overlay_compact_list base_streamline =
      .ok (mkGroup "streamline1" (indent [mkList "tlvs" none
        (indent [mkItem "TLV1", mkItem "TLV2", mkItem "TLV3"] ++ [mkItem "TLV5"])])) := by
  rfl

/-- C2 (code at a failing input): overwriting a destination list that has no child
node does not complete, the removal loop reads through `NULL`; nor does the merge of
an overlay list in overwrite mode that has no child node. -/
theorem overwrite_childless_list_faults :
    parse_overlay_group overlay_overwrite_one base_childless_list = .error .null_deref ∧
      parse_overlay_group overlay_overwrite_childless base_streamline =
        .error .null_deref :=
  ⟨rfl, rfl⟩

/-- C3 (code at a failing input): the destination group, written on one line, holds
the `int` scalars `a` and `b`; the overlay sets `a` to 7.  After the merge the
existing `a` still holds 1 and a second scalar `a` holding 7 has been appended. -/
theorem overlay_scalar_on_first_child_appends_duplicate :
    parse_overlay_group overlay_set_a base_compact_scalars =
      .ok (mkGroup "hal" [mkScalar "int" "a" "1", mkScalar "int" "b" "2",
        mkScalar "int" "a" "7"]) := by
  rfl

/-- C4 (code at a failing input): the overlay brings a new group `g` followed by a
new list `l` with the single item A.  After the merge the list `l` of the
destination holds the item A twice. -/
theorem new_group_then_new_list_duplicates_items :
    parse_overlay_group overlay_new_group_then_list base_one_scalar =
      .ok (mkGroup "crm1" (indent [mkScalar "int" "x" "1"] ++
        [mkGroup "g" (indent [mkScalar "int" "a" "1"]), ws,
         mkList "l" none (indent [mkItem "A"] ++ [mkItem "A", ws]), ws])) := by
  rfl

/-- C5 (code at a failing input): the configuration is written on one line and its
first child is the group `common`; the only element child of the overlay is a group
`common`.  After the merge the destination group `common` is unchanged and a second
group `common`, the copy of the overlay group, has been added to the parent. -/
theorem overlay_group_matching_first_child_is_appended :
    parse_overlay_group overlay_common base_compact_config =
      .ok (.element TAG_CONFIG [] (base_compact_config.children ++
        [mkGroup "common" (indent [mkScalar "int" "test" "0x20"]), ws])) := by
  rfl

/-! ### Group selection (C6, C7, C8) -/

theorem groups_well_formed_in_mem {cs : List XmlNode} (h : groups_well_formed_in cs = true)
    {g : XmlNode} (hg : g ∈ cs) (hname : g.name = TAG_GROUP) :
    xmlGetProp g ATTR_NAME ≠ none ∧ groups_well_formed g = true := by
  induction cs with
  | nil => cases hg
  | cons c rest ih =>
    unfold groups_well_formed_in at h
    simp only [Bool.and_eq_true] at h
    rcases List.mem_cons.mp hg with rfl | hg
    · have h1 := h.1
      simp only [hname, ↓reduceIte, Bool.and_eq_true] at h1
      refine ⟨?_, h1.2⟩
      intro hn
      rw [hn] at h1
      simp at h1
    · exact ih h.2 hg

theorem groups_well_formed_children {n : XmlNode} (h : groups_well_formed n = true) :
    ∃ c rest, n.children = c :: rest ∧ c.isElement = false ∧
      groups_well_formed_in (c :: rest) = true := by
  cases n with
  | element tag attrs cs =>
    unfold groups_well_formed at h
    simp only [Bool.and_eq_true] at h
    cases cs with
    | nil => simp [starts_blank] at h
    | cons c rest =>
      refine ⟨c, rest, rfl, ?_, h.2⟩
      simpa [starts_blank] using h.1
  | text s => simp [groups_well_formed] at h
  | comment s => simp [groups_well_formed] at h

theorem carries_of_groups_well_formed_in {cs : List XmlNode}
    (h : groups_well_formed_in cs = true) : carries TAG_GROUP ATTR_NAME cs :=
  fun _ hg hname => (groups_well_formed_in_mem h hg hname).1

/-- In a well-formed node the search of a group among the children, as
`select_group` runs it, finds the first group of that name, and fails its
assertion when there is no element child. -/
theorem search_group_children {n : XmlNode} (h : groups_well_formed n = true) (name : String) :
    ∃ level, next_node n.children = .ok level ∧
      (elements n.children = [] → search_group level name = .error .assertion) ∧
      (elements n.children ≠ [] →
        ∃ r, search_group level name = .ok r ∧ r.map (fun f => f.2.1) = first_group name n.children ∧
          ∀ f, r = some f → f.2.1 ∈ n.children) := by
  obtain ⟨c, rest, hcs, hc, hin⟩ := groups_well_formed_children h
  refine ⟨rest.dropWhile (fun n => !n.isElement), by rw [hcs]; rfl, ?_, ?_⟩
  · intro he
    have : elements rest = [] := by
      rw [hcs] at he
      simpa [elements, List.filter_cons, hc] using he
    rw [(dropWhile_eq_nil_iff_elements rest).mpr this]
    rfl
  · intro he
    have hrest : elements rest ≠ [] := by
      rw [hcs] at he
      simpa [elements, List.filter_cons, hc] using he
    have hne : rest.dropWhile (fun n => !n.isElement) ≠ [] :=
      fun e => hrest ((dropWhile_eq_nil_iff_elements rest).mp e)
    have hcar : carries TAG_GROUP ATTR_NAME (rest.dropWhile (fun n => !n.isElement)) := by
      intro x hx
      exact carries_of_groups_well_formed_in hin x
        (List.mem_cons_of_mem _ ((List.dropWhile_sublist _).subset hx))
    refine ⟨_, search_node_eq hcar hne, ?_, ?_⟩
    · rw [find_split_map_find, find_dropWhile_not_element _ (fun x => has_tag_prop_isElement)]
      unfold first_group
      rw [hcs]
      simp [elements, List.filter_cons, hc]
    · intro f hf
      obtain ⟨b, x, a⟩ := f
      have := (find_split_some hf).1
      rw [hcs]
      apply List.mem_cons_of_mem
      apply (List.dropWhile_sublist _).subset
      rw [this]
      simp

theorem first_group_mem {name : String} {cs : List XmlNode} {g : XmlNode}
    (h : first_group name cs = some g) : g ∈ cs ∧ g.name = TAG_GROUP := by
  unfold first_group at h
  have h1 := List.mem_of_find?_eq_some h
  have h2 := List.find?_some h
  refine ⟨(List.mem_filter.mp h1).1, ?_⟩
  simp only [has_tag_prop, Bool.and_eq_true, decide_eq_true_eq] at h2
  exact h2.1

theorem groups_well_formed_first_group {n g : XmlNode} {name : String}
    (h : groups_well_formed n = true) (hg : first_group name n.children = some g) :
    groups_well_formed g = true := by
  obtain ⟨c, rest, hcs, _, hin⟩ := groups_well_formed_children h
  rw [hcs] at hg
  exact (groups_well_formed_in_mem hin (first_group_mem hg).1 (first_group_mem hg).2).2

theorem groups_well_formed_resolve {names : List String} {n g : XmlNode}
    (h : groups_well_formed n = true) (hg : resolve n names = some g) :
    groups_well_formed g = true := by
  induction names generalizing n with
  | nil => simp only [resolve, Option.some.injEq] at hg; rw [← hg]; exact h
  | cons seg more ih =>
    unfold resolve at hg
    cases hf : first_group seg n.children with
    | none => simp [hf] at hg
    | some g1 =>
      simp only [hf] at hg
      exact ih (groups_well_formed_first_group h hf) hg

/-- The loop of `select_group` on a well-formed node, with names that fit the
buffer: it fails the assertion on an empty level, and otherwise ends on the
group the names lead to, or on `NULL` when a name has no match. -/
theorem select_group_walk_eq (segs : List (List Char)) (n : XmlNode) (tail : List XmlNode)
    (h : groups_well_formed n = true)
    (hshort : ∀ seg ∈ segs, (String.mk seg).utf8ByteSize ≤ 39) :
    (select_group_walk segs (n :: tail)).map (fun r => r.map List.head?) =
      if empty_level n (segs.map String.mk) = true then .error .assertion
      else .ok ((resolve n (segs.map String.mk)).map some) := by
  induction segs generalizing n tail with
  | nil => simp [select_group_walk, empty_level, resolve, Except.map]
  | cons seg more ih =>
    have hs : (String.mk seg).utf8ByteSize + 1 ≤ 40 := by
      have := hshort seg (List.mem_cons_self _ _)
      omega
    have hmore : ∀ s ∈ more, (String.mk s).utf8ByteSize ≤ 39 :=
      fun s hs => hshort s (List.mem_cons_of_mem _ hs)
    obtain ⟨level, hlevel, hempty, hfull⟩ := search_group_children h (String.mk seg)
    unfold select_group_walk
    simp only [hs, ↓reduceIte, hlevel, List.map_cons, empty_level, resolve]
    by_cases he : elements n.children = []
    · rw [hempty he]
      simp [he, Except.map]
    · obtain ⟨r, hr, hmap, hmem⟩ := hfull he
      rw [hr]
      have he' : (elements n.children).isEmpty = false := by
        cases hc : elements n.children with
        | nil => exact absurd hc he
        | cons _ _ => rfl
      simp only [he', Bool.false_or]
      cases r with
      | none =>
        simp only [Option.map_none'] at hmap
        simp [← hmap, Except.map]
      | some f =>
        obtain ⟨b, g, a⟩ := f
        simp only [Option.map_some'] at hmap
        rw [← hmap]
        simp only []
        exact ih g a (groups_well_formed_first_group h hmap.symm) hmore

theorem resolve_not_empty_level {names : List String} {n g : XmlNode}
    (hg : resolve n names = some g) : empty_level n names = false := by
  induction names generalizing n with
  | nil => rfl
  | cons seg more ih =>
    unfold resolve at hg
    unfold empty_level
    cases hf : first_group seg n.children with
    | none => simp [hf] at hg
    | some g1 =>
      simp only [hf] at hg
      simp only [Bool.or_eq_false_iff]
      refine ⟨?_, ih hg⟩
      unfold first_group at hf
      cases hc : elements n.children with
      | nil => rw [hc] at hf; simp at hf
      | cons _ _ => rfl

theorem select_group_absolute_unfold (ctx : tcs_internal_ctx) (path : String)
    (habs : path.toList.head? ≠ some GROUP_SEPARATOR) :
    select_group ctx path =
      match select_group_walk (path_segments path.toList) [ctx.root_node] with
      | .error e => .error e
      | .ok none =>
        .ok (-1, { ctx with select_group_node := [], select_group_name := some path })
      | .ok (some []) => .error .null_deref
      | .ok (some (group :: _)) =>
        match next_node group.children with
        | .error e => .error e
        | .ok [] =>
          .ok (-1, { ctx with select_group_node := [], select_group_name := some path })
        | .ok (c :: cs) =>
          .ok (0, { ctx with select_group_node := c :: cs, select_group_name := some path }) := by
  unfold select_group
  cases hp : path.toList with
  | nil => rfl
  | cons c rest =>
    rw [hp] at habs
    have hc : ¬ c = GROUP_SEPARATOR := by
      intro e
      apply habs
      simp [e]
    simp only [hc, ↓reduceIte]

theorem next_node_children_of_well_formed {g : XmlNode} (h : groups_well_formed g = true) :
    ∃ level, next_node g.children = .ok level ∧ (level = [] ↔ elements g.children = []) := by
  obtain ⟨c, rest, hcs, hc, _⟩ := groups_well_formed_children h
  refine ⟨rest.dropWhile (fun n => !n.isElement), by rw [hcs]; rfl, ?_⟩
  rw [dropWhile_eq_nil_iff_elements, hcs]
  simp [elements, List.filter_cons, hc]

/-- The three outcomes of `select_group` on a path without leading separator, in
a tree whose root and groups begin their child list with a node that is not an
element and whose groups carry a name, for names of at most 39 bytes: 0 exactly
when the names lead to a group that has an element child; failure of the assertion
of `search_node` when a node in which a group has to be looked up has no element
child; -1 otherwise. -/
theorem select_group_absolute_cases (ctx : tcs_internal_ctx) (path : String)
    (habs : path.toList.head? ≠ some GROUP_SEPARATOR)
    (hwf : groups_well_formed ctx.root_node = true)
    (hshort : ∀ seg ∈ path_segments path.toList, (String.mk seg).utf8ByteSize ≤ 39) :
    ((∃ ctx1, select_group ctx path = .ok (0, ctx1)) ↔
      ∃ g, resolve ctx.root_node (path_names path.toList) = some g ∧
        elements g.children ≠ []) ∧
    (empty_level ctx.root_node (path_names path.toList) = false →
      (¬ ∃ g, resolve ctx.root_node (path_names path.toList) = some g ∧
        elements g.children ≠ []) →
      select_group ctx path =
        .ok (-1, { ctx with select_group_node := [], select_group_name := some path })) ∧
    (empty_level ctx.root_node (path_names path.toList) = true →
      select_group ctx path = .error .assertion) := by
  have hwalk := select_group_walk_eq (path_segments path.toList) ctx.root_node [] hwf hshort
  rw [select_group_absolute_unfold ctx path habs]
  unfold path_names
  generalize path_segments path.toList = segs at hwalk ⊢
  generalize List.map String.mk segs = names at hwalk ⊢
  cases hw : select_group_walk segs [ctx.root_node] with
  | error e =>
    rw [hw] at hwalk
    by_cases hempty : empty_level ctx.root_node names = true
    · simp only [hempty, ↓reduceIte, Except.map, Except.error.injEq] at hwalk
      subst hwalk
      refine ⟨?_, ?_, ?_⟩
      · constructor
        · rintro ⟨_, h⟩; cases h
        · rintro ⟨g, hg, _⟩
          rw [resolve_not_empty_level hg] at hempty
          cases hempty
      · intro h; rw [h] at hempty; cases hempty
      · intro _; rfl
    · simp [hempty, Except.map] at hwalk
  | ok r =>
    rw [hw] at hwalk
    by_cases hempty : empty_level ctx.root_node names = true
    · simp [hempty, Except.map] at hwalk
    · simp only [hempty, Bool.false_eq_true, ↓reduceIte, Except.map, Except.ok.injEq] at hwalk
      simp only [Bool.not_eq_true] at hempty
      cases r with
      | none =>
        simp only [Option.map_none'] at hwalk
        have hres : resolve ctx.root_node names = none := by
          cases hr : resolve ctx.root_node names with
          | none => rfl
          | some g => rw [hr] at hwalk; simp at hwalk
        refine ⟨?_, ?_, ?_⟩
        · constructor
          · rintro ⟨_, h⟩
            simp at h
          · rintro ⟨g, hg, _⟩
            rw [hres] at hg
            cases hg
        · intro _ _; rfl
        · intro h; rw [h] at hempty; cases hempty
      | some ptr =>
        cases ptr with
        | nil =>
          exfalso
          cases hr : resolve ctx.root_node names with
          | none => rw [hr] at hwalk; simp at hwalk
          | some g => rw [hr] at hwalk; simp at hwalk
        | cons g after =>
          have hres : resolve ctx.root_node names = some g := by
            cases hr : resolve ctx.root_node names with
            | none => rw [hr] at hwalk; simp at hwalk
            | some g1 => rw [hr] at hwalk; simp at hwalk; rw [hwalk]
          obtain ⟨level, hlevel, hnil⟩ :=
            next_node_children_of_well_formed (groups_well_formed_resolve hwf hres)
          simp only [hlevel, hres, Option.some.injEq, exists_eq_left', hempty]
          cases level with
          | nil =>
            have he : elements g.children = [] := hnil.mp rfl
            refine ⟨?_, ?_, ?_⟩
            · constructor
              · rintro ⟨_, h⟩
                simp at h
              · intro h; exact absurd he h
            · intro _ _; rfl
            · intro h; cases h
          | cons c cs =>
            have he : elements g.children ≠ [] := fun e => by
              have := hnil.mpr e
              cases this
            refine ⟨?_, ?_, ?_⟩
            · constructor
              · intro _; exact he
              · intro _; exact ⟨_, rfl⟩
            · intro _ h; exact absurd he h
            · intro h; cases h

/-- C6 (amended): in a tree whose root and groups begin their child list with a
node that is not an element and whose groups carry a name, for a path without
leading separator whose names are at most 39 bytes long, `select_group` returns 0
exactly when the names lead, through the first group of each name, to a group that
has an element child; in every other case it returns -1 (with the cursor `NULL`),
provided each node in which a group has to be looked up has an element child. -/
theorem select_group_absolute (ctx : tcs_internal_ctx) (path : String)
    (habs : path.toList.head? ≠ some GROUP_SEPARATOR)
    (hwf : groups_well_formed ctx.root_node = true)
    (hshort : ∀ seg ∈ path_segments path.toList, (String.mk seg).utf8ByteSize ≤ 39) :
    ((∃ ctx1, select_group ctx path = .ok (0, ctx1)) ↔
      ∃ g, resolve ctx.root_node (path_names path.toList) = some g ∧
        elements g.children ≠ []) ∧
    (empty_level ctx.root_node (path_names path.toList) = false →
      (¬ ∃ g, resolve ctx.root_node (path_names path.toList) = some g ∧
        elements g.children ≠ []) →
      select_group ctx path =
        .ok (-1, { ctx with select_group_node := [], select_group_name := some path })) :=
  ⟨(select_group_absolute_cases ctx path habs hwf hshort).1,
    (select_group_absolute_cases ctx path habs hwf hshort).2.1⟩

/-- A lookup in a node without element child: for the same trees and paths, when
the root or a group matched for a name other than the last has no element child,
`select_group` fails the assertion of `search_node`. -/
theorem select_group_empty_level_aborts (ctx : tcs_internal_ctx) (path : String)
    (habs : path.toList.head? ≠ some GROUP_SEPARATOR)
    (hwf : groups_well_formed ctx.root_node = true)
    (hshort : ∀ seg ∈ path_segments path.toList, (String.mk seg).utf8ByteSize ≤ 39)
    (hempty : empty_level ctx.root_node (path_names path.toList) = true) :
    select_group ctx path = .error .assertion :=
  (select_group_absolute_cases ctx path habs hwf hshort).2.2 hempty

/-- C6 (witness): the path "common" in the configuration of the test suite. -/
theorem select_group_absolute_witness :
    "common".toList.head? ≠ some GROUP_SEPARATOR ∧
      groups_well_formed config_document = true ∧
      (∀ seg ∈ path_segments "common".toList, (String.mk seg).utf8ByteSize ≤ 39) ∧
      ∃ ctx1, select_group (ctx_of_root config_document) "common" = .ok (0, ctx1) :=
  ⟨by decide, rfl, by decide,
    (select_group_absolute (ctx_of_root config_document) "common" (by decide) rfl
      (by decide)).1.mpr ⟨_, rfl, List.ne_nil_of_length_pos (by decide)⟩⟩

/-- C6 (counterexample): no group of the configuration bears the 40-byte name, so
the claim expects -1; `select_group` fails the assertion on the length of the name
instead of returning. -/
theorem select_group_long_name_aborts :
    resolve config_document (path_names name_of_40_bytes.toList) = none ∧
      select_group (ctx_of_root config_document) name_of_40_bytes = .error .assertion :=
  ⟨rfl, rfl⟩

theorem select_group_unfold_from (ctx : tcs_internal_ctx) (path : String) (start : XmlNode)
    (rem : List Char) (h : path_start ctx path.toList = some (start, rem)) :
    ∃ tail, select_group ctx path =
      match select_group_walk (path_segments rem) (start :: tail) with
      | .error e => .error e
      | .ok none =>
        .ok (-1, { ctx with select_group_node := [], select_group_name := some path })
      | .ok (some []) => .error .null_deref
      | .ok (some (group :: _)) =>
        match next_node group.children with
        | .error e => .error e
        | .ok [] =>
          .ok (-1, { ctx with select_group_node := [], select_group_name := some path })
        | .ok (c :: cs) =>
          .ok (0, { ctx with select_group_node := c :: cs, select_group_name := some path }) := by
  unfold select_group
  cases hp : path.toList with
  | nil =>
    rw [hp] at h
    simp only [path_start, Option.some.injEq, Prod.mk.injEq] at h
    obtain ⟨rfl, rfl⟩ := h
    exact ⟨[], rfl⟩
  | cons c rest =>
    rw [hp] at h
    unfold path_start at h
    by_cases hc : c = GROUP_SEPARATOR
    · simp only [hc, ↓reduceIte] at h ⊢
      cases hd : ctx.default_group_node with
      | nil => rw [hd] at h; simp at h
      | cons d ds =>
        rw [hd] at h
        simp only [List.head?_cons, Option.map_some', Option.some.injEq, Prod.mk.injEq] at h
        obtain ⟨rfl, rfl⟩ := h
        exact ⟨ds, rfl⟩
    · simp only [hc, ↓reduceIte, Option.some.injEq, Prod.mk.injEq] at h ⊢
      obtain ⟨rfl, rfl⟩ := h
      exact ⟨[], rfl⟩

/-- The cursor after a successful selection, in a tree whose root, default
group and groups begin their child list with a node that is not an element and
whose groups carry a name, for names of at most 39 bytes: the names of the path
lead, through the first group of each name, from the root (from the group given at
init for a path with a leading separator) to a group `g`, and the cursor is the
first element child of `g`, followed by its later siblings. -/
theorem select_group_cursor (ctx ctx1 : tcs_internal_ctx) (path : String) (start : XmlNode)
    (rem : List Char) (hstart : path_start ctx path.toList = some (start, rem))
    (hwf : groups_well_formed start = true)
    (hshort : ∀ seg ∈ path_segments rem, (String.mk seg).utf8ByteSize ≤ 39)
    (hsel : select_group ctx path = .ok (0, ctx1)) :
    ∃ g, resolve start (path_names rem) = some g ∧
      ctx1.select_group_node = g.children.dropWhile (fun n => !n.isElement) ∧
      (elements g.children).head? = ctx1.select_group_node.head? ∧
      ctx1.select_group_node ≠ [] := by
  obtain ⟨tail, hun⟩ := select_group_unfold_from ctx path start rem hstart
  have hwalk := select_group_walk_eq (path_segments rem) start tail hwf hshort
  rw [hun] at hsel
  unfold path_names
  generalize path_segments rem = segs at hwalk hsel ⊢
  generalize List.map String.mk segs = names at hwalk ⊢
  cases hw : select_group_walk segs (start :: tail) with
  | error e => rw [hw] at hsel; cases hsel
  | ok r =>
    rw [hw] at hsel hwalk
    cases r with
    | none => simp at hsel
    | some ptr =>
      cases ptr with
      | nil => cases hsel
      | cons g after =>
        by_cases hempty : empty_level start names = true
        · simp [hempty, Except.map] at hwalk
        · simp only [hempty, Bool.false_eq_true, ↓reduceIte, Except.map, Except.ok.injEq,
            Option.map_some', List.head?_cons] at hwalk
          have hres : resolve start names = some g := by
            cases hr : resolve start names with
            | none => rw [hr] at hwalk; simp at hwalk
            | some g1 => rw [hr] at hwalk; simp at hwalk; rw [hwalk]
          obtain ⟨c, rest, hcs, hc, _⟩ :=
            groups_well_formed_children (groups_well_formed_resolve hwf hres)
          have hnext : next_node g.children =
              .ok (g.children.dropWhile (fun n => !n.isElement)) := by
            rw [hcs]
            simp [next_node, hc]
          simp only [hnext] at hsel
          refine ⟨g, hres, ?_⟩
          cases hd : g.children.dropWhile (fun n => !n.isElement) with
          | nil => rw [hd] at hsel; simp at hsel
          | cons x xs =>
            rw [hd] at hsel
            simp only [Except.ok.injEq, Prod.mk.injEq, true_and] at hsel
            rw [← hsel]
            refine ⟨rfl, ?_, by simp⟩
            rw [head_elements, hd]

/-- C7 (code at a failing input): in a configuration written on one line, selecting
`hal` succeeds with the cursor on the scalar `y`, the second element child of the
group `hal`: the first element child, the scalar `x`, is left behind. -/
theorem select_group_compact_skips_first_child :
    select_group (ctx_of_root compact_config_hal) "hal" =
      .ok (0, { ctx_of_root compact_config_hal with
        select_group_node := [mkScalar "int" "y" "2"],
        select_group_name := some "hal" }) := by
  rfl

/-- C8: a context created by `tcs2_init(NULL)` has no default group, and as long
as its default group is the one set at creation, `select_group` on a path that
begins with the separator returns -1 (and leaves the context as it was). -/
theorem select_group_relative_without_default (dep : Deployment)
    (ctx0 ctx : tcs_internal_ctx) (path : String)
    (hinit : tcs2_init dep none = .ok (some ctx0))
    (hsame : ctx.default_group_node = ctx0.default_group_node)
    (hdot : path.toList.head? = some GROUP_SEPARATOR) :
    select_group ctx path = .ok (-1, ctx) := by
  have hdef : ctx.default_group_node = [] := by
    rw [hsame]
    unfold tcs2_init at hinit
    split at hinit
    · exact absurd hinit (by simp)
    · exact absurd hinit (by simp)
    · simp only [Except.ok.injEq, Option.some.injEq] at hinit
      rw [← hinit]
  unfold select_group
  cases hp : path.toList with
  | nil => rw [hp] at hdot; simp at hdot
  | cons c rest =>
    rw [hp] at hdot
    simp only [List.head?_cons, Option.some.injEq] at hdot
    simp [hdot, hdef]

/-- C8 (witness): a device whose configuration holds the groups `common` and
`modules`, initialised without default group, and the path ".common". -/
theorem select_group_relative_without_default_witness :
    tcs2_init (single_config_device base_compact_config) none =
        .ok (some (ctx_of_root base_compact_config)) ∧
      select_group (ctx_of_root base_compact_config) ".common" =
        .ok (-1, ctx_of_root base_compact_config) :=
  ⟨rfl, select_group_relative_without_default (single_config_device base_compact_config)
    (ctx_of_root base_compact_config) (ctx_of_root base_compact_config) ".common" rfl rfl rfl⟩

/-! ### Boolean getter (C9) -/

theorem get_bool_eq (ctx : tcs_internal_ctx) (key : String) (value : Bool)
    (hcursor : ctx.select_group_node ≠ [])
    (hkeys : carries TAG_BOOL ATTR_KEY ctx.select_group_node) :
    get_bool ctx key value =
      match first_scalar TAG_BOOL key ctx.select_group_node with
      | none => .ok (-1, value)
      | some node =>
        if xmlNodeGetContent node = "true" then .ok (0, true)
        else if xmlNodeGetContent node = "false" then .ok (0, false)
        else .ok (-1, value) := by
  unfold get_bool first_scalar search_property
  rw [← find_split_map_find]
  cases hc : ctx.select_group_node with
  | nil => exact absurd hc hcursor
  | cons c cs =>
    rw [hc] at hkeys
    simp only []
    rw [search_node_eq hkeys (by simp)]
    cases find_split (has_tag_prop TAG_BOOL ATTR_KEY key) (c :: cs) with
    | none => rfl
    | some f => obtain ⟨b, x, a⟩ := f; rfl

/-- C9: with a cursor on a chain whose `bool` elements all carry a key, `get_bool`
returns 0 with the value true exactly when the first `bool` scalar of that key in
the chain has the content "true", returns 0 with the value false exactly when that
content is "false", and in every other case (no such scalar, or any other content)
returns -1, the output keeping the value it had. -/
theorem get_bool_first_scalar (ctx : tcs_internal_ctx) (key : String) (value : Bool)
    (hcursor : ctx.select_group_node ≠ [])
    (hkeys : carries TAG_BOOL ATTR_KEY ctx.select_group_node) :
    (get_bool ctx key value = .ok (0, true) ↔
      ∃ node, first_scalar TAG_BOOL key ctx.select_group_node = some node ∧
        xmlNodeGetContent node = "true") ∧
    (get_bool ctx key value = .ok (0, false) ↔
      ∃ node, first_scalar TAG_BOOL key ctx.select_group_node = some node ∧
        xmlNodeGetContent node = "false") ∧
    ((¬ ∃ node, first_scalar TAG_BOOL key ctx.select_group_node = some node ∧
        (xmlNodeGetContent node = "true" ∨ xmlNodeGetContent node = "false")) →
      get_bool ctx key value = .ok (-1, value)) := by
  rw [get_bool_eq ctx key value hcursor hkeys]
  cases first_scalar TAG_BOOL key ctx.select_group_node with
  | none => simp
  | some node =>
    by_cases ht : xmlNodeGetContent node = "true"
    · simp [ht]
    · by_cases hf : xmlNodeGetContent node = "false"
      · simp [hf]
      · simp [ht, hf]

/-- C9 (witness): on a cursor holding `<bool key="boolean_true">true</bool>` after an
`int` scalar, `get_bool` of that key returns 0 with the value true. -/
theorem get_bool_first_scalar_witness :
    hal_ctx.select_group_node ≠ [] ∧ carries TAG_BOOL ATTR_KEY hal_ctx.select_group_node ∧
      get_bool hal_ctx "boolean_true" false = .ok (0, true) :=
  ⟨List.ne_nil_of_length_pos (by decide), by unfold carries; decide,
    (get_bool_first_scalar hal_ctx "boolean_true" false
      (List.ne_nil_of_length_pos (by decide)) (by unfold carries; decide)).1.mpr
      ⟨_, rfl, rfl⟩⟩

/-! ### Integer getter (C10) -/

theorem is_digit_of_digit_value_none {c : Char} (h : digit_value c = none) (base : Nat) :
    is_digit base c = false := by
  simp [is_digit, h]

theorem is_digit_ne {base : Nat} {c k : Char} (h : is_digit base c = true)
    (hk : digit_value k = none) : c ≠ k := by
  rintro rfl
  rw [is_digit_of_digit_value_none hk] at h
  cases h

theorem is_digit_not_space {base : Nat} {c : Char} (h : is_digit base c = true) :
    isspace c = false := by
  cases hs : isspace c with
  | false => rfl
  | true =>
    exfalso
    simp only [isspace, Bool.or_eq_true, decide_eq_true_eq] at hs
    rcases hs with ((((hs | hs) | hs) | hs) | hs) | hs
    · exact is_digit_ne h (by decide) hs
    · exact is_digit_ne h (by decide) hs
    · exact is_digit_ne h (by decide) hs
    · exact is_digit_ne h (by decide) hs
    · exact is_digit_ne h (by decide) hs
    · exact is_digit_ne h (by decide) hs

theorem is_digit_mono {b1 b2 : Nat} (hb : b1 ≤ b2) {c : Char} (h : is_digit b1 c = true) :
    is_digit b2 c = true := by
  unfold is_digit at h ⊢
  cases hd : digit_value c with
  | none => simp [hd] at h
  | some d =>
    simp only [hd, decide_eq_true_eq] at h ⊢
    omega

theorem hex_prefixed_iff (s : List Char) :
    hex_prefixed s = true ↔
      ∃ x h r, s = '0' :: x :: h :: r ∧ (x = 'x' ∨ x = 'X') ∧ is_digit 16 h = true := by
  constructor
  · intro hs
    match s, hs with
    | c :: x :: h :: r, hs =>
      simp only [hex_prefixed, Bool.and_eq_true, decide_eq_true_eq, Bool.or_eq_true] at hs
      obtain ⟨⟨rfl, hx⟩, hh⟩ := hs
      exact ⟨x, h, r, rfl, hx, hh⟩
  · rintro ⟨x, h, r, rfl, hx, hh⟩
    simp only [hex_prefixed, decide_True, Bool.true_and, Bool.and_eq_true, Bool.or_eq_true,
      decide_eq_true_eq]
    exact ⟨hx, hh⟩

/-- The literal behind a sign is what `strtol` reads as digits, all of them. -/
theorem strtol_base_of_literal {body : List Char} {n : Nat} (h : is_literal body n) :
    (strtol_base body).2 ≠ [] ∧
      (∀ c ∈ (strtol_base body).2, is_digit (strtol_base body).1 c = true) ∧
      n = digits_value (strtol_base body).1 (strtol_base body).2 0 := by
  rcases h with ⟨hne, hhead, hall, hn⟩ | ⟨x, ds, rfl, hx, hne, hall, hn⟩ | ⟨ds, rfl, hall, hn⟩
  · have hnot : hex_prefixed body = false := by
      cases hp : hex_prefixed body with
      | false => rfl
      | true =>
        obtain ⟨x, h, r, rfl, _, _⟩ := (hex_prefixed_iff body).mp hp
        simp at hhead
    simp only [strtol_base, hnot, Bool.false_eq_true, ↓reduceIte, hhead]
    exact ⟨hne, hall, hn⟩
  · cases ds with
    | nil => exact absurd rfl hne
    | cons h r =>
      have hp : hex_prefixed ('0' :: x :: h :: r) = true :=
        (hex_prefixed_iff _).mpr ⟨x, h, r, rfl, hx, hall h (List.mem_cons_self _ _)⟩
      simp only [strtol_base, hp, ↓reduceIte, List.drop_succ_cons, List.drop_zero]
      exact ⟨by simp, hall, hn⟩
  · have hnot : hex_prefixed ('0' :: ds) = false := by
      cases hp : hex_prefixed ('0' :: ds) with
      | false => rfl
      | true =>
        obtain ⟨x, h, r, heq, hx, _⟩ := (hex_prefixed_iff _).mp hp
        simp only [List.cons.injEq, true_and] at heq
        subst heq
        have hd := hall x (List.mem_cons_self _ _)
        rcases hx with rfl | rfl
        · exact absurd hd (by decide)
        · exact absurd hd (by decide)
    simp only [strtol_base, hnot, Bool.false_eq_true, ↓reduceIte, List.head?_cons]
    refine ⟨by simp, ?_, ?_⟩
    · intro c hc
      rcases List.mem_cons.mp hc with rfl | hc
      · decide
      · exact hall c hc
    · rw [hn]
      simp [digits_value, digit_value]

/-- What `strtol` reads as digits, when it is not empty and made of digits only,
comes from a literal. -/
theorem literal_of_strtol_base {s : List Char} (hne : (strtol_base s).2 ≠ [])
    (hall : ∀ c ∈ (strtol_base s).2, is_digit (strtol_base s).1 c = true) :
    is_literal s (digits_value (strtol_base s).1 (strtol_base s).2 0) := by
  unfold strtol_base at hne hall ⊢
  by_cases hp : hex_prefixed s = true
  · simp only [hp, ↓reduceIte] at hne hall ⊢
    obtain ⟨x, h, r, rfl, hx, _⟩ := (hex_prefixed_iff s).mp hp
    simp only [List.drop_succ_cons, List.drop_zero] at hne hall ⊢
    exact Or.inr (Or.inl ⟨x, h :: r, rfl, hx, hne, hall, rfl⟩)
  · simp only [hp, Bool.false_eq_true, ↓reduceIte] at hne hall ⊢
    by_cases h0 : s.head? = some '0'
    · simp only [h0, ↓reduceIte] at hne hall ⊢
      cases s with
      | nil => exact absurd rfl hne
      | cons c ds =>
        simp only [List.head?_cons, Option.some.injEq] at h0
        subst h0
        refine Or.inr (Or.inr ⟨ds, rfl, fun c hc => hall c (List.mem_cons_of_mem _ hc), ?_⟩)
        simp [digits_value, digit_value]
    · simp only [h0, ↓reduceIte] at hne hall ⊢
      exact Or.inl ⟨hne, h0, hall, rfl⟩

theorem literal_head {body : List Char} {n : Nat} (h : is_literal body n) :
    ∃ c r, body = c :: r ∧ is_digit 16 c = true := by
  rcases h with ⟨hne, _, hall, _⟩ | ⟨x, ds, rfl, _, _, _, _⟩ | ⟨ds, rfl, _, _⟩
  · cases body with
    | nil => exact absurd rfl hne
    | cons c r =>
      exact ⟨c, r, rfl, is_digit_mono (by decide) (hall c (List.mem_cons_self _ _))⟩
  · exact ⟨'0', x :: ds, rfl, by decide⟩
  · exact ⟨'0', ds, rfl, by decide⟩

theorem strtol_sign_spec (s : List Char) :
    ∃ sign, s = sign ++ (strtol_sign s).2 ∧
      ((sign = [] ∧ (strtol_sign s).1 = false) ∨ (sign = ['+'] ∧ (strtol_sign s).1 = false) ∨
        (sign = ['-'] ∧ (strtol_sign s).1 = true)) := by
  cases s with
  | nil => exact ⟨[], rfl, Or.inl ⟨rfl, rfl⟩⟩
  | cons c r =>
    unfold strtol_sign
    by_cases hm : c = '-'
    · subst hm
      exact ⟨['-'], by simp, Or.inr (Or.inr ⟨rfl, by simp⟩)⟩
    · by_cases hp : c = '+'
      · subst hp
        exact ⟨['+'], by simp, Or.inr (Or.inl ⟨rfl, by simp⟩)⟩
      · exact ⟨[], by simp [hm, hp], Or.inl ⟨rfl, by simp [hm, hp]⟩⟩

theorem strtol_sign_of_digit {c : Char} (r : List Char) (h : is_digit 16 c = true) :
    strtol_sign (c :: r) = (false, c :: r) := by
  have h1 : c ≠ '-' := is_digit_ne h (by decide)
  have h2 : c ≠ '+' := is_digit_ne h (by decide)
  simp [strtol_sign, h1, h2]

/-- A content that reads as an integer in the range of `long` is converted
entirely by `strtol`, to that integer. -/
theorem strtol_of_reads_as (long_max : Nat) {str : List Char} {v : Int} (h : reads_as str v)
    (hlo : -((long_max : Int) + 1) ≤ v) (hhi : v ≤ (long_max : Int)) :
    strtol long_max str = { value := v, end_ptr := str.length, erange := false } ∧
      str.length ≠ 0 := by
  obtain ⟨blanks, sign, body, n, rfl, hblanks, hsign, hlit⟩ := h
  obtain ⟨c, r, rfl, hc⟩ := literal_head hlit
  obtain ⟨hne, hall, hn⟩ := strtol_base_of_literal hlit
  have hdrop : (blanks ++ sign ++ c :: r).dropWhile isspace = sign ++ c :: r := by
    rw [List.append_assoc, List.dropWhile_append_of_pos hblanks]
    rcases hsign with ⟨rfl, _⟩ | ⟨rfl, _⟩ | ⟨rfl, _⟩
    · simp [is_digit_not_space hc]
    · exact List.dropWhile_cons_of_neg (by decide)
    · exact List.dropWhile_cons_of_neg (by decide)
  have htake : (strtol_base (c :: r)).2.takeWhile (is_digit (strtol_base (c :: r)).1) =
      (strtol_base (c :: r)).2 := List.takeWhile_eq_self_iff.mpr hall
  have hrest : (strtol_base (c :: r)).2.dropWhile (is_digit (strtol_base (c :: r)).1) = [] :=
    List.dropWhile_eq_nil_iff.mpr hall
  have hempty : (strtol_base (c :: r)).2.isEmpty = false := by
    cases hb : (strtol_base (c :: r)).2 with
    | nil => exact absurd hb hne
    | cons _ _ => rfl
  refine ⟨?_, by simp⟩
  unfold strtol
  rw [hdrop]
  rcases hsign with ⟨rfl, hv⟩ | ⟨rfl, hv⟩ | ⟨rfl, hv⟩
  · have hs : strtol_sign ([] ++ c :: r) = (false, c :: r) := strtol_sign_of_digit r hc
    simp only [hs, htake, hrest, hempty, Bool.false_eq_true, ↓reduceIte, List.length_nil,
      Nat.sub_zero, ← hn]
    have : ¬ n > long_max := by omega
    simp [this, hv]
  · have hs : strtol_sign (['+'] ++ c :: r) = (false, c :: r) := by simp [strtol_sign]
    simp only [hs, htake, hrest, hempty, Bool.false_eq_true, ↓reduceIte, List.length_nil,
      Nat.sub_zero, ← hn]
    have : ¬ n > long_max := by omega
    simp [this, hv]
  · have hs : strtol_sign (['-'] ++ c :: r) = (true, c :: r) := by simp [strtol_sign]
    simp only [hs, htake, hrest, hempty, Bool.false_eq_true, ↓reduceIte, List.length_nil,
      Nat.sub_zero, ← hn]
    have : ¬ n > long_max + 1 := by omega
    simp [this, hv]

/-- When `strtol` converts the whole content without range error, the content
reads as the integer returned, which is in the range of `long`. -/
theorem reads_as_of_strtol {long_max : Nat} {str : List Char}
    (h1 : (strtol long_max str).erange = false) (h2 : (strtol long_max str).end_ptr ≠ 0)
    (h3 : (strtol long_max str).end_ptr = str.length) :
    reads_as str (strtol long_max str).value ∧
      -((long_max : Int) + 1) ≤ (strtol long_max str).value ∧
      (strtol long_max str).value ≤ (long_max : Int) := by
  obtain ⟨sign, hsplit, hsign⟩ := strtol_sign_spec (str.dropWhile isspace)
  have hstr : str = str.takeWhile isspace ++ sign ++
      (strtol_sign (str.dropWhile isspace)).2 := by
    rw [List.append_assoc, ← hsplit, List.takeWhile_append_dropWhile]
  have hblanks : ∀ c ∈ str.takeWhile isspace, isspace c = true :=
    fun c hc => List.mem_takeWhile_imp hc
  unfold strtol at h1 h2 h3 ⊢
  generalize hsg : strtol_sign (str.dropWhile isspace) = signed at *
  obtain ⟨negative, s2⟩ := signed
  simp only [] at hsplit hsign hstr h1 h2 h3 ⊢
  by_cases hd : ((strtol_base s2).2.takeWhile (is_digit (strtol_base s2).1)).isEmpty = true
  · simp [hd] at h2
  · simp only [hd, Bool.false_eq_true, ↓reduceIte] at h1 h2 h3 ⊢
    have hlen : str.length ≠ 0 := by
      intro h0
      have : str = [] := List.length_eq_zero.mp h0
      subst this
      simp only [List.dropWhile_nil, List.takeWhile_nil] at hsg
      simp only [strtol_sign, Prod.mk.injEq] at hsg
      obtain ⟨_, rfl⟩ := hsg
      exact hd (by simp [strtol_base, hex_prefixed])
    have hend : str.length - ((strtol_base s2).2.dropWhile (is_digit (strtol_base s2).1)).length =
        str.length := by
      by_cases hneg : negative = true
      · simp only [hneg, ↓reduceIte] at h3
        split at h3 <;> exact h3
      · simp only [hneg, Bool.false_eq_true, ↓reduceIte] at h3
        split at h3 <;> exact h3
    have hrest : (strtol_base s2).2.dropWhile (is_digit (strtol_base s2).1) = [] := by
      apply List.length_eq_zero.mp
      omega
    have hall : ∀ c ∈ (strtol_base s2).2, is_digit (strtol_base s2).1 c = true :=
      List.dropWhile_eq_nil_iff.mp hrest
    have htake : (strtol_base s2).2.takeWhile (is_digit (strtol_base s2).1) = (strtol_base s2).2 :=
      List.takeWhile_eq_self_iff.mpr hall
    have hne : (strtol_base s2).2 ≠ [] := by
      intro e
      rw [htake, e] at hd
      exact hd rfl
    have hlit := literal_of_strtol_base hne hall
    rw [htake] at h1 ⊢
    generalize digits_value (strtol_base s2).1 (strtol_base s2).2 0 = n at h1 hlit ⊢
    by_cases hneg : negative = true
    · subst hneg
      have hsgn : sign = ['-'] := by
        rcases hsign with ⟨_, h⟩ | ⟨_, h⟩ | ⟨h, _⟩
        · cases h
        · cases h
        · exact h
      by_cases hn : n > long_max + 1
      · simp [hn] at h1
      · simp only [↓reduceIte, hn]
        refine ⟨⟨_, sign, s2, n, hstr, hblanks, Or.inr (Or.inr ⟨hsgn, rfl⟩), hlit⟩, ?_, ?_⟩
        · omega
        · omega
    · simp only [Bool.not_eq_true] at hneg
      subst hneg
      have hsgn : sign = [] ∨ sign = ['+'] := by
        rcases hsign with ⟨h, _⟩ | ⟨h, _⟩ | ⟨_, h⟩
        · exact Or.inl h
        · exact Or.inr h
        · cases h
      by_cases hn : n > long_max
      · simp [hn] at h1
      · simp only [Bool.false_eq_true, ↓reduceIte, hn]
        refine ⟨⟨_, sign, s2, n, hstr, hblanks, ?_, hlit⟩, ?_, ?_⟩
        · rcases hsgn with h | h
          · exact Or.inl ⟨h, rfl⟩
          · exact Or.inr (Or.inl ⟨h, rfl⟩)
        · omega
        · omega

/-- A content that reads as an integer holds no `&`. -/
theorem reads_as_plain {str : List Char} {v : Int} (h : reads_as str v) : '&' ∉ str := by
  obtain ⟨blanks, sign, body, n, rfl, hblanks, hsign, hlit⟩ := h
  have hd : ∀ b, is_digit b '&' = false := fun b => rfl
  intro hmem
  rcases List.mem_append.mp hmem with h1 | h1
  · rcases List.mem_append.mp h1 with h2 | h2
    · have hs := hblanks _ h2
      exact absurd hs (by decide)
    · rcases hsign with ⟨rfl, _⟩ | ⟨rfl, _⟩ | ⟨rfl, _⟩
      · cases h2
      · simp at h2
      · simp at h2
  · rcases hlit with ⟨_, _, hall, _⟩ | ⟨x, ds, rfl, hx, _, hall, _⟩ | ⟨ds, rfl, hall, _⟩
    · have hs := hall _ h1
      rw [hd] at hs
      cases hs
    · simp only [List.mem_cons] at h1
      rcases h1 with h1 | h1 | h1
      · exact absurd h1 (by decide)
      · rcases hx with rfl | rfl <;> exact absurd h1 (by decide)
      · have hs := hall _ h1
        rw [hd] at hs
        cases hs
    · simp only [List.mem_cons] at h1
      rcases h1 with h1 | h1
      · exact absurd h1 (by decide)
      · have hs := hall _ h1
        rw [hd] at hs
        cases hs

theorem get_int_eq (long_max : Nat) (ctx : tcs_internal_ctx) (key : String) (value : Int)
    (hcursor : ctx.select_group_node ≠ [])
    (hkeys : carries TAG_INT ATTR_KEY ctx.select_group_node) :
    get_int long_max ctx key value =
      match first_scalar TAG_INT key ctx.select_group_node with
      | none => .ok (-1, value)
      | some node =>
        if (strtol long_max (xmlNodeGetContent node).toList).erange = true ∨
            (strtol long_max (xmlNodeGetContent node).toList).end_ptr = 0 ∨
            (strtol long_max (xmlNodeGetContent node).toList).end_ptr ≠
              (xmlNodeGetContent node).toList.length
        then .ok (-1, long_to_int (strtol long_max (xmlNodeGetContent node).toList).value)
        else .ok (0, long_to_int (strtol long_max (xmlNodeGetContent node).toList).value) := by
  unfold get_int first_scalar search_property
  rw [← find_split_map_find]
  cases hc : ctx.select_group_node with
  | nil => exact absurd hc hcursor
  | cons c cs =>
    rw [hc] at hkeys
    simp only []
    rw [search_node_eq hkeys (by simp)]
    cases find_split (has_tag_prop TAG_INT ATTR_KEY key) (c :: cs) with
    | none => rfl
    | some f => obtain ⟨b, x, a⟩ := f; rfl

theorem long_to_int_of_int_range {v : Int} (hlo : -2147483648 ≤ v) (hhi : v ≤ 2147483647) :
    long_to_int v = v := by
  unfold long_to_int
  omega

/-- C10 (amended): with a cursor on a chain whose `int` elements all carry a key,
and a `long` at least as wide as an `int`, `get_int` returns 0 exactly when an `int`
scalar of that key exists in the chain and the content of the first one is white
space (possibly none), an optional sign and one integer literal (decimal,
hexadecimal after "0x" or "0X", octal after "0") in the range of `long`, with
nothing after it; on success the value is the integer written whenever it lies in
the range of `int`; in every other case `get_int` returns -1. -/
theorem get_int_reads_literal (long_max : Nat) (ctx : tcs_internal_ctx) (key : String)
    (value : Int) (hlong : 2147483647 ≤ long_max)
    (hcursor : ctx.select_group_node ≠ [])
    (hkeys : carries TAG_INT ATTR_KEY ctx.select_group_node) :
    ((∃ v, get_int long_max ctx key value = .ok (0, v)) ↔
      ∃ node n, first_scalar TAG_INT key ctx.select_group_node = some node ∧
        reads_as (xmlNodeGetContent node).toList n ∧
        -((long_max : Int) + 1) ≤ n ∧ n ≤ (long_max : Int)) ∧
    (∀ node n, first_scalar TAG_INT key ctx.select_group_node = some node →
      reads_as (xmlNodeGetContent node).toList n → -2147483648 ≤ n → n ≤ 2147483647 →
      get_int long_max ctx key value = .ok (0, n)) ∧
    ((¬ ∃ node n, first_scalar TAG_INT key ctx.select_group_node = some node ∧
        reads_as (xmlNodeGetContent node).toList n ∧
        -((long_max : Int) + 1) ≤ n ∧ n ≤ (long_max : Int)) →
      ∃ v, get_int long_max ctx key value = .ok (-1, v)) := by
  rw [get_int_eq long_max ctx key value hcursor hkeys]
  cases first_scalar TAG_INT key ctx.select_group_node with
  | none => simp
  | some node =>
    simp only [Option.some.injEq, exists_and_left, exists_eq_left']
    by_cases hfail : (strtol long_max (xmlNodeGetContent node).toList).erange = true ∨
        (strtol long_max (xmlNodeGetContent node).toList).end_ptr = 0 ∨
        (strtol long_max (xmlNodeGetContent node).toList).end_ptr ≠
          (xmlNodeGetContent node).toList.length
    · have hno : ¬ ∃ n, reads_as (xmlNodeGetContent node).toList n ∧
          -((long_max : Int) + 1) ≤ n ∧ n ≤ (long_max : Int) := by
        rintro ⟨n, hr, hlo, hhi⟩
        obtain ⟨hs, hlen⟩ := strtol_of_reads_as long_max hr hlo hhi
        rw [hs] at hfail
        simp only [Bool.false_eq_true, ne_eq, not_true_eq_false, or_false, false_or] at hfail
        exact hlen hfail
      simp only [hfail, ↓reduceIte]
      refine ⟨?_, ?_, ?_⟩
      · constructor
        · rintro ⟨v, hv⟩
          simp at hv
        · intro h; exact absurd h hno
      · intro node1 n hn hr hlo hhi
        subst hn
        exact absurd ⟨n, hr, by omega, by omega⟩ hno
      · intro _; exact ⟨_, rfl⟩
    · simp only [hfail, ↓reduceIte]
      simp only [not_or, Bool.not_eq_true, ne_eq, not_not] at hfail
      obtain ⟨h1, h2, h3⟩ := hfail
      obtain ⟨hr, hlo, hhi⟩ := reads_as_of_strtol h1 h2 h3
      refine ⟨?_, ?_, ?_⟩
      · constructor
        · intro _; exact ⟨_, hr, hlo, hhi⟩
        · intro _; exact ⟨_, rfl⟩
      · intro node1 n hn hr' hlo' hhi'
        subst hn
        obtain ⟨hs, _⟩ := strtol_of_reads_as long_max hr' (by omega) (by omega)
        rw [hs]
        simp only []
        rw [long_to_int_of_int_range hlo' hhi']
      · intro hno
        exact absurd ⟨_, hr, hlo, hhi⟩ hno

/-- C10 (witness): on a cursor holding `<int key="ping_timeout">0x20</int>`,
`get_int` returns 0 with the value 32. -/
theorem get_int_reads_literal_witness :
    2147483647 ≤ 9223372036854775807 ∧ hal_ctx.select_group_node ≠ [] ∧
      carries TAG_INT ATTR_KEY hal_ctx.select_group_node ∧
      get_int 9223372036854775807 hal_ctx "ping_timeout" 0 = .ok (0, 32) :=
  ⟨by decide, List.ne_nil_of_length_pos (by decide), by unfold carries; decide,
    (get_int_reads_literal 9223372036854775807 hal_ctx "ping_timeout" 0 (by decide)
      (List.ne_nil_of_length_pos (by decide)) (by unfold carries; decide)).2.1
      (mkScalar "int" "ping_timeout" "0x20") 32 rfl
      ⟨[], [], "0x20".toList, 32, rfl, by simp, Or.inl ⟨rfl, rfl⟩,
        Or.inr (Or.inl ⟨'x', ['2', '0'], rfl, Or.inl rfl, by simp, by decide, rfl⟩)⟩
      (by decide) (by decide)⟩

/-- C10 (counterexample): the content " 7" is not an integer literal, a space comes
before the digit, and `get_int` returns 0 with the value 7. -/
theorem get_int_accepts_leading_blank :
    get_int 9223372036854775807 blank_int_ctx "test" 0 = .ok (0, 7) ∧
      ∀ n, ¬ is_literal " 7".toList n := by
  refine ⟨rfl, ?_⟩
  intro n h
  rcases h with ⟨_, _, hall, _⟩ | ⟨x, ds, heq, _⟩ | ⟨ds, heq, _⟩
  · exact absurd (hall ' ' (by decide)) (by decide)
  · have h0 : " 7".toList.head? = some '0' := by rw [heq]; rfl
    exact absurd h0 (by decide)
  · have h0 : " 7".toList.head? = some '0' := by rw [heq]; rfl
    exact absurd h0 (by decide)

/-! ### String getters (C11, C12) -/

theorem get_string_eq (ctx : tcs_internal_ctx) (key : String)
    (hcursor : ctx.select_group_node ≠ [])
    (hkeys : carries TAG_STRING ATTR_KEY ctx.select_group_node) :
    get_string ctx key =
      .ok ((first_scalar TAG_STRING key ctx.select_group_node).map xmlNodeGetContent) := by
  unfold get_string first_scalar search_property
  rw [← find_split_map_find]
  cases hc : ctx.select_group_node with
  | nil => exact absurd hc hcursor
  | cons c cs =>
    rw [hc] at hkeys
    simp only []
    rw [search_node_eq hkeys (by simp)]
    cases find_split (has_tag_prop TAG_STRING ATTR_KEY key) (c :: cs) with
    | none => rfl
    | some f => obtain ⟨b, x, a⟩ := f; rfl

/-- C11: with a cursor on a chain whose `string` elements all carry a key,
`get_string` returns the content of the first `string` scalar of that key in the
chain, and returns `NULL` exactly when the chain holds no such scalar; what counts
is only a node of the chain itself named `string` with that key, so that the result
is `NULL` whatever `int` or `bool` scalars of that key the chain holds and whatever
is nested inside its groups. -/
theorem get_string_first_scalar (ctx : tcs_internal_ctx) (key : String)
    (hcursor : ctx.select_group_node ≠ [])
    (hkeys : carries TAG_STRING ATTR_KEY ctx.select_group_node) :
    (∀ node, first_scalar TAG_STRING key ctx.select_group_node = some node →
      get_string ctx key = .ok (some (xmlNodeGetContent node))) ∧
    (get_string ctx key = .ok none ↔
      first_scalar TAG_STRING key ctx.select_group_node = none) ∧
    ((∀ n ∈ ctx.select_group_node, n.name = TAG_STRING → xmlGetProp n ATTR_KEY ≠ some key) →
      get_string ctx key = .ok none) := by
  rw [get_string_eq ctx key hcursor hkeys]
  refine ⟨?_, ?_, ?_⟩
  · intro node h
    rw [h]
    rfl
  · cases first_scalar TAG_STRING key ctx.select_group_node <;> simp
  · intro h
    have : first_scalar TAG_STRING key ctx.select_group_node = none := by
      unfold first_scalar
      apply List.find?_eq_none.mpr
      intro n hn hp
      simp only [has_tag_prop, Bool.and_eq_true, decide_eq_true_eq] at hp
      exact h n hn hp.1 hp.2
    rw [this]
    rfl

/-- C11 (witness): the cursor is on an `int` scalar of key `hello_text`, followed by
a group in which a `string` scalar has that key; `get_string` of `hello_text`
returns `NULL`, and `get_string` of `other` the content of the `string` scalar of
that key. -/
theorem get_string_first_scalar_witness :
    nested_string_ctx.select_group_node ≠ [] ∧
      carries TAG_STRING ATTR_KEY nested_string_ctx.select_group_node ∧
      get_string nested_string_ctx "hello_text" = .ok none ∧
      get_string nested_string_ctx "other" = .ok (some "hello world") :=
  ⟨List.ne_nil_of_length_pos (by decide), by unfold carries; decide,
    (get_string_first_scalar nested_string_ctx "hello_text"
      (List.ne_nil_of_length_pos (by decide)) (by unfold carries; decide)).2.2
      (by decide),
    (get_string_first_scalar nested_string_ctx "other"
      (List.ne_nil_of_length_pos (by decide)) (by unfold carries; decide)).1 _ rfl⟩

/-- The array `get_string_array` returns for a list whose child list begins with
a node that is not an element: the contents of the element children in document
order and their number, or `NULL` and 0 when there is no element child; `NULL` and 0
also when the chain holds no list of that name. -/
theorem get_string_array_spaced (ctx : tcs_internal_ctx) (list_name : String)
    (hcursor : ctx.select_group_node ≠ [])
    (hnames : carries TAG_LIST ATTR_NAME ctx.select_group_node) :
    (first_list list_name ctx.select_group_node = none →
      get_string_array ctx list_name = .ok (none, 0)) ∧
    (∀ node c0 rest, first_list list_name ctx.select_group_node = some node →
      node.children = c0 :: rest → c0.isElement = false →
      get_string_array ctx list_name =
        if (elements node.children).isEmpty then .ok (none, 0)
        else .ok (some ((elements node.children).map xmlNodeGetContent),
          ((elements node.children).length : Int))) := by
  have hsearch : search_list ctx.select_group_node list_name =
      .ok (find_split (has_tag_prop TAG_LIST ATTR_NAME list_name) ctx.select_group_node) :=
    search_node_eq hnames hcursor
  have hfirst : first_list list_name ctx.select_group_node =
      (find_split (has_tag_prop TAG_LIST ATTR_NAME list_name) ctx.select_group_node).map
        (fun f => f.2.1) := (find_split_map_find _ _).symm
  unfold get_string_array
  cases hc : ctx.select_group_node with
  | nil => exact absurd hc hcursor
  | cons c cs =>
    rw [hc] at hsearch hfirst
    simp only [hsearch]
    rw [hfirst]
    cases find_split (has_tag_prop TAG_LIST ATTR_NAME list_name) (c :: cs) with
    | none => simp
    | some f =>
      obtain ⟨b, x, a⟩ := f
      refine ⟨by simp, ?_⟩
      intro node c0 rest hnode hkids hc0
      simp only [Option.map_some', Option.some.injEq] at hnode
      subst hnode
      simp only [hkids, next_node]
      have hel : elements (c0 :: rest) = elements rest := by
        simp [elements, List.filter_cons, hc0]
      rw [hel]
      cases hd : rest.dropWhile (fun n => !n.isElement) with
      | nil =>
        have := (dropWhile_eq_nil_iff_elements rest).mp hd
        simp [this]
      | cons first more =>
        have hfe : first.isElement = true := by
          have := List.head_dropWhile_not (fun x : XmlNode => !x.isElement) rest
            (by rw [hd]; simp)
          simpa [hd] using this
        have hels : elements rest = first :: more.filter XmlNode.isElement := by
          rw [← elements_dropWhile rest, hd]
          simp [elements, List.filter_cons, hfe]
        rw [hels]
        simp

/-- C12 (code at a failing input): the cursor is on a list written on one line with
the items TLV1 and TLV2; `get_string_array` returns an array holding TLV2 only and
sets the number to 1.  On `<list name="tlvs"/>`, a list without child node, it reads
through `NULL`. -/
theorem get_string_array_compact_list_loses_first_item :
    get_string_array compact_list_ctx "tlvs" = .ok (some ["TLV2"], 1) ∧
      get_string_array childless_list_ctx "tlvs" = .error .null_deref :=
  ⟨rfl, rfl⟩

/-! ### The cursor after a failed selection (C19) -/

/-- C19 (amended): when `select_group` returns -1, either the path begins with the
separator and no default group exists, and the context is left exactly as it was;
or the cursor is `NULL` afterwards and the stored path is the new one, the other
fields being unchanged.  The second case is the one of a path with a piece that
matches no group. -/
theorem select_group_failure_resets_cursor (ctx ctx1 : tcs_internal_ctx) (path : String)
    (hfail : select_group ctx path = .ok (-1, ctx1)) :
    (path.toList.head? = some GROUP_SEPARATOR ∧ ctx.default_group_node = [] ∧ ctx1 = ctx) ∨
      ctx1 = { ctx with select_group_node := [], select_group_name := some path } := by
  cases hs : path_start ctx path.toList with
  | none =>
    left
    unfold path_start at hs
    unfold select_group at hfail
    cases hp : path.toList with
    | nil => rw [hp] at hs; simp at hs
    | cons c rest =>
      rw [hp] at hs hfail
      by_cases hc : c = GROUP_SEPARATOR
      · simp only [hc, ↓reduceIte, Option.map_eq_none', List.head?_eq_none_iff] at hs
        simp only [hc, ↓reduceIte, hs, Except.ok.injEq, Prod.mk.injEq, true_and] at hfail
        exact ⟨by simp [hc], hs, hfail.symm⟩
      · simp [hc] at hs
  | some sr =>
    right
    obtain ⟨start, rem⟩ := sr
    obtain ⟨tail, hun⟩ := select_group_unfold_from ctx path start rem hs
    rw [hun] at hfail
    cases hw : select_group_walk (path_segments rem) (start :: tail) with
    | error e => rw [hw] at hfail; cases hfail
    | ok r =>
      rw [hw] at hfail
      cases r with
      | none =>
        simp only [Except.ok.injEq, Prod.mk.injEq, true_and] at hfail
        exact hfail.symm
      | some ptr =>
        cases ptr with
        | nil => cases hfail
        | cons g after =>
          simp only [] at hfail
          cases hn : next_node g.children with
          | error e => rw [hn] at hfail; cases hfail
          | ok level =>
            rw [hn] at hfail
            cases level with
            | nil =>
              simp only [Except.ok.injEq, Prod.mk.injEq, true_and] at hfail
              exact hfail.symm
            | cons c cs =>
              simp only [Except.ok.injEq, Prod.mk.injEq] at hfail
              exact absurd hfail.1 (by decide)

/-- C19 (witness): with the cursor on the children of a group, selecting a name
that no group of the configuration bears returns -1 and leaves the cursor `NULL`. -/
theorem select_group_failure_resets_cursor_witness :
    select_group hal_ctx "wrong_group_name" = .ok (-1, hal_ctx_after_failure) ∧
      ((("wrong_group_name" : String).toList.head? = some GROUP_SEPARATOR ∧
          hal_ctx.default_group_node = [] ∧ hal_ctx_after_failure = hal_ctx) ∨
        hal_ctx_after_failure =
          { hal_ctx with select_group_node := [],
                         select_group_name := some "wrong_group_name" }) :=
  ⟨rfl, select_group_failure_resets_cursor hal_ctx hal_ctx_after_failure
    "wrong_group_name" rfl⟩

/-- C19 (counterexample): the context holds a valid cursor, on the children of a
group; `select_group` of a name that matches no group returns -1 and the cursor is
`NULL` afterwards, not the node it was before the call. -/
theorem select_group_failure_loses_cursor :
    hal_ctx.select_group_node ≠ [] ∧
      (select_group hal_ctx "wrong_group_name").map
        (fun r => (r.1, r.2.select_group_node)) = .ok (-1, []) :=
  ⟨List.ne_nil_of_length_pos (by decide), rfl⟩

/-! ### The operations of the context (C17) -/

/-- C17 (code at a failing input): in the context `tcs2_init` returns, the pointers
`select_group_array` and `next_group_array` are `NULL`, while the other eight hold
their function: the two operations are declared in tcs.h and provided by nothing. -/
theorem tcs2_init_leaves_array_operations_null :
    tcs2_init_ctx.select_group_array = none ∧ tcs2_init_ctx.next_group_array = none ∧
      tcs2_init_ctx.select_group = some .select_group := by
  decide

/-! ### Selection through a group without element child (C15) -/

/-- C15 (code at a failing input): the group `a` of the configuration holds white
space only.  Selecting `a` returns -1, but selecting `a.b` fails the assertion of
`search_node` instead of returning -1. -/
theorem select_group_through_empty_group_aborts :
    (select_group (ctx_of_root config_with_empty_group) "a").map (fun r => r.1) = .ok (-1) ∧
      select_group (ctx_of_root config_with_empty_group) "a.b" = .error .assertion :=
  ⟨rfl, rfl⟩

/-! ### Empty overlay lists (C20) -/

/-- An overlay list in default mode without element after its first child, met
by a list of the same name in the destination: the merge fails the assertion of
tcs.c:309.  The setting is the one of `merge_list_append`. -/
theorem merge_list_append_empty_aborts (n : String) (otag : String)
    (oattrs : List (String × String)) (o0 : XmlNode) (pre post : List XmlNode)
    (lattrs : List (String × String)) (c0 : XmlNode) (items : List XmlNode)
    (dn : String) (da : List (String × String)) (d0 : XmlNode) (mid : List XmlNode)
    (dl : XmlNode) (after : List XmlNode)
    (hpre : ∀ x ∈ pre, x.isElement = false)
    (hname : lattrs.lookup ATTR_NAME = some n)
    (hmode : lattrs.lookup ATTR_OVERLAY_MODE ≠ some "overwrite")
    (hitems : elements items = [])
    (hcar : carries TAG_LIST ATTR_NAME mid)
    (hmid : ∀ y ∈ mid, has_tag_prop TAG_LIST ATTR_NAME n y = false)
    (hdl : has_tag_prop TAG_LIST ATTR_NAME n dl = true) :
    parse_overlay_group
        (.element otag oattrs (o0 :: (pre ++ .element TAG_LIST lattrs (c0 :: items) :: post)))
        (.element dn da (d0 :: (mid ++ dl :: after))) = .error .assertion := by
  rw [parse_overlay_group_frame _ _ _ _ _ _ _ _ _ _ (has_tag_prop_isElement hdl),
    parse_overlay_siblings_blanks _ _ _ hpre,
    parse_overlay_siblings_list (.element TAG_LIST lattrs (c0 :: items)) post _ rfl rfl]
  have hsearch : search_list (mid.dropWhile (fun n => !n.isElement) ++ dl :: after) n =
      .ok (some (mid.dropWhile (fun n => !n.isElement), dl, after)) :=
    search_node_append _ _ (carries_dropWhile hcar) (no_match_dropWhile hmid) hdl
  have hov : decide (lattrs.lookup ATTR_OVERLAY_MODE = some "overwrite") = false := by
    simpa using hmode
  have hd : items.dropWhile (fun x => !x.isElement) = [] :=
    (dropWhile_eq_nil_iff_elements items).mpr hitems
  simp only [overlay_list, xmlGetProp_element, hname, hsearch, hov, Bool.false_eq_true,
    ↓reduceIte, children_element, next_node, hd]

/-- C20 (code at a failing input): the destination, written on one line, holds the
list `tlvs` as its first child and the overlay list `tlvs`, in default mode, holds
white space only: the merge does not fail, it adds a second list `tlvs`.  And with
`<list name="tlvs" overlay="overwrite"/>`, a list without child node, the merge does
not complete: it reads through `NULL`. -/
theorem empty_overlay_list_outcomes_on_compact_documents :
    parse_overlay_group overlay_append_empty base_compact_list_first =
        .ok (mkGroup "streamline1" [mkList "tlvs" none (indent [mkItem "TLV1"]),
          mkScalar "int" "n" "1", mkList "tlvs" none [ws], ws]) ∧
      parse_overlay_group overlay_overwrite_childless base_one_item = .error .null_deref :=
  ⟨rfl, rfl⟩

/-! ### The uniqueness invariant (C16) -/

/-- C16 (code at a failing input): destination and overlay, both written one child
per line, satisfy the uniqueness invariant; the overlay brings a new group followed
by the list `tlvs` that the destination has.  The merge completes and its result
does not satisfy the invariant: it holds two lists named `tlvs`. -/
theorem merge_breaks_uniqueness :
    unique_names base_one_item = true ∧ unique_names overlay_new_group_then_tlvs = true ∧
      parse_overlay_group overlay_new_group_then_tlvs base_one_item =
        .ok (mkGroup "streamline1" (indent [mkList "tlvs" none
            (indent [mkItem "TLV1"] ++ [mkItem "TLV4", ws])] ++
          [mkGroup "extra" (indent [mkScalar "int" "a" "1"]), ws,
           mkList "tlvs" none (indent [mkItem "TLV4"]), ws])) ∧
      (parse_overlay_group overlay_new_group_then_tlvs base_one_item).map unique_names =
        .ok false := by
  refine ⟨by decide, by decide, rfl, rfl⟩

/-! ### The length of the names of a path (C18) -/

theorem select_group_walk_unbounded_eq (segs : List (List Char)) (node : List XmlNode)
    (hshort : ∀ seg ∈ segs, (String.mk seg).utf8ByteSize ≤ 39) :
    select_group_walk segs node = select_group_walk_unbounded segs node := by
  induction segs generalizing node with
  | nil => rfl
  | cons seg more ih =>
    have hs : (String.mk seg).utf8ByteSize + 1 ≤ 40 := by
      have := hshort seg (List.mem_cons_self _ _)
      omega
    have hmore : ∀ s ∈ more, (String.mk s).utf8ByteSize ≤ 39 :=
      fun s hs => hshort s (List.mem_cons_of_mem _ hs)
    unfold select_group_walk select_group_walk_unbounded
    simp only [hs, ↓reduceIte]
    cases node with
    | nil => rfl
    | cons n t =>
      simp only []
      cases next_node n.children with
      | error e => rfl
      | ok level =>
        simp only []
        cases search_group level (String.mk seg) with
        | error e => rfl
        | ok r =>
          cases r with
          | none => rfl
          | some f =>
            obtain ⟨b, g, a⟩ := f
            exact ih (g :: a) hmore

theorem path_start_rest {ctx : tcs_internal_ctx} {path : List Char} {start : XmlNode}
    {rem : List Char} (h : path_start ctx path = some (start, rem)) : rem = path_rest path := by
  cases path with
  | nil =>
    simp only [path_start, Option.some.injEq, Prod.mk.injEq] at h
    rw [← h.2]
    rfl
  | cons c rest =>
    unfold path_start at h
    unfold path_rest
    by_cases hc : c = GROUP_SEPARATOR
    · simp only [hc, ↓reduceIte] at h ⊢
      cases hd : ctx.default_group_node.head? with
      | none => rw [hd] at h; simp at h
      | some d =>
        rw [hd] at h
        simp only [Option.map_some', Option.some.injEq, Prod.mk.injEq] at h
        exact h.2.symm
    · simp only [hc, ↓reduceIte, Option.some.injEq, Prod.mk.injEq] at h ⊢
      exact h.2.symm

/-- The three outcomes of `select_group`, from the root or from the default
group: the statement of `select_group_absolute_cases` for the start of any path. -/
theorem select_group_cases_from (ctx : tcs_internal_ctx) (path : String) (start : XmlNode)
    (rem : List Char) (hstart : path_start ctx path.toList = some (start, rem))
    (hwf : groups_well_formed start = true)
    (hshort : ∀ seg ∈ path_segments rem, (String.mk seg).utf8ByteSize ≤ 39) :
    ((∃ ctx1, select_group ctx path = .ok (0, ctx1)) ↔
      ∃ g, resolve start (path_names rem) = some g ∧ elements g.children ≠ []) ∧
    (empty_level start (path_names rem) = false →
      (¬ ∃ g, resolve start (path_names rem) = some g ∧ elements g.children ≠ []) →
      select_group ctx path =
        .ok (-1, { ctx with select_group_node := [], select_group_name := some path })) ∧
    (empty_level start (path_names rem) = true →
      select_group ctx path = .error .assertion) := by
  obtain ⟨tail, hun⟩ := select_group_unfold_from ctx path start rem hstart
  have hwalk := select_group_walk_eq (path_segments rem) start tail hwf hshort
  rw [hun]
  unfold path_names
  generalize path_segments rem = segs at hwalk ⊢
  generalize List.map String.mk segs = names at hwalk ⊢
  cases hw : select_group_walk segs (start :: tail) with
  | error e =>
    rw [hw] at hwalk
    by_cases hempty : empty_level start names = true
    · simp only [hempty, ↓reduceIte, Except.map, Except.error.injEq] at hwalk
      subst hwalk
      refine ⟨?_, ?_, ?_⟩
      · constructor
        · rintro ⟨_, h⟩; cases h
        · rintro ⟨g, hg, _⟩
          rw [resolve_not_empty_level hg] at hempty
          cases hempty
      · intro h; rw [h] at hempty; cases hempty
      · intro _; rfl
    · simp [hempty, Except.map] at hwalk
  | ok r =>
    rw [hw] at hwalk
    by_cases hempty : empty_level start names = true
    · simp [hempty, Except.map] at hwalk
    · simp only [hempty, Bool.false_eq_true, ↓reduceIte, Except.map, Except.ok.injEq] at hwalk
      simp only [Bool.not_eq_true] at hempty
      cases r with
      | none =>
        simp only [Option.map_none'] at hwalk
        have hres : resolve start names = none := by
          cases hr : resolve start names with
          | none => rfl
          | some g => rw [hr] at hwalk; simp at hwalk
        refine ⟨?_, ?_, ?_⟩
        · constructor
          · rintro ⟨_, h⟩
            simp at h
          · rintro ⟨g, hg, _⟩
            rw [hres] at hg
            cases hg
        · intro _ _; rfl
        · intro h; rw [h] at hempty; cases hempty
      | some ptr =>
        cases ptr with
        | nil =>
          exfalso
          cases hr : resolve start names with
          | none => rw [hr] at hwalk; simp at hwalk
          | some g => rw [hr] at hwalk; simp at hwalk
        | cons g after =>
          have hres : resolve start names = some g := by
            cases hr : resolve start names with
            | none => rw [hr] at hwalk; simp at hwalk
            | some g1 => rw [hr] at hwalk; simp at hwalk; rw [hwalk]
          obtain ⟨level, hlevel, hnil⟩ :=
            next_node_children_of_well_formed (groups_well_formed_resolve hwf hres)
          simp only [hlevel, hres, Option.some.injEq, exists_eq_left', hempty]
          cases level with
          | nil =>
            have he : elements g.children = [] := hnil.mp rfl
            refine ⟨?_, ?_, ?_⟩
            · constructor
              · rintro ⟨_, h⟩
                simp at h
              · intro h; exact absurd he h
            · intro _ _; rfl
            · intro h; cases h
          | cons c cs =>
            have he : elements g.children ≠ [] := fun e => by
              have := hnil.mpr e
              cases this
            refine ⟨?_, ?_, ?_⟩
            · constructor
              · intro _; exact he
              · intro _; exact ⟨_, rfl⟩
            · intro _ h; exact absurd he h
            · intro h; cases h

theorem select_group_unbounded_eq (ctx : tcs_internal_ctx) (path : String)
    (hshort : ∀ seg ∈ path_segments (path_rest path.toList), (String.mk seg).utf8ByteSize ≤ 39) :
    select_group ctx path = select_group_unbounded ctx path := by
  unfold select_group select_group_unbounded
  cases hp : path.toList with
  | nil =>
    rw [hp] at hshort
    simp only [path_rest] at hshort
    simp only [select_group_walk_unbounded_eq _ _ hshort]
  | cons c rest =>
    rw [hp] at hshort
    unfold path_rest at hshort
    by_cases hc : c = GROUP_SEPARATOR
    · simp only [hc, ↓reduceIte] at hshort ⊢
      cases ctx.default_group_node with
      | nil => rfl
      | cons d ds => simp only [select_group_walk_unbounded_eq _ _ hshort]
    · simp only [hc, ↓reduceIte] at hshort ⊢
      simp only [select_group_walk_unbounded_eq _ _ hshort]

/-- C18 (amended): for a path whose names are each at most 39 bytes long,
`select_group` never fails the assertion on the length of a name: it does what the
same function without that assertion does.  And from a start node (root or default
group) whose groups begin their child list with a node that is not an element and
carry a name, when each node in which a group has to be looked up has an element
child, it returns 0 if the names lead to a group that has an element child and -1 if
they do not. -/
theorem select_group_short_names (ctx : tcs_internal_ctx) (path : String)
    (hshort : ∀ seg ∈ path_segments (path_rest path.toList), (String.mk seg).utf8ByteSize ≤ 39) :
    select_group ctx path = select_group_unbounded ctx path ∧
    ∀ start rem, path_start ctx path.toList = some (start, rem) →
      groups_well_formed start = true → empty_level start (path_names rem) = false →
      ((∃ ctx1, select_group ctx path = .ok (0, ctx1)) ↔
        ∃ g, resolve start (path_names rem) = some g ∧ elements g.children ≠ []) ∧
      ((¬ ∃ g, resolve start (path_names rem) = some g ∧ elements g.children ≠ []) →
        select_group ctx path =
          .ok (-1, { ctx with select_group_node := [], select_group_name := some path })) := by
  refine ⟨select_group_unbounded_eq ctx path hshort, ?_⟩
  intro start rem hstart hwf hempty
  have hrem := path_start_rest hstart
  have h := select_group_cases_from ctx path start rem hstart hwf (by rw [hrem]; exact hshort)
  exact ⟨h.1, h.2.1 hempty⟩

/-- C18 (witness): the path "common" in the configuration of the test suite. -/
theorem select_group_short_names_witness :
    (∀ seg ∈ path_segments (path_rest ("common" : String).toList),
        (String.mk seg).utf8ByteSize ≤ 39) ∧
      select_group (ctx_of_root config_document) "common" =
        select_group_unbounded (ctx_of_root config_document) "common" :=
  ⟨by decide, (select_group_short_names (ctx_of_root config_document) "common"
    (by decide)).1⟩

/-- C18 (counterexample): the configuration holds a group whose name has 63 bytes,
with an element child, so that the path made of that name resolves; `select_group`
fails the assertion on the length of the name. -/
theorem select_group_63_byte_name_aborts :
    name_of_63_bytes.utf8ByteSize = 63 ∧
      (resolve config_long_group (path_names name_of_63_bytes.toList)).isSome = true ∧
      select_group (ctx_of_root config_long_group) name_of_63_bytes = .error .assertion ∧
      (select_group_unbounded (ctx_of_root config_long_group) name_of_63_bytes).map
        (fun r => r.1) = .ok 0 :=
  ⟨by decide, by decide, rfl, rfl⟩

/-! ### Relative and absolute paths to the default group (C14) -/

theorem search_next_of_element {tag prop key : String} {n : XmlNode} (rest : List XmlNode)
    (hn : n.isElement = true) :
    search_next tag prop key (n :: rest) = search_node (n :: rest) tag prop key := by
  unfold search_next search_node
  simp only [hn, ↓reduceIte]

theorem search_node_dropWhile_of_search_next {tag prop key : String} {l : List XmlNode}
    {b after : List XmlNode} {node : XmlNode}
    (h : search_next tag prop key l = .ok (some (b, node, after))) :
    ∃ b1, search_node (l.dropWhile (fun n => !n.isElement)) tag prop key =
      .ok (some (b1, node, after)) := by
  induction l generalizing b with
  | nil => simp [search_next] at h
  | cons n rest ih =>
    by_cases hn : n.isElement = true
    · rw [search_next_of_element rest hn] at h
      simp only [List.dropWhile, hn, Bool.not_true]
      exact ⟨b, h⟩
    · simp only [Bool.not_eq_true] at hn
      unfold search_next at h
      simp only [hn, Bool.false_eq_true, ↓reduceIte] at h
      simp only [List.dropWhile, hn, Bool.not_false]
      cases hr : search_next tag prop key rest with
      | error e => rw [hr] at h; simp [shift] at h
      | ok r =>
        cases r with
        | none => rw [hr] at h; simp [shift] at h
        | some f =>
          obtain ⟨b0, x, a⟩ := f
          rw [hr] at h
          simp only [shift, Except.ok.injEq, Option.some.injEq, Prod.mk.injEq] at h
          obtain ⟨_, rfl, rfl⟩ := h
          exact ih hr

theorem name_ne_group_of_not_element {c : XmlNode} (h : c.isElement = false) :
    c.name ≠ TAG_GROUP := by
  cases c with
  | element n a cs => simp [XmlNode.isElement] at h
  | text s => simp only [XmlNode.name]; decide
  | comment s => simp only [XmlNode.name]; decide

/-- The search of a group from the first child of a node and the search from
`next_node` of that child find the same node, when the first child is not an
element. -/
theorem search_group_next_node_of_blank {c0 : XmlNode} {rest b after : List XmlNode}
    {node : XmlNode} {g : String} (hc : c0.isElement = false)
    (h : search_group (c0 :: rest) g = .ok (some (b, node, after))) :
    ∃ level b1, next_node (c0 :: rest) = .ok level ∧
      search_group level g = .ok (some (b1, node, after)) := by
  unfold search_group search_node at h
  have hv : search_visit TAG_GROUP ATTR_NAME g c0 = .ok false := by
    unfold search_visit
    simp only [name_ne_group_of_not_element hc, ↓reduceIte]
  simp only [hv] at h
  cases hr : search_next TAG_GROUP ATTR_NAME g rest with
  | error e => rw [hr] at h; simp [shift] at h
  | ok r =>
    cases r with
    | none => rw [hr] at h; simp [shift] at h
    | some f =>
      obtain ⟨b0, x, a⟩ := f
      rw [hr] at h
      simp only [shift, Except.ok.injEq, Option.some.injEq, Prod.mk.injEq] at h
      obtain ⟨_, rfl, rfl⟩ := h
      obtain ⟨b1, hb1⟩ := search_node_dropWhile_of_search_next hr
      exact ⟨_, b1, rfl, hb1⟩

theorem priv_add_group_result {dep : Deployment} {hw : String} {ov : Option String}
    {root root2 : XmlNode} {g : String} {ptr : List XmlNode}
    (h : priv_add_group dep hw ov root g false = .ok (root2, ptr)) :
    ∃ b node after, search_group root2.children g = .ok (some (b, node, after)) ∧
      ptr = node :: after := by
  unfold priv_add_group at h
  cases h1 : next_node root.children with
  | error e => rw [h1] at h; cases h
  | ok level =>
    rw [h1] at h
    simp only [] at h
    cases h2 : search_group level "modules" with
    | error e => rw [h2] at h; cases h
    | ok r2 =>
      rw [h2] at h
      cases r2 with
      | none => cases h
      | some f2 =>
        obtain ⟨b2, modules, a2⟩ := f2
        simp only [] at h
        cases h3 : next_node modules.children with
        | error e => rw [h3] at h; cases h
        | ok entries =>
          rw [h3] at h
          simp only [] at h
          cases h4 : search_property entries TAG_STRING g with
          | error e => rw [h4] at h; cases h
          | ok r4 =>
            rw [h4] at h
            cases r4 with
            | none => cases h
            | some f4 =>
              obtain ⟨b4, entry, a4⟩ := f4
              simp only [] at h
              cases h5 : dep.xmlReadFile (snprintf 256
                  (hw ++ "/" ++ module_family g ++ "/" ++ xmlNodeGetContent entry)) with
              | none => rw [h5] at h; cases h
              | some doc =>
                rw [h5] at h
                simp only [] at h
                by_cases h6 : doc.root.name = TAG_GROUP
                · simp only [h6, ↓reduceIte] at h
                  cases h7 : parse_overlay dep ov (root.setChildren
                      (xmlAddChildList root.children (xmlCopyNodeList (doc.root :: doc.trailer))))
                      g false with
                  | error e => rw [h7] at h; cases h
                  | ok r7 =>
                    rw [h7] at h
                    simp only [] at h
                    cases h8 : search_group r7.children g with
                    | error e => rw [h8] at h; cases h
                    | ok r8 =>
                      rw [h8] at h
                      cases r8 with
                      | none => cases h
                      | some f8 =>
                        obtain ⟨b8, node, after⟩ := f8
                        simp only [Bool.false_eq_true, ↓reduceIte, Except.ok.injEq,
                          Prod.mk.injEq] at h
                        obtain ⟨rfl, rfl⟩ := h
                        exact ⟨b8, node, after, h8, rfl⟩
                · simp only [h6, ↓reduceIte] at h
                  cases h

theorem tcs2_init_default_group {dep : Deployment} {g : String} {ctx0 : tcs_internal_ctx}
    (h : tcs2_init dep (some g) = .ok (some ctx0)) :
    ∃ b node after, search_group ctx0.root_node.children g = .ok (some (b, node, after)) ∧
      ctx0.default_group_node = node :: after := by
  unfold tcs2_init at h
  split at h
  · cases h
  · cases h
  · simp only [] at h
    split at h
    · cases h
    · rename_i root1 ptr hp
      obtain ⟨b, node, after, hs, rfl⟩ := priv_add_group_result hp
      simp only [] at h
      split at h
      · cases h
      · simp only [Except.ok.injEq, Option.some.injEq] at h
        rw [← h]
        exact ⟨b, node, after, hs, rfl⟩

theorem path_segments_append_separator (g p : List Char) (hdot : GROUP_SEPARATOR ∉ g) :
    path_segments (g ++ GROUP_SEPARATOR :: p) = g :: path_segments p := by
  induction g with
  | nil => simp [path_segments]
  | cons c cs ih =>
    have hc : c ≠ GROUP_SEPARATOR := fun e => hdot (e ▸ List.mem_cons_self _ _)
    have hcs : GROUP_SEPARATOR ∉ cs := fun m => hdot (List.mem_cons_of_mem _ m)
    rw [List.cons_append, path_segments]
    simp only [hc, ↓reduceIte]
    rw [ih hcs]

theorem select_group_relative_end (ctx : tcs_internal_ctx) (path : String) (p : List Char)
    (d : XmlNode) (ds : List XmlNode) (hpath : path.toList = GROUP_SEPARATOR :: p)
    (hd : ctx.default_group_node = d :: ds) :
    (select_group ctx path).map (fun r => (r.1, r.2.select_group_node)) =
      select_group_end (select_group_walk (path_segments p) (d :: ds)) := by
  unfold select_group
  simp only [hpath, ↓reduceIte, hd]
  cases select_group_walk (path_segments p) (d :: ds) with
  | error e => rfl
  | ok r =>
    cases r with
    | none => rfl
    | some ptr =>
      cases ptr with
      | nil => rfl
      | cons grp t =>
        simp only [select_group_end]
        cases next_node grp.children with
        | error e => rfl
        | ok l =>
          cases l with
          | nil => rfl
          | cons c cs => rfl

theorem select_group_absolute_end (ctx : tcs_internal_ctx) (path : String) (c : Char)
    (cs : List Char) (hpath : path.toList = c :: cs) (hc : c ≠ GROUP_SEPARATOR) :
    (select_group ctx path).map (fun r => (r.1, r.2.select_group_node)) =
      select_group_end (select_group_walk (path_segments (c :: cs)) [ctx.root_node]) := by
  unfold select_group
  simp only [hpath, hc, ↓reduceIte]
  cases select_group_walk (path_segments (c :: cs)) [ctx.root_node] with
  | error e => rfl
  | ok r =>
    cases r with
    | none => rfl
    | some ptr =>
      cases ptr with
      | nil => rfl
      | cons grp t =>
        simp only [select_group_end]
        cases next_node grp.children with
        | error e => rfl
        | ok l =>
          cases l with
          | nil => rfl
          | cons c cs => rfl

/-- C14 (amended): in a context that `tcs2_init` returned for the default group
name `g`, also after further selections, when `g` holds no separator and is at most
39 bytes long and the child list of the root begins with a node that is not an
element, `select_group` of the path "." followed by `p` and `select_group` of `g`
followed by "." and `p` end the same way: same status and same cursor, or the same
fault. -/
theorem select_group_default_by_name (dep : Deployment) (g : String)
    (ctx0 ctx : tcs_internal_ctx) (p : String)
    (hinit : tcs2_init dep (some g) = .ok (some ctx0))
    (hroot : ctx.root_node = ctx0.root_node)
    (hdefault : ctx.default_group_node = ctx0.default_group_node)
    (hdot : GROUP_SEPARATOR ∉ g.toList) (hlen : g.utf8ByteSize ≤ 39)
    (hblank : starts_blank ctx0.root_node.children = true) :
    (select_group ctx ("." ++ p)).map (fun r => (r.1, r.2.select_group_node)) =
      (select_group ctx (g ++ "." ++ p)).map (fun r => (r.1, r.2.select_group_node)) := by
  obtain ⟨b, node, after, hs, hdn⟩ := tcs2_init_default_group hinit
  have hrel : ("." ++ p).toList = GROUP_SEPARATOR :: p.toList := by
    cases p; rfl
  have habs : (g ++ "." ++ p).toList = g.toList ++ GROUP_SEPARATOR :: p.toList := by
    cases p; cases g; simp [String.toList]
  rw [select_group_relative_end ctx ("." ++ p) p.toList node after hrel (hdefault.trans hdn)]
  cases hg : g.toList with
  | nil =>
    rw [hg] at habs
    rw [select_group_relative_end ctx (g ++ "." ++ p) p.toList node after habs
      (hdefault.trans hdn)]
  | cons c cs =>
    have hc : c ≠ GROUP_SEPARATOR := fun e => hdot (by rw [hg, e]; exact List.mem_cons_self _ _)
    rw [hg] at habs
    rw [select_group_absolute_end ctx (g ++ "." ++ p) c (cs ++ GROUP_SEPARATOR :: p.toList)
      habs hc]
    have hseg : path_segments (c :: (cs ++ GROUP_SEPARATOR :: p.toList)) =
        g.toList :: path_segments p.toList := by
      rw [hg]
      exact path_segments_append_separator (c :: cs) p.toList (hg ▸ hdot)
    rw [hseg, hroot]
    cases hch : ctx0.root_node.children with
    | nil => rw [hch] at hblank; cases hblank
    | cons c0 rest =>
      rw [hch] at hblank hs
      have hc0 : c0.isElement = false := by
        simpa [starts_blank] using hblank
      obtain ⟨level, b1, hnext, hfound⟩ := search_group_next_node_of_blank hc0 hs
      have hsize : (String.mk g.toList).utf8ByteSize + 1 ≤ 40 := by
        have : String.mk g.toList = g := rfl
        rw [this]
        omega
      have hgs : String.mk g.toList = g := rfl
      have hsize1 : g.utf8ByteSize + 1 ≤ 40 := by omega
      conv => rhs; unfold select_group_walk
      simp only [hsize, hsize1, ↓reduceIte, hch, hnext, hgs, hfound]

/-- C14 (witness): the device of the test suite, initialised with the group
`crm1`, and the suffix `hal`. -/
theorem select_group_default_by_name_witness :
    tcs2_init crm_device (some "crm1") = .ok (some crm_ctx) ∧
      (select_group crm_ctx ("." ++ "hal")).map (fun r => (r.1, r.2.select_group_node)) =
        (select_group crm_ctx ("crm1" ++ "." ++ "hal")).map
          (fun r => (r.1, r.2.select_group_node)) :=
  ⟨rfl, select_group_default_by_name crm_device "crm1" crm_ctx crm_ctx "hal" rfl rfl rfl
    (by decide) (by decide) rfl⟩

/-- C14 (counterexample): with a default group named `a.b`, the path ".hal"
selects the group `hal` of the default group while "a.b.hal" looks for a group `a`
in the root and returns -1; with a default group whose name has 40 bytes, the
relative path succeeds and the path through the name fails the assertion on the
length of a name. -/
theorem select_group_default_by_name_differs :
    (∃ ctx, tcs2_init dotted_device (some "a.b") = .ok (some ctx) ∧
      (select_group ctx ".hal").map (fun r => r.1) = .ok 0 ∧
      (select_group ctx "a.b.hal").map (fun r => r.1) = .ok (-1)) ∧
    (∃ ctx, tcs2_init long_name_device (some name_of_40_bytes) = .ok (some ctx) ∧
      (select_group ctx ".hal").map (fun r => r.1) = .ok 0 ∧
      select_group ctx (name_of_40_bytes ++ ".hal") = .error .assertion) :=
  ⟨⟨_, rfl, rfl, rfl⟩, ⟨_, rfl, rfl, rfl⟩⟩

/-! ### What a search finds, along the merge (C13) -/

theorem same_label_refl (a : XmlNode) : same_label a a := ⟨rfl, rfl, fun _ => rfl⟩

theorem same_label_setChildren (d : XmlNode) (cs : List XmlNode) :
    same_label (d.setChildren cs) d := by
  cases d <;> exact ⟨rfl, rfl, fun _ => rfl⟩

theorem same_label_setContent (d : XmlNode) (v : String) :
    same_label (xmlNodeSetContent d v) d := by
  cases d <;> exact ⟨rfl, rfl, fun _ => rfl⟩

theorem search_visit_congr {a b : XmlNode} (h : same_label a b) (tag prop key : String) :
    search_visit tag prop key a = search_visit tag prop key b := by
  unfold search_visit
  rw [h.2.1, h.2.2 prop]

theorem has_tag_prop_congr {a b : XmlNode} (h : same_label a b) (tag prop key : String) :
    has_tag_prop tag prop key a = has_tag_prop tag prop key b := by
  unfold has_tag_prop
  rw [h.2.1, h.2.2 prop]

theorem search_visit_true {tag prop key : String} {x : XmlNode}
    (h : search_visit tag prop key x = .ok true) :
    x.name = tag ∧ xmlGetProp x prop = some key := by
  unfold search_visit at h
  by_cases hn : x.name = tag
  · simp only [hn, ↓reduceIte] at h
    cases hp : xmlGetProp x prop with
    | none => rw [hp] at h; cases h
    | some v =>
      rw [hp] at h
      simp only [Except.ok.injEq, decide_eq_true_eq] at h
      exact ⟨hn, by rw [h]⟩
  · simp [hn] at h

theorem search_visit_of_has_tag_prop {tag prop key : String} {x : XmlNode}
    (h : has_tag_prop tag prop key x = true) : search_visit tag prop key x = .ok true := by
  unfold has_tag_prop at h
  simp only [Bool.and_eq_true, decide_eq_true_eq] at h
  unfold search_visit
  simp [h.1, h.2]

theorem has_tag_prop_of_search_visit {tag prop key : String} {x : XmlNode}
    (h : search_visit tag prop key x = .ok true) : has_tag_prop tag prop key x = true := by
  obtain ⟨h1, h2⟩ := search_visit_true h
  unfold has_tag_prop
  simp [h1, h2]

theorem search_visit_not_element {tag prop key : String} {x : XmlNode}
    (hx : x.isElement = false) : search_visit tag prop key x ≠ .ok true := by
  intro h
  have := (search_visit_true h).2
  rw [xmlGetProp_of_not_element hx] at this
  cases this

theorem search_next_cons_found {tag prop key : String} {n : XmlNode} (rest : List XmlNode)
    (hn : n.isElement = true) (hv : search_visit tag prop key n = .ok true) :
    search_next tag prop key (n :: rest) = .ok (some ([], n, rest)) := by
  rw [search_next]
  simp only [hn, ↓reduceIte, hv]

theorem search_next_cons_skip {tag prop key : String} {n : XmlNode} (rest : List XmlNode)
    (h : n.isElement = false ∨ search_visit tag prop key n = .ok false) :
    search_next tag prop key (n :: rest) = shift n (search_next tag prop key rest) := by
  rw [search_next]
  by_cases hn : n.isElement = true
  · rcases h with h | h
    · rw [hn] at h; cases h
    · simp only [hn, ↓reduceIte, h]
  · simp only [hn, Bool.false_eq_true, ↓reduceIte]

theorem shift_some {n : XmlNode} {r : Except Fault (Option Found)} {b a : List XmlNode}
    {x : XmlNode} (h : shift n r = .ok (some (b, x, a))) :
    ∃ b0, r = .ok (some (b0, x, a)) ∧ b = n :: b0 := by
  cases r with
  | error e => simp [shift] at h
  | ok o =>
    cases o with
    | none => simp [shift] at h
    | some f =>
      obtain ⟨b0, y, a0⟩ := f
      simp only [shift, Except.ok.injEq, Option.some.injEq, Prod.mk.injEq] at h
      obtain ⟨rfl, rfl, rfl⟩ := h
      exact ⟨b0, rfl, rfl⟩

theorem shift_none {n : XmlNode} {r : Except Fault (Option Found)}
    (h : shift n r = .ok none) : r = .ok none := by
  cases r with
  | error e => simp [shift] at h
  | ok o =>
    cases o with
    | none => rfl
    | some f =>
      obtain ⟨b0, y, a0⟩ := f
      simp [shift] at h

/-- The two ways a search that succeeds can start: the first node is the match,
or it is passed and the search succeeds on the rest. -/
theorem search_next_cons_some {tag prop key : String} {n : XmlNode} {rest b a : List XmlNode}
    {x : XmlNode} (h : search_next tag prop key (n :: rest) = .ok (some (b, x, a))) :
    (b = [] ∧ x = n ∧ a = rest ∧ n.isElement = true ∧ search_visit tag prop key n = .ok true) ∨
    (∃ b0, b = n :: b0 ∧ search_next tag prop key rest = .ok (some (b0, x, a)) ∧
      (n.isElement = false ∨ search_visit tag prop key n = .ok false)) := by
  rw [search_next] at h
  by_cases hn : n.isElement = true
  · simp only [hn, ↓reduceIte] at h
    cases hv : search_visit tag prop key n with
    | error e => rw [hv] at h; cases h
    | ok v =>
      rw [hv] at h
      cases v with
      | true =>
        simp only [Except.ok.injEq, Option.some.injEq, Prod.mk.injEq] at h
        obtain ⟨rfl, rfl, rfl⟩ := h
        exact Or.inl ⟨rfl, rfl, rfl, hn, rfl⟩
      | false =>
        simp only [] at h
        obtain ⟨b0, hr, hb⟩ := shift_some h
        exact Or.inr ⟨b0, hb, hr, Or.inr rfl⟩
  · simp only [hn, Bool.false_eq_true, ↓reduceIte] at h
    obtain ⟨b0, hr, hb⟩ := shift_some h
    exact Or.inr ⟨b0, hb, hr, Or.inl (by simpa using hn)⟩

theorem search_next_cons_none {tag prop key : String} {n : XmlNode} {rest : List XmlNode}
    (h : search_next tag prop key (n :: rest) = .ok none) :
    search_next tag prop key rest = .ok none ∧
      (n.isElement = false ∨ search_visit tag prop key n = .ok false) := by
  rw [search_next] at h
  by_cases hn : n.isElement = true
  · simp only [hn, ↓reduceIte] at h
    cases hv : search_visit tag prop key n with
    | error e => rw [hv] at h; cases h
    | ok v =>
      rw [hv] at h
      cases v with
      | true => simp at h
      | false => exact ⟨shift_none h, Or.inr rfl⟩
  · simp only [hn, Bool.false_eq_true, ↓reduceIte] at h
    exact ⟨shift_none h, Or.inl (by simpa using hn)⟩

theorem search_next_split {tag prop key : String} {l b a : List XmlNode} {x : XmlNode}
    (h : search_next tag prop key l = .ok (some (b, x, a))) :
    l = b ++ x :: a ∧ x.isElement = true ∧ search_visit tag prop key x = .ok true := by
  induction l generalizing b with
  | nil => simp [search_next] at h
  | cons n rest ih =>
    rcases search_next_cons_some h with ⟨rfl, rfl, rfl, hn, hv⟩ | ⟨b0, rfl, hr, _⟩
    · exact ⟨rfl, hn, hv⟩
    · obtain ⟨hl, hx, hv⟩ := ih hr
      exact ⟨by rw [hl]; rfl, hx, hv⟩

theorem search_next_none_no_match {tag prop key : String} {l : List XmlNode}
    (h : search_next tag prop key l = .ok none) :
    ∀ y ∈ l, has_tag_prop tag prop key y = false := by
  induction l with
  | nil => intro y hy; cases hy
  | cons n rest ih =>
    obtain ⟨hr, hn⟩ := search_next_cons_none h
    intro y hy
    rcases List.mem_cons.mp hy with rfl | hy
    · cases hp : has_tag_prop tag prop key y with
      | false => rfl
      | true =>
        rcases hn with hn | hn
        · rw [has_tag_prop_isElement hp] at hn; cases hn
        · rw [search_visit_of_has_tag_prop hp] at hn; cases hn
    · exact ih hr y hy

/-- Replacing a node of the chain that is not a match by a node that looks the
same leaves the node found as it is. -/
theorem search_next_replace_other {tag prop key : String} (b : List XmlNode) {d d1 : XmlNode}
    {a b0 a0 : List XmlNode} {x : XmlNode}
    (h : search_next tag prop key (b ++ d :: a) = .ok (some (b0, x, a0)))
    (hl : same_label d1 d) (hne : search_visit tag prop key d ≠ .ok true) :
    search_finds tag prop key (b ++ d1 :: a) x := by
  induction b generalizing b0 with
  | nil =>
    simp only [List.nil_append] at h ⊢
    rcases search_next_cons_some h with ⟨_, rfl, _, _, hv⟩ | ⟨b00, _, hr, hskip⟩
    · exact absurd hv hne
    · have hskip1 : d1.isElement = false ∨ search_visit tag prop key d1 = .ok false := by
        rcases hskip with hs | hs
        · exact Or.inl (by rw [hl.1]; exact hs)
        · exact Or.inr (by rw [search_visit_congr hl]; exact hs)
      exact ⟨d1 :: b00, a0, by rw [search_next_cons_skip a hskip1, hr]; rfl⟩
  | cons n b1 ih =>
    simp only [List.cons_append] at h ⊢
    rcases search_next_cons_some h with ⟨_, rfl, _, hn, hv⟩ | ⟨b00, _, hr, hskip⟩
    · exact ⟨[], _, search_next_cons_found _ hn hv⟩
    · obtain ⟨b2, a2, h2⟩ := ih hr
      exact ⟨n :: b2, a2, by rw [search_next_cons_skip _ hskip, h2]; rfl⟩

/-- Replacing the node found by a node that looks the same: the new node is found,
at the same place. -/
theorem search_next_replace_found {tag prop key : String} {l b a : List XmlNode}
    {x x1 : XmlNode} (h : search_next tag prop key l = .ok (some (b, x, a)))
    (hl : same_label x1 x) :
    search_next tag prop key (b ++ x1 :: a) = .ok (some (b, x1, a)) := by
  induction l generalizing b with
  | nil => simp [search_next] at h
  | cons n rest ih =>
    rcases search_next_cons_some h with ⟨rfl, rfl, rfl, hn, hv⟩ | ⟨b0, rfl, hr, hskip⟩
    · exact search_next_cons_found _ (by rw [hl.1]; exact hn)
        (by rw [search_visit_congr hl]; exact hv)
    · simp only [List.cons_append]
      rw [search_next_cons_skip _ hskip, ih hr]
      rfl

theorem search_next_append_right {tag prop key : String} {l b a : List XmlNode} {x : XmlNode}
    (cur : List XmlNode) (h : search_next tag prop key l = .ok (some (b, x, a))) :
    search_next tag prop key (l ++ cur) = .ok (some (b, x, a ++ cur)) := by
  induction l generalizing b with
  | nil => simp [search_next] at h
  | cons n rest ih =>
    rcases search_next_cons_some h with ⟨rfl, rfl, rfl, hn, hv⟩ | ⟨b0, rfl, hr, hskip⟩
    · exact search_next_cons_found _ hn hv
    · simp only [List.cons_append]
      rw [search_next_cons_skip _ hskip, ih hr]
      rfl

theorem search_next_none_append {tag prop key : String} {l : List XmlNode} {x : XmlNode}
    (rest : List XmlNode) (h : search_next tag prop key l = .ok none)
    (hx : x.isElement = true) (hv : search_visit tag prop key x = .ok true) :
    search_next tag prop key (l ++ x :: rest) = .ok (some (l, x, rest)) := by
  induction l with
  | nil => exact search_next_cons_found _ hx hv
  | cons n l1 ih =>
    obtain ⟨hr, hskip⟩ := search_next_cons_none h
    simp only [List.cons_append]
    rw [search_next_cons_skip _ hskip, ih hr]
    rfl

theorem xmlAddChildList_cases (l cur : List XmlNode) :
    xmlAddChildList l cur = l ++ cur ∨
    ∃ l0 s c rest, l = l0 ++ [XmlNode.text s] ∧
      xmlAddChildList l cur = (l0 ++ [XmlNode.text (s ++ c)]) ++ rest := by
  unfold xmlAddChildList
  cases cur with
  | nil => exact Or.inl rfl
  | cons c rest =>
    cases c with
    | element n attrs cs => exact Or.inl rfl
    | comment s => exact Or.inl rfl
    | text c =>
      cases hlast : l.getLast? with
      | none => exact Or.inl rfl
      | some y =>
        cases y with
        | element n attrs cs => exact Or.inl rfl
        | comment s => exact Or.inl rfl
        | text s =>
          refine Or.inr ⟨l.dropLast, s, c, rest, ?_, ?_⟩
          · exact (List.dropLast_append_getLast? _ (by rw [hlast]; rfl)).symm
          · simp

/-- Adding nodes at the end of the chain leaves the node found as it is. -/
theorem search_finds_addChildList {tag prop key : String} {l : List XmlNode} {x : XmlNode}
    (cur : List XmlNode) (h : search_finds tag prop key l x) :
    search_finds tag prop key (xmlAddChildList l cur) x := by
  obtain ⟨b, a, hs⟩ := h
  rcases xmlAddChildList_cases l cur with he | ⟨l0, s, c, rest, hl, he⟩
  · rw [he]
    exact ⟨b, a ++ cur, search_next_append_right cur hs⟩
  · rw [he]
    rw [hl] at hs
    obtain ⟨b1, a1, h1⟩ := search_next_replace_other l0 hs
      (show same_label (XmlNode.text (s ++ c)) (XmlNode.text s) from ⟨rfl, rfl, fun _ => rfl⟩)
      (search_visit_not_element rfl)
    exact ⟨b1, a1 ++ rest, search_next_append_right rest h1⟩

theorem mem_addChildList_of_element {l : List XmlNode} {y : XmlNode} (cur : List XmlNode)
    (hy : y ∈ l) (he : y.isElement = true) : y ∈ xmlAddChildList l cur := by
  rcases xmlAddChildList_cases l cur with h | ⟨l0, s, c, rest, hl, h⟩
  · rw [h]; exact List.mem_append_left _ hy
  · rw [h]
    rw [hl] at hy
    rcases List.mem_append.mp hy with hy | hy
    · exact List.mem_append_left _ (List.mem_append_left _ hy)
    · simp only [List.mem_singleton] at hy
      rw [hy] at he
      cases he

/-- For a tag that no text node and no comment bears, `search_node` is the search
that passes non-elements, from the first node on. -/
theorem search_node_eq_search_next {tag prop key : String} {l : List XmlNode}
    {r : Option Found} (ht : tag ≠ "text" ∧ tag ≠ "comment")
    (h : search_node l tag prop key = .ok r) : search_next tag prop key l = .ok r := by
  cases l with
  | nil => simp [search_node] at h
  | cons n rest =>
    by_cases hn : n.isElement = true
    · rw [search_next_of_element rest hn]
      exact h
    · have hname : n.name ≠ tag := by
        cases n with
        | element _ _ _ => exact absurd rfl hn
        | text s => exact fun e => ht.1 e.symm
        | comment s => exact fun e => ht.2 e.symm
      have hv : search_visit tag prop key n = .ok false := by
        unfold search_visit
        simp only [hname, ↓reduceIte]
      rw [search_next_cons_skip rest (Or.inr hv)]
      unfold search_node at h
      simp only [hv] at h
      exact h

theorem mem_dropWhile_of_element {l : List XmlNode} {y : XmlNode} (hy : y ∈ l)
    (he : y.isElement = true) : y ∈ l.dropWhile (fun n => !n.isElement) := by
  induction l with
  | nil => cases hy
  | cons n rest ih =>
    by_cases hn : n.isElement = true
    · simp only [List.dropWhile, hn, Bool.not_true]
      exact hy
    · simp only [Bool.not_eq_true] at hn
      simp only [List.dropWhile, hn, Bool.not_false]
      rcases List.mem_cons.mp hy with rfl | hy
      · rw [he] at hn; cases hn
      · exact ih hy

theorem dropWhile_takeWhile_append (l m : List XmlNode) :
    (l.takeWhile (fun n => !n.isElement) ++ m).dropWhile (fun n => !n.isElement) =
      m.dropWhile (fun n => !n.isElement) := by
  induction l with
  | nil => rfl
  | cons n rest ih =>
    by_cases hn : n.isElement = true
    · simp [List.takeWhile, hn]
    · simp only [Bool.not_eq_true] at hn
      simp only [List.takeWhile, hn, Bool.not_false, List.cons_append, List.dropWhile]
      exact ih

theorem parse_overlay_siblings_cons (e : XmlNode) (f sibs : List XmlNode) :
    parse_overlay_siblings (e :: f) sibs =
      match overlay_step e f sibs with
      | .error err => .error err
      | .ok sibs1 => parse_overlay_siblings f sibs1 := by
  rw [parse_overlay_siblings]
  unfold overlay_step
  by_cases he : e.isElement = true
  · simp only [he, ↓reduceIte]
    by_cases hg : e.name = TAG_GROUP
    · simp only [hg, ↓reduceIte]
      cases xmlGetProp e ATTR_NAME with
      | none => rfl
      | some gn =>
        simp only []
        cases search_group sibs gn with
        | error x => rfl
        | ok r =>
          cases r with
          | none => rfl
          | some fd =>
            obtain ⟨b, d, a⟩ := fd
            simp only []
            cases parse_overlay_group e d with
            | error x => rfl
            | ok m => rfl
    · simp only [hg, ↓reduceIte]
      by_cases hl : e.name = TAG_LIST
      · simp only [hl, ↓reduceIte]
      · simp only [hl, ↓reduceIte]
  · simp only [he, Bool.false_eq_true, ↓reduceIte]

/-- What a merge that completes has done: the loop ran from the second child of
the overlay node on the chain of the destination, and the destination keeps its
label. -/
theorem parse_overlay_group_ok {overlay d merged : XmlNode}
    (h : parse_overlay_group overlay d = .ok merged) :
    ∃ o0 following c0 crest chain, overlay.children = o0 :: following ∧
      d.children = c0 :: crest ∧
      parse_overlay_siblings following (crest.dropWhile (fun n => !n.isElement)) = .ok chain ∧
      merged.children = c0 :: (crest.takeWhile (fun n => !n.isElement) ++ chain) ∧
      same_label merged d := by
  have hnever : ∀ r : Except Fault (List XmlNode),
      (match r with
        | .error e => (Except.error e : Except Fault XmlNode)
        | .ok [] => .error .assertion
        | .ok _ => .error .null_deref) ≠ .ok merged := by
    intro r
    cases r with
    | error e => simp
    | ok l => cases l <;> simp
  cases overlay with
  | text s =>
    rw [parse_overlay_group] at h
    · exact absurd h (hnever _)
    · intro _ _ _ _ e; cases e
  | comment s =>
    rw [parse_overlay_group] at h
    · exact absurd h (hnever _)
    · intro _ _ _ _ e; cases e
  | element tag attrs cs =>
    cases cs with
    | nil =>
      rw [parse_overlay_group] at h
      · exact absurd h (hnever _)
      · intro _ _ _ _ e; cases e
    | cons o0 following =>
      rw [parse_overlay_group] at h
      cases d with
      | text s => simp [XmlNode.children, next_node] at h
      | comment s => simp [XmlNode.children, next_node] at h
      | element dn da dcs =>
        cases dcs with
        | nil => simp [XmlNode.children, next_node] at h
        | cons c0 crest =>
          simp only [XmlNode.children, next_node] at h
          cases hd : crest.dropWhile (fun n => !n.isElement) with
          | nil => rw [hd] at h; simp at h
          | cons r rs =>
            rw [hd] at h
            simp only [] at h
            cases hp : parse_overlay_siblings following (r :: rs) with
            | error e => rw [hp] at h; simp at h
            | ok chain =>
              rw [hp] at h
              simp only [Except.ok.injEq, passed_over, XmlNode.setChildren] at h
              refine ⟨o0, following, c0, crest, chain, rfl, rfl, by rw [hd]; exact hp, ?_, ?_⟩
              · rw [← h]; rfl
              · rw [← h]; exact ⟨rfl, rfl, fun _ => rfl⟩

/-- One turn of the loop either leaves the chain as it is, or adds nodes at its
end, or replaces the node found for the overlay node by a node with the same
label. -/
theorem overlay_step_edit {e : XmlNode} {f sibs sibs1 : List XmlNode}
    (h : overlay_step e f sibs = .ok sibs1) :
    sibs1 = sibs ∨ (∃ cur, sibs1 = xmlAddChildList sibs cur) ∨
    ∃ tag prop key b d d1 a,
      (((tag = TAG_GROUP ∨ tag = TAG_LIST) ∧ prop = ATTR_NAME) ∨
        ((tag = TAG_STRING ∨ tag = TAG_INT ∨ tag = TAG_BOOL) ∧ prop = ATTR_KEY)) ∧
      e.name = tag ∧ xmlGetProp e prop = some key ∧
      search_node sibs tag prop key = .ok (some (b, d, a)) ∧
      sibs1 = b ++ d1 :: a ∧ same_label d1 d := by
  unfold overlay_step at h
  by_cases he : e.isElement = true
  · simp only [he, ↓reduceIte] at h
    by_cases hg : e.name = TAG_GROUP
    · simp only [hg, ↓reduceIte] at h
      cases hp : xmlGetProp e ATTR_NAME with
      | none => rw [hp] at h; cases h
      | some gn =>
        rw [hp] at h
        simp only [] at h
        cases hs : search_group sibs gn with
        | error x => rw [hs] at h; cases h
        | ok r =>
          rw [hs] at h
          cases r with
          | none =>
            simp only [Except.ok.injEq] at h
            exact Or.inr (Or.inl ⟨_, h.symm⟩)
          | some fd =>
            obtain ⟨b, d, a⟩ := fd
            simp only [] at h
            cases hm : parse_overlay_group e d with
            | error x => rw [hm] at h; cases h
            | ok m =>
              rw [hm] at h
              simp only [Except.ok.injEq] at h
              obtain ⟨_, _, _, _, _, _, _, _, _, hlab⟩ := parse_overlay_group_ok hm
              exact Or.inr (Or.inr ⟨TAG_GROUP, ATTR_NAME, gn, b, d, m, a,
                Or.inl ⟨Or.inl rfl, rfl⟩, hg, hp, hs, h.symm, hlab⟩)
    · simp only [hg, ↓reduceIte] at h
      by_cases hl : e.name = TAG_LIST
      · simp only [hl, ↓reduceIte] at h
        unfold overlay_list at h
        cases hp : xmlGetProp e ATTR_NAME with
        | none => rw [hp] at h; cases h
        | some ln =>
          rw [hp] at h
          simp only [] at h
          cases hs : search_list sibs ln with
          | error x => rw [hs] at h; cases h
          | ok r =>
            rw [hs] at h
            cases r with
            | none =>
              simp only [Except.ok.injEq] at h
              exact Or.inr (Or.inl ⟨_, h.symm⟩)
            | some fd =>
              obtain ⟨b, d, a⟩ := fd
              simp only [] at h
              have hres : ∃ cs, sibs1 = b ++ d.setChildren cs :: a := by
                split at h
                · cases h
                · split at h
                  · cases h
                  · split at h
                    · simp only [Except.ok.injEq] at h
                      exact ⟨_, h.symm⟩
                    · cases h
                  · simp only [Except.ok.injEq] at h
                    exact ⟨_, h.symm⟩
              obtain ⟨cs, hcs⟩ := hres
              exact Or.inr (Or.inr ⟨TAG_LIST, ATTR_NAME, ln, b, d, d.setChildren cs, a,
                Or.inl ⟨Or.inr rfl, rfl⟩, hl, hp, hs, hcs, same_label_setChildren d cs⟩)
      · simp only [hl, ↓reduceIte] at h
        unfold overlay_property at h
        by_cases ht : e.name = TAG_STRING ∨ e.name = TAG_INT ∨ e.name = TAG_BOOL
        · simp only [ht, ↓reduceIte] at h
          cases hp : xmlGetProp e ATTR_KEY with
          | none => rw [hp] at h; cases h
          | some key =>
            rw [hp] at h
            simp only [] at h
            cases hs : search_property sibs e.name key with
            | error x => rw [hs] at h; cases h
            | ok r =>
              rw [hs] at h
              cases r with
              | none =>
                simp only [Except.ok.injEq] at h
                exact Or.inr (Or.inl ⟨_, h.symm⟩)
              | some fd =>
                obtain ⟨b, d, a⟩ := fd
                simp only [Except.ok.injEq] at h
                exact Or.inr (Or.inr ⟨e.name, ATTR_KEY, key, b, d, _, a,
                  Or.inr ⟨ht, rfl⟩, rfl, hp, hs, h.symm, same_label_setContent d _⟩)
        · simp only [ht, ↓reduceIte] at h
          cases h
  · simp only [he, Bool.false_eq_true, ↓reduceIte, Except.ok.injEq] at h
    exact Or.inl h.symm

theorem tag_not_text {tag prop : String}
    (h : ((tag = TAG_GROUP ∨ tag = TAG_LIST) ∧ prop = ATTR_NAME) ∨
      ((tag = TAG_STRING ∨ tag = TAG_INT ∨ tag = TAG_BOOL) ∧ prop = ATTR_KEY)) :
    tag ≠ "text" ∧ tag ≠ "comment" := by
  rcases h with ⟨rfl | rfl, _⟩ | ⟨rfl | rfl | rfl, _⟩ <;> exact ⟨by decide, by decide⟩

/-- A turn of the loop at an overlay node that the search would not match leaves
the node found as it is. -/
theorem overlay_step_keeps {tag prop key : String} {e x : XmlNode} {f sibs sibs1 : List XmlNode}
    (htp : (tag = TAG_GROUP ∧ prop = ATTR_NAME) ∨ (tag = TAG_INT ∧ prop = ATTR_KEY))
    (h : overlay_step e f sibs = .ok sibs1)
    (hne : has_tag_prop tag prop key e = false)
    (hf : search_finds tag prop key sibs x) : search_finds tag prop key sibs1 x := by
  rcases overlay_step_edit h with rfl | ⟨cur, rfl⟩ | ⟨t1, p1, k1, b, d, d1, a, ht1, hen, hep,
    hs, rfl, hlab⟩
  · exact hf
  · exact search_finds_addChildList cur hf
  · obtain ⟨b0, a0, hfound⟩ := hf
    have hs1 := search_node_eq_search_next (tag_not_text ht1) hs
    obtain ⟨hsplit, _, hvd⟩ := search_next_split hs1
    obtain ⟨hdn, hdp⟩ := search_visit_true hvd
    rw [hsplit] at hfound
    refine search_next_replace_other b hfound hlab ?_
    intro hv
    obtain ⟨hdn1, hdp1⟩ := search_visit_true hv
    have htt : t1 = tag := hdn.symm.trans hdn1
    subst htt
    have hpp : p1 = prop := by
      rcases htp with ⟨rfl, rfl⟩ | ⟨rfl, rfl⟩
      · rcases ht1 with ⟨_, rfl⟩ | ⟨h3, _⟩
        · rfl
        · rcases h3 with h3 | h3 | h3 <;> exact absurd h3 (by decide)
      · rcases ht1 with ⟨h3, _⟩ | ⟨_, rfl⟩
        · rcases h3 with h3 | h3 <;> exact absurd h3 (by decide)
        · rfl
    subst hpp
    have hkk : k1 = key := by
      rw [hdp] at hdp1
      exact Option.some.inj hdp1
    subst hkk
    have : has_tag_prop t1 p1 k1 e = true := by
      unfold has_tag_prop
      simp [hen, hep]
    rw [this] at hne
    cases hne

/-- A turn of the loop leaves in the chain a node that bears the tag and the
attribute, when there was one. -/
theorem overlay_step_keeps_mem {tag prop key : String} {e : XmlNode} {f sibs sibs1 : List XmlNode}
    (h : overlay_step e f sibs = .ok sibs1)
    (hm : ∃ y ∈ sibs, has_tag_prop tag prop key y = true) :
    ∃ y ∈ sibs1, has_tag_prop tag prop key y = true := by
  obtain ⟨y, hy, hp⟩ := hm
  rcases overlay_step_edit h with rfl | ⟨cur, rfl⟩ | ⟨t1, p1, k1, b, d, d1, a, ht1, hen, hep,
    hs, rfl, hlab⟩
  · exact ⟨y, hy, hp⟩
  · exact ⟨y, mem_addChildList_of_element cur hy (has_tag_prop_isElement hp), hp⟩
  · have hs1 := search_node_eq_search_next (tag_not_text ht1) hs
    obtain ⟨hsplit, _, _⟩ := search_next_split hs1
    rw [hsplit] at hy
    rcases List.mem_append.mp hy with hy | hy
    · exact ⟨y, List.mem_append_left _ hy, hp⟩
    · rcases List.mem_cons.mp hy with rfl | hy
      · exact ⟨d1, List.mem_append_right _ (List.mem_cons_self _ _),
          by rw [has_tag_prop_congr hlab]; exact hp⟩
      · exact ⟨y, List.mem_append_right _ (List.mem_cons_of_mem _ hy), hp⟩

/-- The loop over overlay nodes that the search would not match leaves the node
found as it is. -/
theorem parse_overlay_siblings_keeps {tag prop key : String} {x : XmlNode}
    (htp : (tag = TAG_GROUP ∧ prop = ATTR_NAME) ∨ (tag = TAG_INT ∧ prop = ATTR_KEY))
    (ov : List XmlNode) (sibs chain : List XmlNode)
    (h : parse_overlay_siblings ov sibs = .ok chain)
    (hne : ∀ e ∈ ov, has_tag_prop tag prop key e = false)
    (hf : search_finds tag prop key sibs x) : search_finds tag prop key chain x := by
  induction ov generalizing sibs with
  | nil =>
    rw [parse_overlay_siblings] at h
    simp only [Except.ok.injEq] at h
    rw [← h]
    exact hf
  | cons e f ih =>
    rw [parse_overlay_siblings_cons] at h
    cases hst : overlay_step e f sibs with
    | error err => rw [hst] at h; cases h
    | ok sibs1 =>
      rw [hst] at h
      exact ih sibs1 h (fun y hy => hne y (List.mem_cons_of_mem _ hy))
        (overlay_step_keeps htp hst (hne e (List.mem_cons_self _ _)) hf)

/-- The turn of the loop at a group of the overlay, when the chain holds a group
of that name: the group found is replaced by the merge of the overlay group into
it, and the search of the name then finds the merged group. -/
theorem overlay_step_group {g : String} {og : XmlNode} {f sibs sibs1 : List XmlNode}
    (h : overlay_step og f sibs = .ok sibs1)
    (hog : has_tag_prop TAG_GROUP ATTR_NAME g og = true)
    (hm : ∃ y ∈ sibs, has_tag_prop TAG_GROUP ATTR_NAME g y = true) :
    ∃ d merged, parse_overlay_group og d = .ok merged ∧
      search_finds TAG_GROUP ATTR_NAME g sibs1 merged := by
  have hel := has_tag_prop_isElement hog
  unfold has_tag_prop at hog
  simp only [Bool.and_eq_true, decide_eq_true_eq] at hog
  obtain ⟨hn, hp⟩ := hog
  unfold overlay_step at h
  simp only [hel, ↓reduceIte, hn, hp] at h
  cases hs : search_group sibs g with
  | error x => rw [hs] at h; cases h
  | ok r =>
    have hs1 := search_node_eq_search_next (show TAG_GROUP ≠ "text" ∧ TAG_GROUP ≠ "comment" from
      ⟨by decide, by decide⟩) hs
    rw [hs] at h
    cases r with
    | none =>
      obtain ⟨y, hy, hyp⟩ := hm
      rw [search_next_none_no_match hs1 y hy] at hyp
      cases hyp
    | some fd =>
      obtain ⟨b, d, a⟩ := fd
      simp only [] at h
      cases hmg : parse_overlay_group og d with
      | error x => rw [hmg] at h; cases h
      | ok m =>
        rw [hmg] at h
        simp only [Except.ok.injEq] at h
        obtain ⟨_, _, _, _, _, _, _, _, _, hlab⟩ := parse_overlay_group_ok hmg
        exact ⟨d, m, hmg, b, a, by rw [← h]; exact search_next_replace_found hs1 hlab⟩

/-- The turn of the loop at an `int` scalar of the overlay: afterwards the search
of its key finds a node with the content of the overlay scalar. -/
theorem overlay_step_int {k : String} {os : XmlNode} {f sibs sibs1 : List XmlNode}
    (h : overlay_step os f sibs = .ok sibs1)
    (hos : has_tag_prop TAG_INT ATTR_KEY k os = true)
    (hplain : '&' ∉ (xmlNodeGetContent os).toList) :
    ∃ x, search_finds TAG_INT ATTR_KEY k sibs1 x ∧
      xmlNodeGetContent x = xmlNodeGetContent os := by
  have hel := has_tag_prop_isElement hos
  unfold has_tag_prop at hos
  simp only [Bool.and_eq_true, decide_eq_true_eq] at hos
  obtain ⟨hn, hp⟩ := hos
  unfold overlay_step at h
  have hg : os.name ≠ TAG_GROUP := by rw [hn]; decide
  have hl : os.name ≠ TAG_LIST := by rw [hn]; decide
  simp only [hel, ↓reduceIte, hg, hl] at h
  unfold overlay_property at h
  simp only [hn, or_true, true_or, ↓reduceIte, hp] at h
  cases hs : search_property sibs TAG_INT k with
  | error x => rw [hs] at h; cases h
  | ok r =>
    have hs1 := search_node_eq_search_next (show TAG_INT ≠ "text" ∧ TAG_INT ≠ "comment" from
      ⟨by decide, by decide⟩) hs
    rw [hs] at h
    cases r with
    | none =>
      simp only [Except.ok.injEq] at h
      rw [← h]
      refine ⟨xmlNodeSetContent (xmlNewProp (xmlNewNode TAG_INT) ATTR_KEY k)
        (xmlNodeGetContent os), ⟨sibs, [], ?_⟩, xmlNodeGetContent_setContent _ _ hplain⟩
      unfold xmlAddChild
      rw [xmlAddChildList_of_element sibs [] (by rfl)]
      refine search_next_none_append [] hs1 (by rfl) ?_
      apply search_visit_of_has_tag_prop
      rw [has_tag_prop_congr (same_label_setContent _ _)]
      simp [has_tag_prop, xmlNewProp, xmlNewNode, XmlNode.name, xmlGetProp]
    | some fd =>
      obtain ⟨b, d, a⟩ := fd
      simp only [Except.ok.injEq] at h
      rw [← h]
      exact ⟨xmlNodeSetContent d (xmlNodeGetContent os),
        ⟨b, a, search_next_replace_found hs1 (same_label_setContent d _)⟩,
        xmlNodeGetContent_setContent _ _ hplain⟩

/-- The loop over overlay nodes of which `og` is the last group of its name, on a
chain that holds a group of that name: the search of the name in the chain the loop
leaves finds the merge of `og` into a node of the destination. -/
theorem parse_overlay_siblings_group {g : String} {og : XmlNode} (pre post : List XmlNode)
    (sibs chain : List XmlNode)
    (h : parse_overlay_siblings (pre ++ og :: post) sibs = .ok chain)
    (hog : has_tag_prop TAG_GROUP ATTR_NAME g og = true)
    (hpost : ∀ e ∈ post, has_tag_prop TAG_GROUP ATTR_NAME g e = false)
    (hm : ∃ y ∈ sibs, has_tag_prop TAG_GROUP ATTR_NAME g y = true) :
    ∃ d merged, parse_overlay_group og d = .ok merged ∧
      search_finds TAG_GROUP ATTR_NAME g chain merged := by
  induction pre generalizing sibs with
  | nil =>
    simp only [List.nil_append] at h
    rw [parse_overlay_siblings_cons] at h
    cases hst : overlay_step og post sibs with
    | error err => rw [hst] at h; cases h
    | ok sibs1 =>
      rw [hst] at h
      obtain ⟨d, merged, hmg, hf⟩ := overlay_step_group hst hog hm
      exact ⟨d, merged, hmg, parse_overlay_siblings_keeps (Or.inl ⟨rfl, rfl⟩) post sibs1 chain h
        hpost hf⟩
  | cons e pre1 ih =>
    simp only [List.cons_append] at h
    rw [parse_overlay_siblings_cons] at h
    cases hst : overlay_step e (pre1 ++ og :: post) sibs with
    | error err => rw [hst] at h; cases h
    | ok sibs1 =>
      rw [hst] at h
      exact ih sibs1 h (overlay_step_keeps_mem hst hm)

/-- The loop over overlay nodes of which `os` is the last `int` scalar of its
key: the search of the key in the chain the loop leaves finds a node with the
content of `os`. -/
theorem parse_overlay_siblings_int {k : String} {os : XmlNode} (pre post : List XmlNode)
    (sibs chain : List XmlNode)
    (h : parse_overlay_siblings (pre ++ os :: post) sibs = .ok chain)
    (hos : has_tag_prop TAG_INT ATTR_KEY k os = true)
    (hplain : '&' ∉ (xmlNodeGetContent os).toList)
    (hpost : ∀ e ∈ post, has_tag_prop TAG_INT ATTR_KEY k e = false) :
    ∃ x, search_finds TAG_INT ATTR_KEY k chain x ∧
      xmlNodeGetContent x = xmlNodeGetContent os := by
  induction pre generalizing sibs with
  | nil =>
    simp only [List.nil_append] at h
    rw [parse_overlay_siblings_cons] at h
    cases hst : overlay_step os post sibs with
    | error err => rw [hst] at h; cases h
    | ok sibs1 =>
      rw [hst] at h
      obtain ⟨x, hf, hc⟩ := overlay_step_int hst hos hplain
      exact ⟨x, parse_overlay_siblings_keeps (Or.inr ⟨rfl, rfl⟩) post sibs1 chain h hpost hf, hc⟩
  | cons e pre1 ih =>
    simp only [List.cons_append] at h
    rw [parse_overlay_siblings_cons] at h
    cases hst : overlay_step e (pre1 ++ os :: post) sibs with
    | error err => rw [hst] at h; cases h
    | ok sibs1 =>
      rw [hst] at h
      exact ih sibs1 h

theorem path_segments_no_separator (l : List Char) (h : GROUP_SEPARATOR ∉ l) :
    path_segments l = [l] := by
  induction l with
  | nil => rfl
  | cons c cs ih =>
    have hc : c ≠ GROUP_SEPARATOR := fun e => h (e ▸ List.mem_cons_self _ _)
    have hcs : GROUP_SEPARATOR ∉ cs := fun m => h (List.mem_cons_of_mem _ m)
    rw [path_segments]
    simp only [hc, ↓reduceIte]
    rw [ih hcs]

theorem select_group_root_end (ctx : tcs_internal_ctx) (path : String)
    (h : path.toList.head? ≠ some GROUP_SEPARATOR) :
    (select_group ctx path).map (fun r => (r.1, r.2.select_group_node)) =
      select_group_end (select_group_walk (path_segments path.toList) [ctx.root_node]) := by
  cases hp : path.toList with
  | cons c cs =>
    rw [← hp]
    rw [hp] at h
    have hc : c ≠ GROUP_SEPARATOR := fun e => h (by rw [e]; rfl)
    rw [select_group_absolute_end ctx path c cs hp hc, hp]
  | nil =>
    unfold select_group
    simp only [hp]
    cases select_group_walk (path_segments []) [ctx.root_node] with
    | error e => rfl
    | ok r =>
      cases r with
      | none => rfl
      | some ptr =>
        cases ptr with
        | nil => rfl
        | cons grp t =>
          simp only [select_group_end]
          cases next_node grp.children with
          | error e => rfl
          | ok l =>
            cases l with
            | nil => rfl
            | cons c cs => rfl

theorem next_node_after_merge {cs chain crest : List XmlNode} {c0 : XmlNode}
    (h : cs = c0 :: (crest.takeWhile (fun n => !n.isElement) ++ chain)) :
    next_node cs = .ok (chain.dropWhile (fun n => !n.isElement)) := by
  rw [h, next_node, dropWhile_takeWhile_append]

/-- When the child list begins with a node that is not an element and holds the
element `x` after the nodes `pre`, `pre` is not empty. -/
theorem tail_of_starts_blank {cs pre post following : List XmlNode} {c0 x : XmlNode}
    (hblank : starts_blank cs = true) (hcs : cs = pre ++ x :: post)
    (hx : x.isElement = true) (hc : cs = c0 :: following) :
    ∃ pre1, following = pre1 ++ x :: post := by
  cases pre with
  | nil =>
    rw [hcs] at hblank
    simp [starts_blank, hx] at hblank
  | cons p0 pre1 =>
    rw [hcs] at hc
    simp only [List.cons_append, List.cons.injEq] at hc
    exact ⟨pre1, hc.2.symm⟩

/-- C13 (amended): a merge that completes, of an overlay into a root that holds a
group named `g`, both child lists beginning with a node that is not an element.
`og` is the last group named `g` among the children of the overlay, its child list
begins with a node that is not an element, and `os` is the last `int` scalar of key
`k` in it; the content of `os` reads as the integer `n`, which lies in the range of
`int`, and `long` is at least as wide as `int`.  The name `g` holds no separator and
is at most 39 bytes long.  Then, on the merged root, `select_group` of `g` returns 0
and `get_int` of `k` returns 0 with the value `n`. -/
theorem merge_then_get_int (long_max : Nat) (ctx : tcs_internal_ctx)
    (overlay root root1 : XmlNode) (g k : String) (pre post : List XmlNode) (og : XmlNode)
    (ipre ipost : List XmlNode) (os : XmlNode) (n value : Int)
    (hlong : 2147483647 ≤ long_max)
    (hmerge : parse_overlay_group overlay root = .ok root1)
    (hctx : ctx.root_node = root1)
    (hroot_blank : starts_blank root.children = true)
    (hbase : ∃ y ∈ root.children, has_tag_prop TAG_GROUP ATTR_NAME g y = true)
    (hov_blank : starts_blank overlay.children = true)
    (hov : overlay.children = pre ++ og :: post)
    (hog : has_tag_prop TAG_GROUP ATTR_NAME g og = true)
    (hpost : ∀ e ∈ post, has_tag_prop TAG_GROUP ATTR_NAME g e = false)
    (hog_blank : starts_blank og.children = true)
    (hogc : og.children = ipre ++ os :: ipost)
    (hos : has_tag_prop TAG_INT ATTR_KEY k os = true)
    (hipost : ∀ e ∈ ipost, has_tag_prop TAG_INT ATTR_KEY k e = false)
    (hread : reads_as (xmlNodeGetContent os).toList n)
    (hlo : -2147483648 ≤ n) (hhi : n ≤ 2147483647)
    (hdot : GROUP_SEPARATOR ∉ g.toList) (hlen : g.utf8ByteSize ≤ 39) :
    ∃ ctx1, select_group ctx g = .ok (0, ctx1) ∧
      get_int long_max ctx1 k value = .ok (0, n) := by
  obtain ⟨o0, following, r0, rrest, chain, hoc, hrc, hloop, hr1c, _⟩ :=
    parse_overlay_group_ok hmerge
  obtain ⟨pre1, hfollowing⟩ :=
    tail_of_starts_blank hov_blank hov (has_tag_prop_isElement hog) hoc
  have hmem : ∃ y ∈ rrest.dropWhile (fun n => !n.isElement),
      has_tag_prop TAG_GROUP ATTR_NAME g y = true := by
    obtain ⟨y, hy, hyp⟩ := hbase
    have hye := has_tag_prop_isElement hyp
    rw [hrc] at hy hroot_blank
    rcases List.mem_cons.mp hy with rfl | hy
    · simp [starts_blank, hye] at hroot_blank
    · exact ⟨y, mem_dropWhile_of_element hy hye, hyp⟩
  rw [hfollowing] at hloop
  obtain ⟨d, merged, hmg, b, a, hfind⟩ :=
    parse_overlay_siblings_group pre1 post _ chain hloop hog hpost hmem
  obtain ⟨g0, gfollowing, c0, crest, gchain, hgc, hdc, hloop2, hmc, _⟩ :=
    parse_overlay_group_ok hmg
  obtain ⟨ipre1, hgfollowing⟩ :=
    tail_of_starts_blank hog_blank hogc (has_tag_prop_isElement hos) hgc
  rw [hgfollowing] at hloop2
  obtain ⟨x, ⟨b2, a2, hfind2⟩, hcontent⟩ :=
    parse_overlay_siblings_int ipre1 ipost _ gchain hloop2 hos (reads_as_plain hread) hipost
  obtain ⟨b1, hsn⟩ := search_node_dropWhile_of_search_next hfind
  obtain ⟨b3, hsn2⟩ := search_node_dropWhile_of_search_next hfind2
  have hhead : g.toList.head? ≠ some GROUP_SEPARATOR := by
    intro e
    cases hg : g.toList with
    | nil => rw [hg] at e; cases e
    | cons c cs =>
      rw [hg] at e hdot
      simp only [List.head?_cons, Option.some.injEq] at e
      exact hdot (e ▸ List.mem_cons_self _ _)
  have hsize : (String.mk g.toList).utf8ByteSize + 1 ≤ 40 := by
    show g.utf8ByteSize + 1 ≤ 40
    omega
  have hgs : String.mk g.toList = g := rfl
  have hcursor : ∃ c cs, gchain.dropWhile (fun n => !n.isElement) = c :: cs := by
    cases hd : gchain.dropWhile (fun n => !n.isElement) with
    | nil => rw [hd] at hsn2; simp [search_node] at hsn2
    | cons c cs => exact ⟨c, cs, rfl⟩
  obtain ⟨c, cs, hcur⟩ := hcursor
  have hsel : (select_group ctx g).map (fun r => (r.1, r.2.select_group_node)) =
      .ok (0, c :: cs) := by
    rw [select_group_root_end ctx g hhead, path_segments_no_separator _ hdot, select_group_walk]
    simp only [hsize, ↓reduceIte, hctx, next_node_after_merge hr1c, hgs]
    unfold search_group
    have hsize1 : g.utf8ByteSize + 1 ≤ 40 := by omega
    simp only [hsn, select_group_walk, hsize1, ↓reduceIte, select_group_end,
      next_node_after_merge hmc, hcur]
  cases hsg : select_group ctx g with
  | error e => rw [hsg] at hsel; cases hsel
  | ok r =>
    obtain ⟨st, ctx1⟩ := r
    rw [hsg] at hsel
    simp only [Except.map, Except.ok.injEq, Prod.mk.injEq] at hsel
    obtain ⟨rfl, hnode⟩ := hsel
    refine ⟨ctx1, rfl, ?_⟩
    rw [← hcontent] at hread
    obtain ⟨hst, hne⟩ := strtol_of_reads_as long_max hread (by omega) (by omega)
    unfold get_int
    rw [hnode]
    simp only []
    unfold search_property
    rw [← hcur, hsn2]
    simp only [hst, Bool.false_eq_true, hne, ne_eq, not_true_eq_false, or_self, ↓reduceIte,
      long_to_int_of_int_range hlo hhi]

/-- C13 (witness): the scenario of the test suite, `test` = 5 in the base and
"0x20" in the overlay; the value read after the merge is 32. -/
theorem merge_then_get_int_witness :
    parse_overlay_group overlay_common base_config = .ok merged_config ∧
      reads_as ("0x20" : String).toList 32 ∧
      ∃ ctx1, select_group (ctx_of_root merged_config) "common" = .ok (0, ctx1) ∧
        get_int 9223372036854775807 ctx1 "test" 0 = .ok (0, 32) :=
  ⟨rfl,
    ⟨[], [], "0x20".toList, 32, rfl, by simp, Or.inl ⟨rfl, rfl⟩,
      Or.inr (Or.inl ⟨'x', ['2', '0'], rfl, Or.inl rfl, by simp, by decide, rfl⟩)⟩,
    merge_then_get_int 9223372036854775807 (ctx_of_root merged_config) overlay_common
      base_config merged_config "common" "test" [ws]
      [ws] (mkGroup "common" (indent [mkScalar "int" "test" "0x20"])) [ws] [ws]
      (mkScalar "int" "test" "0x20") 32 0 (by decide) rfl rfl rfl
      ⟨mkGroup "common" (indent [mkScalar "int" "test" "5"]),
        List.Mem.tail _ (List.Mem.head _), rfl⟩
      rfl rfl rfl (by decide) rfl rfl rfl (by decide)
      ⟨[], [], "0x20".toList, 32, rfl, by simp, Or.inl ⟨rfl, rfl⟩,
        Or.inr (Or.inl ⟨'x', ['2', '0'], rfl, Or.inl rfl, by simp, by decide, rfl⟩)⟩
      (by decide) (by decide) (by decide) (by decide)⟩

/-- C13 (counterexample): the overlay sets `test` to a decimal literal of twenty
digits, beyond the range of a 64-bit `long`; after the merge `select_group` of
`common` returns 0 and `get_int` of `test` returns -1. -/
theorem merge_then_get_int_out_of_range :
    is_literal ("99999999999999999999" : String).toList 99999999999999999999 ∧
      ∃ root1 ctx1, parse_overlay_group overlay_huge base_config = .ok root1 ∧
        select_group (ctx_of_root root1) "common" = .ok (0, ctx1) ∧
        get_int 9223372036854775807 ctx1 "test" 0 = .ok (-1, -1) :=
  ⟨Or.inl ⟨by simp, by decide, by decide, rfl⟩, _, _, rfl, rfl, rfl⟩

/-! ### Selections one after the other (C24) -/

theorem select_group_end_keeps_tree {ctx ctx1 : tcs_internal_ctx} {path : String}
    {status : Int} (w : Except Fault (Option (List XmlNode)))
    (h : (match w with
      | .error e => (.error e : Except Fault (Int × tcs_internal_ctx))
      | .ok none =>
        .ok (-1, { ctx with select_group_node := [], select_group_name := some path })
      | .ok (some []) => .error .null_deref
      | .ok (some (group :: _)) =>
        match next_node group.children with
        | .error e => .error e
        | .ok [] =>
          .ok (-1, { ctx with select_group_node := [], select_group_name := some path })
        | .ok (c :: cs) =>
          .ok (0, { ctx with select_group_node := c :: cs, select_group_name := some path })) =
      .ok (status, ctx1)) :
    ctx1.root_node = ctx.root_node ∧ ctx1.default_group_node = ctx.default_group_node := by
  cases w with
  | error e => cases h
  | ok r =>
    cases r with
    | none =>
      simp only [Except.ok.injEq, Prod.mk.injEq] at h
      rw [← h.2]
      exact ⟨rfl, rfl⟩
    | some ptr =>
      cases ptr with
      | nil => cases h
      | cons g t =>
        simp only [] at h
        cases hn : next_node g.children with
        | error e => rw [hn] at h; cases h
        | ok l =>
          rw [hn] at h
          cases l with
          | nil =>
            simp only [Except.ok.injEq, Prod.mk.injEq] at h
            rw [← h.2]
            exact ⟨rfl, rfl⟩
          | cons c cs =>
            simp only [Except.ok.injEq, Prod.mk.injEq] at h
            rw [← h.2]
            exact ⟨rfl, rfl⟩

/-- A call of `select_group` that returns leaves the root and the default group
of the context as they were. -/
theorem select_group_keeps_tree {ctx ctx1 : tcs_internal_ctx} {path : String} {status : Int}
    (h : select_group ctx path = .ok (status, ctx1)) :
    ctx1.root_node = ctx.root_node ∧ ctx1.default_group_node = ctx.default_group_node := by
  cases hst : path_start ctx path.toList with
  | some sr =>
    obtain ⟨start, rem⟩ := sr
    obtain ⟨tail, hun⟩ := select_group_unfold_from ctx path start rem hst
    rw [hun] at h
    exact select_group_end_keeps_tree _ h
  | none =>
    unfold path_start at hst
    cases hp : path.toList with
    | nil => rw [hp] at hst; cases hst
    | cons c rest =>
      rw [hp] at hst
      by_cases hc : c = GROUP_SEPARATOR
      · simp only [hc, ↓reduceIte, Option.map_eq_none', List.head?_eq_none_iff] at hst
        unfold select_group at h
        simp only [hp, hc, ↓reduceIte, hst, Except.ok.injEq, Prod.mk.injEq] at h
        rw [← h.2]
        exact ⟨rfl, rfl⟩
      · simp [hc] at hst

/-- The status and the cursor `select_group` gives depend on the root and on the
default group of the context only, for a path that does not take the early return
of tcs.c:363-367. -/
theorem select_group_of_same_tree (ctx ctx1 : tcs_internal_ctx) (path : String)
    (hroot : ctx1.root_node = ctx.root_node)
    (hdefault : ctx1.default_group_node = ctx.default_group_node)
    (hstart : path.toList.head? = some GROUP_SEPARATOR → ctx.default_group_node ≠ []) :
    (select_group ctx1 path).map (fun r => (r.1, r.2.select_group_node)) =
      (select_group ctx path).map (fun r => (r.1, r.2.select_group_node)) := by
  cases hp : path.toList with
  | nil =>
    have h1 : path.toList.head? ≠ some GROUP_SEPARATOR := by rw [hp]; simp
    rw [select_group_root_end ctx1 path h1, select_group_root_end ctx path h1, hroot]
  | cons c cs =>
    by_cases hc : c = GROUP_SEPARATOR
    · subst hc
      cases hd : ctx.default_group_node with
      | nil => exact absurd hd (hstart (by rw [hp]; rfl))
      | cons d ds =>
        rw [select_group_relative_end ctx1 path cs d ds hp (by rw [hdefault, hd]),
          select_group_relative_end ctx path cs d ds hp hd]
    · have h1 : path.toList.head? ≠ some GROUP_SEPARATOR := by
        rw [hp]
        simpa using hc
      rw [select_group_root_end ctx1 path h1, select_group_root_end ctx path h1, hroot]

/-- The early return of `select_group`: a path with a leading separator in a
context without default group. -/
theorem select_group_early_return (ctx : tcs_internal_ctx) (path : String)
    (hhead : path.toList.head? = some GROUP_SEPARATOR) (hd : ctx.default_group_node = []) :
    select_group ctx path = .ok (-1, ctx) := by
  unfold select_group
  cases hp : path.toList with
  | nil => rw [hp] at hhead; cases hhead
  | cons c cs =>
    rw [hp] at hhead
    simp only [List.head?_cons, Option.some.injEq] at hhead
    simp only [hhead, ↓reduceIte, hd]

/-- C24 (amended): when a call `select_group(p)` returns, with 0 or with -1, the
call `select_group(q)` made on the context it leaves returns the status (or stops on
the fault) that `select_group(q)` gives on the context as it was before.  The cursor
it leaves is the same too, unless `q` begins with the separator and the context has
no default group: then `select_group(q)` returns -1 and leaves the context, cursor
included, as `select_group(p)` left it. -/
theorem select_group_after_select_group (ctx ctx1 : tcs_internal_ctx) (p q : String)
    (status : Int) (hp : select_group ctx p = .ok (status, ctx1)) :
    (select_group ctx1 q).map (fun r => r.1) = (select_group ctx q).map (fun r => r.1) ∧
    ((q.toList.head? = some GROUP_SEPARATOR → ctx.default_group_node ≠ []) →
      (select_group ctx1 q).map (fun r => (r.1, r.2.select_group_node)) =
        (select_group ctx q).map (fun r => (r.1, r.2.select_group_node))) ∧
    (q.toList.head? = some GROUP_SEPARATOR → ctx.default_group_node = [] →
      select_group ctx1 q = .ok (-1, ctx1)) := by
  obtain ⟨hroot, hdefault⟩ := select_group_keeps_tree hp
  have hfull := select_group_of_same_tree ctx ctx1 q hroot hdefault
  have hearly : q.toList.head? = some GROUP_SEPARATOR → ctx.default_group_node = [] →
      select_group ctx1 q = .ok (-1, ctx1) := fun hh hd =>
    select_group_early_return ctx1 q hh (by rw [hdefault, hd])
  refine ⟨?_, hfull, hearly⟩
  by_cases hs : q.toList.head? = some GROUP_SEPARATOR → ctx.default_group_node ≠ []
  · have h := hfull hs
    cases h1 : select_group ctx1 q <;> cases h2 : select_group ctx q <;>
      simp_all [Except.map]
  · simp only [ne_eq, Classical.not_imp] at hs
    have hd : ctx.default_group_node = [] := Classical.not_not.mp hs.2
    rw [hearly hs.1 hd, select_group_early_return ctx q hs.1 hd]
    rfl

/-- C24 (witness): in the configuration of the test suite, after the failed
selection of `wrong_group_name` the selection of `common` returns 0 with the cursor
on the scalar `test`, as it does without the failed selection before. -/
theorem select_group_after_select_group_witness :
    select_group hal_ctx "wrong_group_name" = .ok (-1, hal_ctx_after_failure) ∧
      (select_group hal_ctx_after_failure "common").map
          (fun r => (r.1, r.2.select_group_node)) =
        (select_group hal_ctx "common").map (fun r => (r.1, r.2.select_group_node)) ∧
      (select_group hal_ctx "common").map (fun r => (r.1, r.2.select_group_node)) =
        .ok (0, [mkScalar "int" "test" "0x20", ws]) :=
  ⟨rfl, (select_group_after_select_group hal_ctx hal_ctx_after_failure "wrong_group_name"
    "common" (-1) rfl).2.1 (fun h => absurd h (by decide)), rfl⟩

/-- C24 (counterexample): a context without default group.  The selection of
".hal" returns -1 in both cases, but the cursor it leaves is `NULL` when it is the
first call, and is on the children of `common` when `select_group` of `common` was
called before. -/
theorem select_group_early_return_keeps_cursor :
    (select_group (ctx_of_root config_document) ".hal").map
        (fun r => (r.1, r.2.select_group_node)) = .ok (-1, []) ∧
      ∃ ctx1, select_group (ctx_of_root config_document) "common" = .ok (0, ctx1) ∧
        (select_group ctx1 ".hal").map (fun r => (r.1, r.2.select_group_node)) =
          .ok (-1, [mkScalar "int" "test" "0x20", ws]) :=
  ⟨rfl, _, rfl, rfl⟩

/-! ### The module family of a group name (C25) -/

theorem dropWhile_append_of_all {p : Char → Bool} (l m : List Char) (h : ∀ c ∈ l, p c = true) :
    (l ++ m).dropWhile p = m.dropWhile p := by
  induction l with
  | nil => rfl
  | cons c cs ih =>
    have hc : p c = true := h c (List.mem_cons_self _ _)
    simp only [List.cons_append, List.dropWhile, hc]
    exact ih (fun x hx => h x (List.mem_cons_of_mem _ hx))

theorem dropWhile_reverse_takeWhile_not (l : List Char) :
    (l.takeWhile (fun c => !c.isDigit)).reverse.dropWhile Char.isDigit =
      (l.takeWhile (fun c => !c.isDigit)).reverse := by
  cases hr : (l.takeWhile (fun c => !c.isDigit)).reverse with
  | nil => rfl
  | cons c cs =>
    have hmem : c ∈ l.takeWhile (fun c => !c.isDigit) := by
      rw [← List.mem_reverse, hr]
      exact List.mem_cons_self _ _
    have hc := List.mem_takeWhile_imp hmem
    simp only [Bool.not_eq_true'] at hc
    simp only [List.dropWhile, hc]

/-- C25 (amended): the module family is the group name up to its first decimal
digit: the name is the family followed by a rest, the family holds no digit, and
the rest, if any, begins with a digit.  It is the name with its trailing digits
stripped exactly when every character after the first digit is a digit, that is
when the digits of the name are all at its end. -/
theorem module_family_up_to_first_digit (group_name : String) :
    (∃ rest, group_name.toList = (module_family group_name).toList ++ rest ∧
      (∀ c ∈ (module_family group_name).toList, c.isDigit = false) ∧
      (∀ c, rest.head? = some c → c.isDigit = true)) ∧
    (module_family group_name = strip_trailing_digits group_name ↔
      ∀ c ∈ group_name.toList.dropWhile (fun c => !c.isDigit), c.isDigit = true) := by
  have hsplit := List.takeWhile_append_dropWhile (fun c => !c.isDigit) group_name.toList
  constructor
  · refine ⟨group_name.toList.dropWhile (fun c => !c.isDigit), hsplit.symm, ?_, ?_⟩
    · intro c hc
      have := List.mem_takeWhile_imp hc
      simpa using this
    · intro c hc
      cases hd : group_name.toList.dropWhile (fun c => !c.isDigit) with
      | nil => rw [hd] at hc; cases hc
      | cons x xs =>
        rw [hd] at hc
        simp only [List.head?_cons, Option.some.injEq] at hc
        subst hc
        have := List.head_dropWhile_not (fun c => !c.isDigit) group_name.toList
          (by rw [hd]; exact List.cons_ne_nil _ _)
        simp only [hd, List.head_cons, Bool.not_eq_true', Bool.not_eq_false'] at this
        simpa using this
  · unfold module_family strip_trailing_digits
    have hmk : ∀ a b : List Char, String.mk a = String.mk b ↔ a = b :=
      fun a b => ⟨fun e => congrArg String.data e, fun e => congrArg String.mk e⟩
    rw [hmk]
    constructor
    · intro h
      have h1 : group_name.toList.reverse =
          (group_name.toList.reverse.takeWhile Char.isDigit) ++
            (group_name.toList.takeWhile (fun c => !c.isDigit)).reverse := by
        rw [h, List.reverse_reverse, List.takeWhile_append_dropWhile]
      have h2 : group_name.toList =
          group_name.toList.takeWhile (fun c => !c.isDigit) ++
            (group_name.toList.reverse.takeWhile Char.isDigit).reverse := by
        have := congrArg List.reverse h1
        simpa using this
      have h3 : group_name.toList.dropWhile (fun c => !c.isDigit) =
          (group_name.toList.reverse.takeWhile Char.isDigit).reverse := by
        have h4 := hsplit.trans h2
        exact List.append_cancel_left h4
      intro c hc
      rw [h3, List.mem_reverse] at hc
      exact List.mem_takeWhile_imp hc
    · intro h
      have h1 : group_name.toList.reverse =
          (group_name.toList.dropWhile (fun c => !c.isDigit)).reverse ++
            (group_name.toList.takeWhile (fun c => !c.isDigit)).reverse := by
        rw [← List.reverse_append, hsplit]
      rw [h1, dropWhile_append_of_all _ _ (fun c hc => h c (List.mem_reverse.mp hc)),
        dropWhile_reverse_takeWhile_not, List.reverse_reverse]

/-- C25 (counterexample): the group name `i2c1` has a digit that is not trailing;
its module family is `i`, not `i2c`.  For `crm1` the family is `crm`. -/
theorem module_family_cuts_at_first_digit :
    module_family "i2c1" = "i" ∧ strip_trailing_digits "i2c1" = "i2c" ∧
      module_family "crm1" = "crm" ∧ strip_trailing_digits "crm1" = "crm" := by
  decide

/-! ### The value stored by `get_int` (C23, C30) -/

theorem reads_as_unique {str : List Char} {v w : Int} (hv : reads_as str v)
    (hw : reads_as str w) : v = w := by
  have h1 := (strtol_of_reads_as (v.natAbs + w.natAbs) hv (by omega) (by omega)).1
  have h2 := (strtol_of_reads_as (v.natAbs + w.natAbs) hw (by omega) (by omega)).1
  rw [h1] at h2
  exact congrArg strtol_result.value h2

/-- On a target whose `long` has 32 bits, as `int` has: `get_int` returns 0 with
the integer written when it lies in the range of `int`, and -1 when it does not. -/
theorem get_int_with_long_of_32_bits (ctx : tcs_internal_ctx) (key : String) (value : Int)
    (node : XmlNode) (n : Int) (hcursor : ctx.select_group_node ≠ [])
    (hkeys : carries TAG_INT ATTR_KEY ctx.select_group_node)
    (hfirst : first_scalar TAG_INT key ctx.select_group_node = some node)
    (hread : reads_as (xmlNodeGetContent node).toList n) :
    (-2147483648 ≤ n → n ≤ 2147483647 → get_int 2147483647 ctx key value = .ok (0, n)) ∧
    ((n < -2147483648 ∨ 2147483647 < n) →
      ∃ v, get_int 2147483647 ctx key value = .ok (-1, v)) := by
  rw [get_int_eq 2147483647 ctx key value hcursor hkeys, hfirst]
  simp only []
  constructor
  · intro hlo hhi
    obtain ⟨hs, hlen⟩ := strtol_of_reads_as 2147483647 hread (by omega) (by omega)
    rw [hs]
    simp only [Bool.false_eq_true, hlen, ne_eq, not_true_eq_false, or_self, ↓reduceIte,
      long_to_int_of_int_range hlo hhi]
  · intro hout
    by_cases hfail : (strtol 2147483647 (xmlNodeGetContent node).toList).erange = true ∨
        (strtol 2147483647 (xmlNodeGetContent node).toList).end_ptr = 0 ∨
        (strtol 2147483647 (xmlNodeGetContent node).toList).end_ptr ≠
          (xmlNodeGetContent node).toList.length
    · simp only [hfail, ↓reduceIte]
      exact ⟨_, rfl⟩
    · exfalso
      simp only [not_or, Bool.not_eq_true, ne_eq, not_not] at hfail
      obtain ⟨h1, h2, h3⟩ := hfail
      obtain ⟨hr, hlo, hhi⟩ := reads_as_of_strtol h1 h2 h3
      have := reads_as_unique hread hr
      rw [← this] at hlo hhi
      simp only [Nat.cast_ofNat] at hlo hhi
      omega

/-- C23 (code at a failing input): on a target whose `long` has 64 bits, the
content "4294967296" makes `get_int` return 0 with the value 0, and the content
"2147483648" return 0 with the value -2147483648: the number, out of the range of
`int`, is accepted and stored wrapped.  On a target whose `long` has 32 bits the
same content gives -1. -/
theorem get_int_wraps_beyond_int :
    get_int 9223372036854775807 (int_ctx "4294967296") "test" 7 = .ok (0, 0) ∧
      get_int 9223372036854775807 (int_ctx "2147483648") "test" 7 = .ok (0, -2147483648) ∧
      get_int 2147483647 (int_ctx "2147483648") "test" 7 = .ok (-1, 2147483647) :=
  ⟨rfl, rfl, rfl⟩

theorem length_dropWhile_le_self (p : Char → Bool) (l : List Char) :
    (l.dropWhile p).length ≤ l.length := by
  induction l with
  | nil => simp
  | cons c cs ih =>
    by_cases hc : p c = true
    · simp only [List.dropWhile, hc, List.length_cons]
      omega
    · simp only [Bool.not_eq_true] at hc
      simp only [List.dropWhile, hc, List.length_cons]
      omega

/-- In front of any text, an integer literal is read by `strtol` as digits of its
base, to the end of the literal at least. -/
theorem strtol_base_of_literal_append {body : List Char} {n : Nat} (rest : List Char)
    (h : is_literal body n) :
    ∃ base ds, strtol_base (body ++ rest) = (base, ds) ∧ ds.takeWhile (is_digit base) ≠ [] ∧
      (ds.dropWhile (is_digit base)).length ≤ rest.length := by
  rcases h with ⟨hne, hhead, hall, _⟩ | ⟨x, ds, rfl, hx, hne, hall, _⟩ | ⟨ds, rfl, hall, _⟩
  · cases body with
    | nil => exact absurd rfl hne
    | cons c r =>
      have hc0 : c ≠ '0' := by
        intro e
        apply hhead
        rw [e]
        rfl
      have hnot : hex_prefixed ((c :: r) ++ rest) = false := by
        cases hp : hex_prefixed ((c :: r) ++ rest) with
        | false => rfl
        | true =>
          obtain ⟨x, h, r1, heq, _, _⟩ := (hex_prefixed_iff _).mp hp
          simp only [List.cons_append, List.cons.injEq] at heq
          exact absurd heq.1 hc0
      have hh : ((c :: r) ++ rest).head? ≠ some '0' := by
        simp only [List.cons_append, List.head?_cons, ne_eq, Option.some.injEq]
        exact hc0
      refine ⟨10, (c :: r) ++ rest, ?_, ?_, ?_⟩
      · simp only [strtol_base, hnot, Bool.false_eq_true, ↓reduceIte, hh]
      · simp only [List.cons_append, List.takeWhile, hall c (List.mem_cons_self _ _)]
        exact List.cons_ne_nil _ _
      · rw [List.dropWhile_append_of_pos hall]
        exact length_dropWhile_le_self _ _
  · cases ds with
    | nil => exact absurd rfl hne
    | cons h r =>
      have hp : hex_prefixed (('0' :: x :: h :: r) ++ rest) = true :=
        (hex_prefixed_iff _).mpr ⟨x, h, r ++ rest, rfl, hx, hall h (List.mem_cons_self _ _)⟩
      refine ⟨16, (h :: r) ++ rest, ?_, ?_, ?_⟩
      · simp only [List.cons_append] at hp ⊢
        simp only [strtol_base, hp, ↓reduceIte, List.drop_succ_cons, List.drop_zero]
      · simp only [List.cons_append, List.takeWhile, hall h (List.mem_cons_self _ _)]
        exact List.cons_ne_nil _ _
      · rw [List.dropWhile_append_of_pos hall]
        exact length_dropWhile_le_self _ _
  · by_cases hp : hex_prefixed (('0' :: ds) ++ rest) = true
    · obtain ⟨x, h, r1, heq, hx, hh⟩ := (hex_prefixed_iff _).mp hp
      simp only [List.cons_append, List.cons.injEq, true_and] at heq
      cases ds with
      | cons d ds1 =>
        simp only [List.cons_append, List.cons.injEq] at heq
        have hd := hall d (List.mem_cons_self _ _)
        rw [heq.1] at hd
        rcases hx with rfl | rfl
        · exact absurd hd (by decide)
        · exact absurd hd (by decide)
      | nil =>
        simp only [List.nil_append] at heq
        refine ⟨16, h :: r1, ?_, ?_, ?_⟩
        · simp only [List.cons_append, List.nil_append, heq] at hp ⊢
          simp only [strtol_base, hp, ↓reduceIte, List.drop_succ_cons, List.drop_zero]
        · simp only [List.takeWhile, hh]
          exact List.cons_ne_nil _ _
        · have := length_dropWhile_le_self (is_digit 16) (h :: r1)
          rw [heq]
          simp only [List.length_cons] at this ⊢
          omega
    · simp only [Bool.not_eq_true] at hp
      have hall1 : ∀ c ∈ '0' :: ds, is_digit 8 c = true := by
        intro c hc
        rcases List.mem_cons.mp hc with rfl | hc
        · decide
        · exact hall c hc
      refine ⟨8, ('0' :: ds) ++ rest, ?_, ?_, ?_⟩
      · simp only [List.cons_append] at hp ⊢
        simp only [strtol_base, hp, Bool.false_eq_true, ↓reduceIte, List.head?_cons]
      · simp only [List.cons_append, List.takeWhile, show is_digit 8 '0' = true by decide]
        exact List.cons_ne_nil _ _
      · rw [List.dropWhile_append_of_pos hall1]
        exact length_dropWhile_le_self _ _

/-- Where `strtol` stops, whatever the range of `long`: at the start when it reads
no digit, after the digits otherwise. -/
theorem strtol_end_ptr (long_max : Nat) (str : List Char) :
    (strtol long_max str).end_ptr =
      if ((strtol_base (strtol_sign (str.dropWhile isspace)).2).2.takeWhile
          (is_digit (strtol_base (strtol_sign (str.dropWhile isspace)).2).1)).isEmpty then 0
      else str.length -
        ((strtol_base (strtol_sign (str.dropWhile isspace)).2).2.dropWhile
          (is_digit (strtol_base (strtol_sign (str.dropWhile isspace)).2).1)).length := by
  unfold strtol
  by_cases hd : ((strtol_base (strtol_sign (str.dropWhile isspace)).2).2.takeWhile
      (is_digit (strtol_base (strtol_sign (str.dropWhile isspace)).2).1)).isEmpty = true
  · simp only [hd, ↓reduceIte]
  · simp only [hd, Bool.false_eq_true, ↓reduceIte]
    by_cases hs : (strtol_sign (str.dropWhile isspace)).1 = true
    · simp only [hs, ↓reduceIte]
      split <;> rfl
    · simp only [hs, Bool.false_eq_true, ↓reduceIte]
      split <;> rfl

/-- A beginning of the text that reads as an integer is within what `strtol`
converts. -/
theorem strtol_end_ptr_ge (long_max : Nat) {pre : List Char} (rest : List Char) {v : Int}
    (h : reads_as pre v) :
    pre.length ≤ (strtol long_max (pre ++ rest)).end_ptr ∧ pre.length ≠ 0 := by
  obtain ⟨blanks, sign, body, n, rfl, hblanks, hsign, hlit⟩ := h
  obtain ⟨c, r, rfl, hc⟩ := literal_head hlit
  obtain ⟨base, ds, hb, hne, hlen⟩ := strtol_base_of_literal_append rest hlit
  have hdrop : ((blanks ++ sign ++ c :: r) ++ rest).dropWhile isspace =
      sign ++ ((c :: r) ++ rest) := by
    rw [List.append_assoc, List.append_assoc, List.dropWhile_append_of_pos hblanks]
    rcases hsign with ⟨rfl, _⟩ | ⟨rfl, _⟩ | ⟨rfl, _⟩
    · simp [is_digit_not_space hc]
    · exact List.dropWhile_cons_of_neg (by decide)
    · exact List.dropWhile_cons_of_neg (by decide)
  have hs : (strtol_sign (sign ++ ((c :: r) ++ rest))).2 = (c :: r) ++ rest := by
    rcases hsign with ⟨rfl, _⟩ | ⟨rfl, _⟩ | ⟨rfl, _⟩
    · exact congrArg Prod.snd (strtol_sign_of_digit (r ++ rest) hc)
    · simp [strtol_sign]
    · simp [strtol_sign]
  have hem : (ds.takeWhile (is_digit base)).isEmpty = false := by
    cases hd : ds.takeWhile (is_digit base) with
    | nil => exact absurd hd hne
    | cons _ _ => rfl
  refine ⟨?_, by simp⟩
  rw [strtol_end_ptr, hdrop, hs, hb]
  simp only [hem, Bool.false_eq_true, ↓reduceIte, List.length_append]
  omega

/-- What `strtol` converts reads as an integer: the one it returns unless it is
out of the range of `long`. -/
theorem strtol_reads_head (long_max : Nat) (str : List Char)
    (h2 : (strtol long_max str).end_ptr ≠ 0) :
    ∃ u : Int, reads_as (str.take (strtol long_max str).end_ptr) u ∧
      ((strtol long_max str).erange = false → (strtol long_max str).value = u) ∧
      (-((long_max : Int) + 1) ≤ u → u ≤ (long_max : Int) →
        (strtol long_max str).erange = false) := by
  obtain ⟨sign, hsplit, hsign⟩ := strtol_sign_spec (str.dropWhile isspace)
  have hblanks : ∀ c ∈ str.takeWhile isspace, isspace c = true :=
    fun c hc => List.mem_takeWhile_imp hc
  rw [strtol_end_ptr] at h2 ⊢
  have hstr : str = str.takeWhile isspace ++ sign ++
      (strtol_sign (str.dropWhile isspace)).2 := by
    rw [List.append_assoc, ← hsplit, List.takeWhile_append_dropWhile]
  unfold strtol
  generalize hsg : strtol_sign (str.dropWhile isspace) = signed at *
  obtain ⟨negative, s2⟩ := signed
  simp only [] at hsplit hsign hstr h2 ⊢
  by_cases hd : ((strtol_base s2).2.takeWhile (is_digit (strtol_base s2).1)).isEmpty = true
  · simp [hd] at h2
  · simp only [hd, Bool.false_eq_true, ↓reduceIte] at h2 ⊢
    have hdne : (strtol_base s2).2.takeWhile (is_digit (strtol_base s2).1) ≠ [] := by
      intro e
      rw [e] at hd
      exact hd rfl
    have hbody : ∃ body, s2 = body ++ (strtol_base s2).2.dropWhile (is_digit (strtol_base s2).1) ∧
        is_literal body (digits_value (strtol_base s2).1
          ((strtol_base s2).2.takeWhile (is_digit (strtol_base s2).1)) 0) := by
      by_cases hp : hex_prefixed s2 = true
      · obtain ⟨x, h, r, rfl, hx, hh⟩ := (hex_prefixed_iff s2).mp hp
        have hbase : strtol_base ('0' :: x :: h :: r) = (16, h :: r) := by
          simp only [strtol_base, hp, ↓reduceIte, List.drop_succ_cons, List.drop_zero]
        rw [hbase] at hdne ⊢
        simp only []
        refine ⟨'0' :: x :: (h :: r).takeWhile (is_digit 16), ?_, ?_⟩
        · simp only [List.cons_append, List.takeWhile_append_dropWhile]
        · exact Or.inr (Or.inl ⟨x, _, rfl, hx, hdne, fun c hc => List.mem_takeWhile_imp hc, rfl⟩)
      · simp only [Bool.not_eq_true] at hp
        by_cases h0 : s2.head? = some '0'
        · have hbase : strtol_base s2 = (8, s2) := by
            simp only [strtol_base, hp, Bool.false_eq_true, ↓reduceIte, h0]
          rw [hbase] at hdne ⊢
          simp only []
          cases s2 with
          | nil => cases h0
          | cons c ds =>
            simp only [List.head?_cons, Option.some.injEq] at h0
            subst h0
            have h8 : is_digit 8 '0' = true := by decide
            refine ⟨'0' :: ds.takeWhile (is_digit 8), ?_, ?_⟩
            · simp only [List.dropWhile, h8, List.cons_append, List.takeWhile_append_dropWhile]
            · refine Or.inr (Or.inr ⟨_, rfl, fun c hc => List.mem_takeWhile_imp hc, ?_⟩)
              simp [List.takeWhile, h8, digits_value, digit_value]
        · have hbase : strtol_base s2 = (10, s2) := by
            simp only [strtol_base, hp, Bool.false_eq_true, ↓reduceIte, h0]
          rw [hbase] at hdne ⊢
          simp only []
          refine ⟨s2.takeWhile (is_digit 10), (List.takeWhile_append_dropWhile _ _).symm, ?_⟩
          refine Or.inl ⟨hdne, ?_, fun c hc => List.mem_takeWhile_imp hc, rfl⟩
          cases s2 with
          | nil => exact absurd rfl hdne
          | cons c cs =>
            simp only [List.head?_cons, ne_eq, Option.some.injEq] at h0
            by_cases hc : is_digit 10 c = true
            · simp only [List.takeWhile, hc, List.head?_cons, ne_eq, Option.some.injEq]
              exact h0
            · simp only [List.takeWhile, hc] at hdne
              exact absurd rfl hdne
    obtain ⟨body, hs2, hlit⟩ := hbody
    generalize hrest : (strtol_base s2).2.dropWhile (is_digit (strtol_base s2).1) = rest at *
    generalize digits_value (strtol_base s2).1
      ((strtol_base s2).2.takeWhile (is_digit (strtol_base s2).1)) 0 = n at *
    have htake : str.take (str.length - rest.length) =
        str.takeWhile isspace ++ sign ++ body := by
      have hall : str = (str.takeWhile isspace ++ sign ++ body) ++ rest := by
        rw [List.append_assoc _ body rest, ← hs2]
        exact hstr
      have hlen : str.length - rest.length = (str.takeWhile isspace ++ sign ++ body).length := by
        have := congrArg List.length hall
        simp only [List.length_append] at this ⊢
        omega
      rw [hlen]
      have htk := @List.take_left' _ (str.takeWhile isspace ++ sign ++ body) rest
        (str.takeWhile isspace ++ sign ++ body).length rfl
      rw [← hall] at htk
      exact htk
    rw [htake]
    by_cases hneg : negative = true
    · subst hneg
      have hsgn : sign = ['-'] := by
        rcases hsign with ⟨_, h⟩ | ⟨_, h⟩ | ⟨h, _⟩
        · cases h
        · cases h
        · exact h
      refine ⟨-(n : Int), ⟨_, sign, body, n, rfl, hblanks, Or.inr (Or.inr ⟨hsgn, rfl⟩), hlit⟩,
        ?_, ?_⟩
      · by_cases hn : n > long_max + 1
        · simp [hn]
        · simp [hn]
      · intro hlo hhi
        have hn : ¬ n > long_max + 1 := by omega
        simp [hn]
    · simp only [Bool.not_eq_true] at hneg
      subst hneg
      have hsgn : sign = [] ∨ sign = ['+'] := by
        rcases hsign with ⟨h, _⟩ | ⟨h, _⟩ | ⟨_, h⟩
        · exact Or.inl h
        · exact Or.inr h
        · cases h
      refine ⟨(n : Int), ⟨_, sign, body, n, rfl, hblanks, ?_, hlit⟩, ?_, ?_⟩
      · rcases hsgn with h | h
        · exact Or.inl ⟨h, rfl⟩
        · exact Or.inr (Or.inl ⟨h, rfl⟩)
      · by_cases hn : n > long_max
        · simp [hn]
        · simp [hn]
      · intro hlo hhi
        have hn : ¬ n > long_max := by omega
        simp [hn]

/-- When `strtol` stops at the start it has read no digit: it returns 0 and sets
no error. -/
theorem strtol_of_end_ptr_zero {long_max : Nat} {str : List Char}
    (h : (strtol long_max str).end_ptr = 0) :
    strtol long_max str = { value := 0, end_ptr := 0, erange := false } := by
  by_cases hd : ((strtol_base (strtol_sign (str.dropWhile isspace)).2).2.takeWhile
      (is_digit (strtol_base (strtol_sign (str.dropWhile isspace)).2).1)).isEmpty = true
  · unfold strtol
    simp only [hd, ↓reduceIte]
  · exfalso
    obtain ⟨u, hr, _, _⟩ := strtol_reads_head long_max str (by
      intro h0
      rw [strtol_end_ptr] at h0 h
      simp only [hd, Bool.false_eq_true, ↓reduceIte] at h0 h
      have hsub : ((strtol_base (strtol_sign (str.dropWhile isspace)).2).2.dropWhile
          (is_digit (strtol_base (strtol_sign (str.dropWhile isspace)).2).1)).length <
          str.length := by
        obtain ⟨sign, hsplit, _⟩ := strtol_sign_spec (str.dropWhile isspace)
        have h1 : (str.dropWhile isspace).length ≤ str.length := length_dropWhile_le_self _ _
        have h2 : (strtol_sign (str.dropWhile isspace)).2.length ≤
            (str.dropWhile isspace).length := by
          have := congrArg List.length hsplit
          simp only [List.length_append] at this
          omega
        have h3 : (strtol_base (strtol_sign (str.dropWhile isspace)).2).2.length ≤
            (strtol_sign (str.dropWhile isspace)).2.length := by
          unfold strtol_base
          split_ifs <;> simp
        have h4 := congrArg List.length (List.takeWhile_append_dropWhile
          (is_digit (strtol_base (strtol_sign (str.dropWhile isspace)).2).1)
          (strtol_base (strtol_sign (str.dropWhile isspace)).2).2)
        simp only [List.length_append] at h4
        have h5 : 0 < ((strtol_base (strtol_sign (str.dropWhile isspace)).2).2.takeWhile
            (is_digit (strtol_base (strtol_sign (str.dropWhile isspace)).2).1)).length := by
          apply List.length_pos.mpr
          intro e
          rw [e] at hd
          exact hd rfl
        omega
      omega)
    rw [h] at hr
    obtain ⟨blanks, sign, body, n, hnil, _, _, hlit⟩ := hr
    obtain ⟨c, r, rfl, _⟩ := literal_head hlit
    simp at hnil

/-- With the longest beginning of the content that reads as an integer, in the
range of `long`: `strtol` returns that integer and stops after that beginning. -/
theorem strtol_of_numeric_head (long_max : Nat) {content pre : List Char} {n : Int}
    (h : numeric_head content pre n)
    (hlo : -((long_max : Int) + 1) ≤ n) (hhi : n ≤ (long_max : Int)) :
    strtol long_max content = { value := n, end_ptr := pre.length, erange := false } ∧
      pre.length ≠ 0 := by
  obtain ⟨⟨rest, rfl⟩, hread, hlongest⟩ := h
  obtain ⟨hge, hne⟩ := strtol_end_ptr_ge long_max rest hread
  obtain ⟨u, hu, hval, herange⟩ := strtol_reads_head long_max (pre ++ rest) (by omega)
  have hle : (strtol long_max (pre ++ rest)).end_ptr ≤ (pre ++ rest).length := by
    rw [strtol_end_ptr]
    split_ifs <;> omega
  have hlen := hlongest _ ((pre ++ rest).drop (strtol long_max (pre ++ rest)).end_ptr) u
    (List.take_append_drop _ _).symm hu
  rw [List.length_take, Nat.min_eq_left hle] at hlen
  have hend : (strtol long_max (pre ++ rest)).end_ptr = pre.length := by omega
  rw [hend, List.take_left' rfl] at hu
  have hun : u = n := reads_as_unique hu hread
  subst hun
  have he := herange hlo hhi
  refine ⟨?_, hne⟩
  have heta : strtol long_max (pre ++ rest) =
      { value := (strtol long_max (pre ++ rest)).value,
        end_ptr := (strtol long_max (pre ++ rest)).end_ptr,
        erange := (strtol long_max (pre ++ rest)).erange } := rfl
  rw [heta, hval he, hend, he]

/-- What `strtol` converts, when it converts something within the range of `long`,
is the longest beginning of the text that reads as an integer. -/
theorem numeric_head_of_strtol {long_max : Nat} {str : List Char}
    (h1 : (strtol long_max str).erange = false) (h2 : (strtol long_max str).end_ptr ≠ 0) :
    numeric_head str (str.take (strtol long_max str).end_ptr) (strtol long_max str).value := by
  obtain ⟨u, hu, hval, _⟩ := strtol_reads_head long_max str h2
  rw [hval h1]
  refine ⟨⟨_, (List.take_append_drop _ _).symm⟩, hu, ?_⟩
  intro pre1 rest1 m hsplit hm
  have hge := (strtol_end_ptr_ge long_max rest1 hm).1
  rw [← hsplit] at hge
  have hle : (strtol long_max str).end_ptr ≤ str.length := by
    rw [strtol_end_ptr]
    split_ifs <;> omega
  rw [List.length_take, Nat.min_eq_left hle]
  exact hge

/-- When `strtol` stops at the start, no beginning of the text reads as an
integer. -/
theorem no_numeric_head_of_strtol {long_max : Nat} {str : List Char}
    (h : (strtol long_max str).end_ptr = 0) :
    ∀ pre rest m, str = pre ++ rest → ¬ reads_as pre m := by
  intro pre rest m hsplit hm
  obtain ⟨hge, hne⟩ := strtol_end_ptr_ge long_max rest hm
  rw [← hsplit, h] at hge
  omega

/-- C30 (amended): with a cursor on a chain whose `int` elements all carry a key,
and a `long` at least as wide as an `int`.  When the chain holds no `int` scalar of
the key, `get_int` returns -1 and the output keeps the value it had.  When it holds
one, and the longest beginning of the content of the first one that reads as an
integer is followed by something and denotes an integer in the range of `int`,
`get_int` returns -1 and the output holds that integer; when no beginning of the
content reads as an integer, `get_int` returns -1 and the output holds 0.  And when
`get_bool` returns -1 its output keeps the value it had. -/
theorem get_int_output_on_failure (long_max : Nat) (ctx : tcs_internal_ctx) (key : String)
    (value : Int) (flag : Bool) (hlong : 2147483647 ≤ long_max)
    (hcursor : ctx.select_group_node ≠ [])
    (hkeys : carries TAG_INT ATTR_KEY ctx.select_group_node) :
    (first_scalar TAG_INT key ctx.select_group_node = none →
      get_int long_max ctx key value = .ok (-1, value)) ∧
    (∀ node pre n, first_scalar TAG_INT key ctx.select_group_node = some node →
      numeric_head (xmlNodeGetContent node).toList pre n →
      pre ≠ (xmlNodeGetContent node).toList →
      -2147483648 ≤ n → n ≤ 2147483647 →
      get_int long_max ctx key value = .ok (-1, n)) ∧
    (∀ node, first_scalar TAG_INT key ctx.select_group_node = some node →
      (∀ pre rest m, (xmlNodeGetContent node).toList = pre ++ rest → ¬ reads_as pre m) →
      get_int long_max ctx key value = .ok (-1, 0)) ∧
    (∀ v, get_bool ctx key flag = .ok (-1, v) → v = flag) := by
  refine ⟨?_, ?_, ?_, ?_⟩
  · intro h
    rw [get_int_eq long_max ctx key value hcursor hkeys, h]
  · intro node pre n h hnp hmore hlo hhi
    rw [get_int_eq long_max ctx key value hcursor hkeys, h]
    obtain ⟨hs, hne⟩ := strtol_of_numeric_head long_max hnp (by omega) (by omega)
    obtain ⟨⟨rest, hsplit⟩, _, _⟩ := hnp
    have hlen : pre.length ≠ (xmlNodeGetContent node).toList.length := by
      intro e
      apply hmore
      rw [hsplit] at e ⊢
      simp only [List.length_append] at e
      have hr : rest = [] := List.length_eq_zero.mp (by omega)
      rw [hr, List.append_nil]
    simp only [hs, hlen, ne_eq, not_false_eq_true, or_true, ↓reduceIte,
      long_to_int_of_int_range hlo hhi]
  · intro node h hno
    rw [get_int_eq long_max ctx key value hcursor hkeys, h]
    have hend : (strtol long_max (xmlNodeGetContent node).toList).end_ptr = 0 := by
      by_contra h2
      obtain ⟨u, hu, _, _⟩ := strtol_reads_head long_max _ h2
      exact hno _ _ u (List.take_append_drop _ _).symm hu
    simp only [strtol_of_end_ptr_zero hend, true_or, or_true, ↓reduceIte]
    rfl
  · intro v h
    unfold get_bool at h
    cases hc : ctx.select_group_node with
    | nil => exact absurd hc hcursor
    | cons c cs =>
      rw [hc] at h
      simp only [] at h
      cases hs : search_property (c :: cs) TAG_BOOL key with
      | error e => rw [hs] at h; cases h
      | ok r =>
        rw [hs] at h
        cases r with
        | none =>
          simp only [Except.ok.injEq, Prod.mk.injEq, true_and] at h
          exact h.symm
        | some f =>
          obtain ⟨b, x, a⟩ := f
          simp only [] at h
          split at h
          · simp at h
          · split at h
            · simp at h
            · simp only [Except.ok.injEq, Prod.mk.injEq, true_and] at h
              exact h.symm

/-- C30 (witness): the cursor is on `<int key="test">1abc</int>`.  The longest
beginning of "1abc" that reads as an integer is "1": `get_int` of `test` returns -1
with the output set to 1.  No beginning of "abc" reads as an integer: with that
content the output is set to 0.  `get_int` of a key that the chain does not hold
returns -1 and leaves the 7 that the output held; `get_bool` of `bad_bool`, whose
content is "abc", returns -1 and leaves the output as it was. -/
theorem get_int_output_on_failure_witness :
    (int_ctx "1abc").select_group_node ≠ [] ∧
      carries TAG_INT ATTR_KEY (int_ctx "1abc").select_group_node ∧
      numeric_head "1abc".toList "1".toList 1 ∧
      get_int 9223372036854775807 (int_ctx "1abc") "test" 7 = .ok (-1, 1) ∧
      get_int 9223372036854775807 (int_ctx "abc") "test" 7 = .ok (-1, 0) ∧
      get_int 9223372036854775807 (int_ctx "1abc") "wrong_key" 7 = .ok (-1, 7) ∧
      get_bool hal_ctx "bad_bool" true = .ok (-1, true) :=
  ⟨List.ne_nil_of_length_pos (by decide), by unfold carries; decide,
    @numeric_head_of_strtol 9223372036854775807 "1abc".toList rfl (by decide),
    (get_int_output_on_failure 9223372036854775807 (int_ctx "1abc") "test" 7 true (by decide)
      (List.ne_nil_of_length_pos (by decide)) (by unfold carries; decide)).2.1
      (mkScalar "int" "test" "1abc") "1".toList 1 rfl
      (@numeric_head_of_strtol 9223372036854775807 "1abc".toList rfl (by decide))
      (by decide) (by decide) (by decide),
    (get_int_output_on_failure 9223372036854775807 (int_ctx "abc") "test" 7 true (by decide)
      (List.ne_nil_of_length_pos (by decide)) (by unfold carries; decide)).2.2.1
      (mkScalar "int" "test" "abc") rfl
      (@no_numeric_head_of_strtol 9223372036854775807 "abc".toList rfl),
    rfl, rfl⟩

/-- C30 (counterexample): the longest beginning of "4294967296abc" that reads as an
integer is "4294967296".  `get_int` returns -1 and the output does not hold
4294967296: on a target whose `long` has 32 bits `strtol` returns `LONG_MAX` and the
output holds 2147483647, and on a target whose `long` has 64 bits the output, an
`int`, holds 0.  For a beginning of twenty digits 9 the output holds -1, which is
`LONG_MAX` converted to `int`. -/
theorem get_int_output_beyond_int :
    numeric_head "4294967296abc".toList "4294967296".toList 4294967296 ∧
      get_int 2147483647 (int_ctx "4294967296abc") "test" 7 = .ok (-1, 2147483647) ∧
      get_int 9223372036854775807 (int_ctx "4294967296abc") "test" 7 = .ok (-1, 0) ∧
      get_int 9223372036854775807 (int_ctx "99999999999999999999abc") "test" 7 = .ok (-1, -1) :=
  ⟨@numeric_head_of_strtol 9223372036854775807 "4294967296abc".toList rfl (by decide),
    rfl, rfl, rfl⟩

/-! ### A destination without element to start from (C28) -/

/-- A destination that has child nodes but no element after the first of them:
the merge fails the assertion of tcs.c:259, whatever the overlay is. -/
theorem parse_overlay_group_destination_without_element (overlay root c0 : XmlNode)
    (rest : List XmlNode) (hc : root.children = c0 :: rest) (he : elements rest = []) :
    parse_overlay_group overlay root = .error .assertion := by
  have hn : next_node root.children = .ok [] := by
    rw [hc, next_node, (dropWhile_eq_nil_iff_elements rest).mpr he]
  cases overlay with
  | text s =>
    rw [parse_overlay_group]
    · simp only [hn]
    · intro _ _ _ _ e; cases e
  | comment s =>
    rw [parse_overlay_group]
    · simp only [hn]
    · intro _ _ _ _ e; cases e
  | element tag attrs cs =>
    cases cs with
    | nil =>
      rw [parse_overlay_group]
      · simp only [hn]
      · intro _ _ _ _ e; cases e
    | cons o0 following =>
      rw [parse_overlay_group]
      simp only [hn]

/-- C28 (code at a failing input): the destination is `<group name="hal"/>`, a
group without any child node.  The merge does not reach its assertion: it reads
through `NULL`.  With white space for only child, `<group name="hal"> </group>`, it
fails the assertion. -/
theorem parse_overlay_group_childless_destination_faults :
    parse_overlay_group overlay_set_a (mkGroup "hal" []) = .error .null_deref ∧
      parse_overlay_group overlay_set_a (mkGroup "hal" [ws]) = .error .assertion :=
  ⟨rfl, rfl⟩

/-! ### Nodes that are not elements (C21) -/

/-- C21 (code at a failing input): pairs of documents with the same element
structure, one written on one line and one written one child per line.  The
selection of `common` returns 0 in the spaced configuration and -1 in the compact
one; the overlay that sets `a` to 7 replaces the content of `a` in the spaced group
and adds a second `a` to the compact one; `get_string_array` returns TLV1 and TLV2
from the spaced list and TLV2 alone from the compact one. -/
theorem blank_nodes_change_the_results :
    element_structure spaced_config_hal = element_structure compact_config_hal ∧
      (select_group (ctx_of_root spaced_config_hal) "common").map (fun r => r.1) = .ok 0 ∧
      (select_group (ctx_of_root compact_config_hal) "common").map (fun r => r.1) = .ok (-1) ∧
      element_structure spaced_scalars = element_structure base_compact_scalars ∧
      (parse_overlay_group overlay_set_a spaced_scalars).map element_structure =
        .ok (mkGroup "hal" [mkScalar "int" "a" "7", mkScalar "int" "b" "2"]) ∧
      (parse_overlay_group overlay_set_a base_compact_scalars).map element_structure =
        .ok (mkGroup "hal" [mkScalar "int" "a" "1", mkScalar "int" "b" "2",
          mkScalar "int" "a" "7"]) ∧
      get_string_array spaced_list_ctx "tlvs" = .ok (some ["TLV1", "TLV2"], 2) ∧
      get_string_array compact_list_ctx "tlvs" = .ok (some ["TLV2"], 1) :=
  ⟨rfl, rfl, rfl, rfl, rfl, rfl, rfl, rfl⟩

/-! ### Scalars of the same key and of different tags (C22) -/

/-- C26: the turn of the loop of `parse_overlay` at a document that is read, whose
root element is followed by no other element.  In config mode, a document whose root
element is not named `config` leaves the root as it is, and one whose root element
is named `config` is merged into the root.  In module mode for the group `g`, a
document whose root element is not a group named `g` leaves the root as it is, and
one whose root element is a group named `g` is merged into the first child of the
root that is a group named `g`, which takes the place it had. -/
theorem parse_overlay_files_document (dep : Deployment) (g folder d_name : String)
    (more : List String) (root : XmlNode) (doc : xml_doc)
    (hname : d_name.toList.head? ≠ some '.')
    (hread : dep.xmlReadFile (snprintf 256 (folder ++ "/" ++ d_name)) = some doc)
    (htrailer : ∀ n ∈ doc.trailer, n.isElement = false) :
    (doc.root.name ≠ TAG_CONFIG →
      parse_overlay_files dep g true folder (d_name :: more) root =
        parse_overlay_files dep g true folder more root) ∧
    (doc.root.name = TAG_CONFIG →
      parse_overlay_files dep g true folder (d_name :: more) root =
        match parse_overlay_group doc.root root with
        | .error e => .error e
        | .ok root1 => parse_overlay_files dep g true folder more root1) ∧
    (has_tag_prop TAG_GROUP ATTR_NAME g doc.root = false →
      (doc.root.name = TAG_GROUP → xmlGetProp doc.root ATTR_NAME ≠ none) →
      parse_overlay_files dep g false folder (d_name :: more) root =
        parse_overlay_files dep g false folder more root) ∧
    (has_tag_prop TAG_GROUP ATTR_NAME g doc.root = true →
      ∀ before dest after, carries TAG_GROUP ATTR_NAME root.children →
      find_split (has_tag_prop TAG_GROUP ATTR_NAME g) root.children =
        some (before, dest, after) →
      parse_overlay_files dep g false folder (d_name :: more) root =
        match parse_overlay_group doc.root dest with
        | .error e => .error e
        | .ok merged =>
          parse_overlay_files dep g false folder more
            (root.setChildren (before ++ merged :: after))) := by
  have htr : ∀ y ∈ doc.trailer, has_tag_prop TAG_GROUP ATTR_NAME g y = false := by
    intro y hy
    cases hp : has_tag_prop TAG_GROUP ATTR_NAME g y with
    | false => rfl
    | true =>
      have := has_tag_prop_isElement hp
      rw [htrailer y hy] at this
      cases this
  refine ⟨?_, ?_, ?_, ?_⟩
  · intro hn
    rw [parse_overlay_files]
    simp only [hname, ↓reduceIte, hread, hn]
  · intro hn
    rw [parse_overlay_files]
    simp only [hname, ↓reduceIte, hread, hn]
  · intro hno hattr
    rw [parse_overlay_files]
    simp only [hname, ↓reduceIte, hread, Bool.false_eq_true]
    have hcar : carries TAG_GROUP ATTR_NAME (doc.root :: doc.trailer) := by
      intro y hy hyn
      rcases List.mem_cons.mp hy with rfl | hy
      · exact hattr hyn
      · exact absurd hyn (name_ne_group_of_not_element (htrailer y hy))
    have hnone : ∀ y ∈ doc.root :: doc.trailer, has_tag_prop TAG_GROUP ATTR_NAME g y = false := by
      intro y hy
      rcases List.mem_cons.mp hy with rfl | hy
      · exact hno
      · exact htr y hy
    unfold search_group
    rw [search_node_none (List.cons_ne_nil _ _) hcar hnone]
  · intro hyes before dest after hcar hfind
    rw [parse_overlay_files]
    simp only [hname, ↓reduceIte, hread, Bool.false_eq_true]
    unfold search_group
    have h1 : search_node (doc.root :: doc.trailer) TAG_GROUP ATTR_NAME g =
        .ok (some ([], doc.root, doc.trailer)) :=
      search_node_append [] doc.trailer (fun y hy => by cases hy) (fun y hy => by cases hy) hyes
    rw [h1]
    simp only []
    have hne : root.children ≠ [] := by
      intro e
      rw [e] at hfind
      simp [find_split] at hfind
    rw [search_node_eq hcar hne, hfind]

/-- C26 (witness): the overlay folder of the family `crm` holds a document made for
the module `crm2`; loading the overlays of the module `crm1` leaves the root as it
is. -/
theorem parse_overlay_files_document_witness :
    has_tag_prop TAG_GROUP ATTR_NAME "crm1" overlay_crm2 = false ∧
      parse_overlay_files crm2_overlay_device "crm1" false "/overlay/crm" ["crm2_test.xml"]
          crm_ctx.root_node =
        parse_overlay_files crm2_overlay_device "crm1" false "/overlay/crm" []
          crm_ctx.root_node ∧
      parse_overlay crm2_overlay_device (some "/overlay") crm_ctx.root_node "crm1" false =
        .ok crm_ctx.root_node :=
  ⟨rfl,
    (parse_overlay_files_document crm2_overlay_device "crm1" "/overlay/crm" "crm2_test.xml" []
      crm_ctx.root_node { root := overlay_crm2, trailer := [] } (by decide) rfl
      (by intro n hn; cases hn)).2.2.1 rfl (fun _ => by decide),
    rfl⟩

/-! ### Termination of the merge (C27) -/

theorem node_count_pos (n : XmlNode) : 1 ≤ node_count n := by
  cases n with
  | element t a cs => rw [node_count]; omega
  | text s => rw [node_count]; intro _ _ _ e; cases e
  | comment s => rw [node_count]; intro _ _ _ e; cases e

theorem parse_overlay_fuel_enough (fuel : Nat) :
    (∀ overlay root, node_count overlay ≤ fuel →
      parse_overlay_group_fuel fuel overlay root = some (parse_overlay_group overlay root)) ∧
    (∀ ov sibs, node_count_in ov + 1 ≤ fuel →
      parse_overlay_siblings_fuel fuel ov sibs = some (parse_overlay_siblings ov sibs)) := by
  induction fuel with
  | zero =>
    constructor
    · intro overlay root h
      have := node_count_pos overlay
      omega
    · intro ov sibs h
      omega
  | succ fuel ih =>
    obtain ⟨ihg, ihs⟩ := ih
    constructor
    · intro overlay root h
      rw [parse_overlay_group_fuel]
      cases overlay with
      | text s =>
        rw [parse_overlay_group]
        · have ht : (XmlNode.text s).children = [] := rfl
          simp only [ht]
          cases next_node root.children with
          | error e => rfl
          | ok l => cases l <;> rfl
        · intro _ _ _ _ e; cases e
      | comment s =>
        rw [parse_overlay_group]
        · have ht : (XmlNode.comment s).children = [] := rfl
          simp only [ht]
          cases next_node root.children with
          | error e => rfl
          | ok l => cases l <;> rfl
        · intro _ _ _ _ e; cases e
      | element tag attrs cs =>
        cases cs with
        | nil =>
          rw [parse_overlay_group]
          · simp only [children_element]
            cases next_node root.children with
            | error e => rfl
            | ok l => cases l <;> rfl
          · intro _ _ _ _ e; cases e
        | cons o0 following =>
          rw [parse_overlay_group]
          simp only [children_element]
          have hsize : node_count_in following + 1 ≤ fuel := by
            rw [node_count, node_count_in] at h
            have := node_count_pos o0
            omega
          cases next_node root.children with
          | error e => rfl
          | ok l =>
            cases l with
            | nil => rfl
            | cons r rs =>
              simp only [ihs following (r :: rs) hsize]
              cases parse_overlay_siblings following (r :: rs) <;> rfl
    · intro ov sibs h
      cases ov with
      | nil =>
        rw [parse_overlay_siblings_fuel, parse_overlay_siblings]
      | cons o following =>
        rw [node_count_in] at h
        have ho := node_count_pos o
        have hf : node_count_in following + 1 ≤ fuel := by omega
        have hn : node_count o ≤ fuel := by omega
        rw [parse_overlay_siblings_fuel, parse_overlay_siblings]
        by_cases he : o.isElement = true
        · simp only [he, ↓reduceIte]
          by_cases hg : o.name = TAG_GROUP
          · simp only [hg, ↓reduceIte]
            cases xmlGetProp o ATTR_NAME with
            | none => rfl
            | some gn =>
              simp only []
              cases search_group sibs gn with
              | error e => rfl
              | ok r =>
                cases r with
                | none => exact ihs following _ hf
                | some f =>
                  obtain ⟨b, d, a⟩ := f
                  simp only [ihg o d hn]
                  cases parse_overlay_group o d with
                  | error e => rfl
                  | ok m => exact ihs following _ hf
          · simp only [hg, ↓reduceIte]
            by_cases hl : o.name = TAG_LIST
            · simp only [hl, ↓reduceIte]
              cases overlay_list o following sibs with
              | error e => rfl
              | ok s1 => exact ihs following _ hf
            · simp only [hl, ↓reduceIte]
              cases overlay_property o sibs with
              | error e => rfl
              | ok s1 => exact ihs following _ hf
        · simp only [he, Bool.false_eq_true, ↓reduceIte]
          exact ihs following _ hf

/-- C27: run with a bound on its steps, one unit for each call and each turn of
the loop, `parse_overlay_group` returns, and returns what the source function gives,
as soon as the bound reaches the number of nodes of the overlay, whatever the
destination is: the calls go down into the overlay and the loop goes along its
children, each taken once, while the nodes added go to the destination only. -/
theorem parse_overlay_group_terminates (fuel : Nat) (overlay root : XmlNode)
    (h : node_count overlay ≤ fuel) :
    parse_overlay_group_fuel fuel overlay root = some (parse_overlay_group overlay root) :=
  (parse_overlay_fuel_enough fuel).1 overlay root h

/-- C27 (witness): the overlay of the configuration of the test suite has 9 nodes;
the merge into the configuration returns within 9 steps. -/
theorem parse_overlay_group_terminates_witness :
    node_count overlay_common ≤ 9 ∧
      parse_overlay_group_fuel 9 overlay_common base_config = some (.ok merged_config) :=
  ⟨by decide, parse_overlay_group_terminates 9 overlay_common base_config (by decide)⟩

/-! ### What the merge keeps (C29) -/

theorem label_setChildren (d : XmlNode) (cs : List XmlNode) :
    label (d.setChildren cs) = label d := by
  cases d <;> rfl

theorem label_setContent (d : XmlNode) (v : String) :
    label (xmlNodeSetContent d v) = label d := by
  cases d <;> rfl

theorem same_label_of_label {a b : XmlNode} (h : label a = label b) : same_label a b := by
  cases a <;> cases b <;> simp only [label, Prod.mk.injEq] at h
  · obtain ⟨_, rfl, rfl⟩ := h
    exact ⟨rfl, rfl, fun _ => rfl⟩
  · exact absurd h.1 (by decide)
  · exact absurd h.1 (by decide)
  · exact absurd h.1 (by decide)
  · exact ⟨rfl, rfl, fun _ => rfl⟩
  · exact absurd h.2.1 (by decide)
  · exact absurd h.1 (by decide)
  · exact absurd h.2.1 (by decide)
  · exact ⟨rfl, rfl, fun _ => rfl⟩

theorem name_of_label {a b : XmlNode} (h : label a = label b) : a.name = b.name :=
  (same_label_of_label h).2.1

theorem merged_from_trans {d d1 d2 : XmlNode} (h1 : merged_from d d1)
    (h2 : merged_from d1 d2) : merged_from d d2 := by
  induction h2 with
  | same => exact h1
  | step _ hm ih => exact merged_from.step ih hm

theorem parse_overlay_group_label {overlay d merged : XmlNode}
    (h : parse_overlay_group overlay d = .ok merged) : label merged = label d := by
  obtain ⟨o0, following, c0, crest, chain, hoc, hdc, hloop, hmc, hlab⟩ :=
    parse_overlay_group_ok h
  cases overlay with
  | text s => cases hoc
  | comment s => cases hoc
  | element tag attrs cs =>
    simp only [children_element] at hoc
    subst hoc
    rw [parse_overlay_group] at h
    cases hn : next_node d.children with
    | error e => rw [hn] at h; cases h
    | ok l =>
      rw [hn] at h
      cases l with
      | nil => cases h
      | cons r rs =>
        simp only [] at h
        cases hp : parse_overlay_siblings following (r :: rs) with
        | error e => rw [hp] at h; cases h
        | ok sibs =>
          rw [hp] at h
          simp only [Except.ok.injEq] at h
          rw [← h]
          exact label_setChildren _ _

/-- The node found by a search, when one node of the chain is replaced by a node
with the same label: the same node is found, or the node found was the one replaced
and the new node is found in its place. -/
theorem search_next_replace {tag prop key : String} (b : List XmlNode) {d d1 : XmlNode}
    {a b0 a0 : List XmlNode} {x : XmlNode}
    (h : search_next tag prop key (b ++ d :: a) = .ok (some (b0, x, a0)))
    (hl : same_label d1 d) :
    search_finds tag prop key (b ++ d1 :: a) x ∨
      (x = d ∧ search_finds tag prop key (b ++ d1 :: a) d1) := by
  induction b generalizing b0 with
  | nil =>
    simp only [List.nil_append] at h ⊢
    rcases search_next_cons_some h with ⟨_, rfl, _, hn, hv⟩ | ⟨b00, _, hr, hskip⟩
    · exact Or.inr ⟨rfl, [], a, search_next_cons_found _ (by rw [hl.1]; exact hn)
        (by rw [search_visit_congr hl]; exact hv)⟩
    · have hskip1 : d1.isElement = false ∨ search_visit tag prop key d1 = .ok false := by
        rcases hskip with hs | hs
        · exact Or.inl (by rw [hl.1]; exact hs)
        · exact Or.inr (by rw [search_visit_congr hl]; exact hs)
      exact Or.inl ⟨d1 :: b00, a0, by rw [search_next_cons_skip a hskip1, hr]; rfl⟩
  | cons n b1 ih =>
    simp only [List.cons_append] at h ⊢
    rcases search_next_cons_some h with ⟨_, rfl, _, hn, hv⟩ | ⟨b00, _, hr, hskip⟩
    · exact Or.inl ⟨[], _, search_next_cons_found _ hn hv⟩
    · rcases ih hr with ⟨b2, a2, h2⟩ | ⟨hx, b2, a2, h2⟩
      · exact Or.inl ⟨n :: b2, a2, by rw [search_next_cons_skip _ hskip, h2]; rfl⟩
      · exact Or.inr ⟨hx, n :: b2, a2, by rw [search_next_cons_skip _ hskip, h2]; rfl⟩

/-- One turn of the loop either leaves the chain as it is, or adds nodes at its
end, or replaces one node by a node with the same label, which for a group is the
merge of the overlay node into it. -/
theorem overlay_step_edit_label {e : XmlNode} {f sibs sibs1 : List XmlNode}
    (h : overlay_step e f sibs = .ok sibs1) :
    sibs1 = sibs ∨ (∃ cur, sibs1 = xmlAddChildList sibs cur) ∨
    ∃ b d d1 a, sibs = b ++ d :: a ∧ sibs1 = b ++ d1 :: a ∧ label d1 = label d ∧
      (d.name = TAG_GROUP → parse_overlay_group e d = .ok d1) := by
  unfold overlay_step at h
  by_cases he : e.isElement = true
  · simp only [he, ↓reduceIte] at h
    by_cases hg : e.name = TAG_GROUP
    · simp only [hg, ↓reduceIte] at h
      cases hp : xmlGetProp e ATTR_NAME with
      | none => rw [hp] at h; cases h
      | some gn =>
        rw [hp] at h
        simp only [] at h
        cases hs : search_group sibs gn with
        | error x => rw [hs] at h; cases h
        | ok r =>
          rw [hs] at h
          cases r with
          | none =>
            simp only [Except.ok.injEq] at h
            exact Or.inr (Or.inl ⟨_, h.symm⟩)
          | some fd =>
            obtain ⟨b, d, a⟩ := fd
            simp only [] at h
            cases hm : parse_overlay_group e d with
            | error x => rw [hm] at h; cases h
            | ok m =>
              rw [hm] at h
              simp only [Except.ok.injEq] at h
              have hs1 := search_node_eq_search_next
                (show TAG_GROUP ≠ "text" ∧ TAG_GROUP ≠ "comment" from ⟨by decide, by decide⟩) hs
              exact Or.inr (Or.inr ⟨b, d, m, a, (search_next_split hs1).1, h.symm,
                parse_overlay_group_label hm, fun _ => hm⟩)
    · simp only [hg, ↓reduceIte] at h
      by_cases hl : e.name = TAG_LIST
      · simp only [hl, ↓reduceIte] at h
        unfold overlay_list at h
        cases hp : xmlGetProp e ATTR_NAME with
        | none => rw [hp] at h; cases h
        | some ln =>
          rw [hp] at h
          simp only [] at h
          cases hs : search_list sibs ln with
          | error x => rw [hs] at h; cases h
          | ok r =>
            rw [hs] at h
            cases r with
            | none =>
              simp only [Except.ok.injEq] at h
              exact Or.inr (Or.inl ⟨_, h.symm⟩)
            | some fd =>
              obtain ⟨b, d, a⟩ := fd
              simp only [] at h
              have hres : ∃ cs, sibs1 = b ++ d.setChildren cs :: a := by
                split at h
                · cases h
                · split at h
                  · cases h
                  · split at h
                    · simp only [Except.ok.injEq] at h
                      exact ⟨_, h.symm⟩
                    · cases h
                  · simp only [Except.ok.injEq] at h
                    exact ⟨_, h.symm⟩
              obtain ⟨cs, hcs⟩ := hres
              have hs1 := search_node_eq_search_next
                (show TAG_LIST ≠ "text" ∧ TAG_LIST ≠ "comment" from ⟨by decide, by decide⟩) hs
              obtain ⟨hsplit, _, hv⟩ := search_next_split hs1
              have hdn := (search_visit_true hv).1
              exact Or.inr (Or.inr ⟨b, d, d.setChildren cs, a, hsplit, hcs,
                label_setChildren d cs, fun hgd => absurd (hdn.symm.trans hgd) (by decide)⟩)
      · simp only [hl, ↓reduceIte] at h
        unfold overlay_property at h
        by_cases ht : e.name = TAG_STRING ∨ e.name = TAG_INT ∨ e.name = TAG_BOOL
        · simp only [ht, ↓reduceIte] at h
          cases hp : xmlGetProp e ATTR_KEY with
          | none => rw [hp] at h; cases h
          | some key =>
            rw [hp] at h
            simp only [] at h
            cases hs : search_property sibs e.name key with
            | error x => rw [hs] at h; cases h
            | ok r =>
              rw [hs] at h
              cases r with
              | none =>
                simp only [Except.ok.injEq] at h
                exact Or.inr (Or.inl ⟨_, h.symm⟩)
              | some fd =>
                obtain ⟨b, d, a⟩ := fd
                simp only [Except.ok.injEq] at h
                have hs1 := search_node_eq_search_next
                  (tag_not_text (Or.inr ⟨ht, rfl⟩)) hs
                obtain ⟨hsplit, _, hv⟩ := search_next_split hs1
                have hdn := (search_visit_true hv).1
                exact Or.inr (Or.inr ⟨b, d, _, a, hsplit, h.symm, label_setContent d _,
                  fun hgd => absurd (hdn.symm.trans hgd) hg⟩)
        · simp only [ht, ↓reduceIte] at h
          cases h
  · simp only [he, Bool.false_eq_true, ↓reduceIte, Except.ok.injEq] at h
    exact Or.inl h.symm

/-- The node a search finds, after one turn of the loop: a node with the same
label, and for a group the group itself or the merge of the overlay node into it. -/
theorem overlay_step_tracks {tag prop key : String} {e x : XmlNode} {f sibs sibs1 : List XmlNode}
    (h : overlay_step e f sibs = .ok sibs1) (hf : search_finds tag prop key sibs x) :
    ∃ x1, search_finds tag prop key sibs1 x1 ∧ label x1 = label x ∧
      (x.name = TAG_GROUP → merged_from x x1) := by
  rcases overlay_step_edit_label h with rfl | ⟨cur, rfl⟩ | ⟨b, d, d1, a, rfl, rfl, hlab, hmg⟩
  · exact ⟨x, hf, rfl, fun _ => merged_from.same x⟩
  · exact ⟨x, search_finds_addChildList cur hf, rfl, fun _ => merged_from.same x⟩
  · obtain ⟨b0, a0, hfound⟩ := hf
    rcases search_next_replace b hfound (same_label_of_label hlab) with h1 | ⟨rfl, h1⟩
    · exact ⟨x, h1, rfl, fun _ => merged_from.same x⟩
    · exact ⟨d1, h1, hlab, fun hn => merged_from.step (merged_from.same x) (hmg hn)⟩

/-- The node a search finds, after the loop. -/
theorem parse_overlay_siblings_tracks {tag prop key : String} (ov : List XmlNode)
    {x : XmlNode} (sibs chain : List XmlNode)
    (h : parse_overlay_siblings ov sibs = .ok chain)
    (hf : search_finds tag prop key sibs x) :
    ∃ x1, search_finds tag prop key chain x1 ∧ label x1 = label x ∧
      (x.name = TAG_GROUP → merged_from x x1) := by
  induction ov generalizing sibs x with
  | nil =>
    rw [parse_overlay_siblings] at h
    simp only [Except.ok.injEq] at h
    rw [← h]
    exact ⟨x, hf, rfl, fun _ => merged_from.same x⟩
  | cons e f ih =>
    rw [parse_overlay_siblings_cons] at h
    cases hst : overlay_step e f sibs with
    | error err => rw [hst] at h; cases h
    | ok sibs1 =>
      rw [hst] at h
      obtain ⟨x1, hf1, hl1, hm1⟩ := overlay_step_tracks hst hf
      obtain ⟨x2, hf2, hl2, hm2⟩ := ih sibs1 h hf1
      exact ⟨x2, hf2, hl2.trans hl1, fun hn =>
        merged_from_trans (hm1 hn) (hm2 ((name_of_label hl1).trans hn))⟩

/-- The labels of the chain, after one turn of the loop: those it had, in the
same order, then the labels of the nodes added. -/
theorem overlay_step_labels {e : XmlNode} {f sibs sibs1 : List XmlNode}
    (h : overlay_step e f sibs = .ok sibs1) :
    ∃ extra, sibs1.map label = sibs.map label ++ extra := by
  rcases overlay_step_edit_label h with rfl | ⟨cur, rfl⟩ | ⟨b, d, d1, a, rfl, rfl, hlab, _⟩
  · exact ⟨[], by simp⟩
  · rcases xmlAddChildList_cases sibs cur with he | ⟨l0, s, c, rest, hl, he⟩
    · rw [he]
      exact ⟨cur.map label, by simp⟩
    · rw [he, hl]
      exact ⟨rest.map label, by simp [label]⟩
  · exact ⟨[], by simp [hlab]⟩

theorem parse_overlay_siblings_labels (ov : List XmlNode) (sibs chain : List XmlNode)
    (h : parse_overlay_siblings ov sibs = .ok chain) :
    ∃ extra, chain.map label = sibs.map label ++ extra := by
  induction ov generalizing sibs with
  | nil =>
    rw [parse_overlay_siblings] at h
    simp only [Except.ok.injEq] at h
    rw [← h]
    exact ⟨[], by simp⟩
  | cons e f ih =>
    rw [parse_overlay_siblings_cons] at h
    cases hst : overlay_step e f sibs with
    | error err => rw [hst] at h; cases h
    | ok sibs1 =>
      rw [hst] at h
      obtain ⟨e1, h1⟩ := overlay_step_labels hst
      obtain ⟨e2, h2⟩ := ih sibs1 h
      exact ⟨e1 ++ e2, by rw [h2, h1, List.append_assoc]⟩

theorem isElement_of_label {a b : XmlNode} (h : label a = label b) :
    a.isElement = b.isElement :=
  (same_label_of_label h).1

theorem dropWhile_ne_nil_of_labels {l l1 : List XmlNode}
    {extra : List (Bool × String × List (String × String))}
    (h : l1.map label = l.map label ++ extra)
    (hl : l.dropWhile (fun n => !n.isElement) ≠ []) :
    l1.dropWhile (fun n => !n.isElement) ≠ [] := by
  intro h1
  apply hl
  rw [dropWhile_eq_nil_iff_elements] at h1 ⊢
  unfold elements at h1 ⊢
  rw [List.filter_eq_nil_iff] at h1 ⊢
  intro y hy
  have hmem : label y ∈ l1.map label := by
    rw [h]
    exact List.mem_append_left _ (List.mem_map_of_mem label hy)
  obtain ⟨y1, hy1, hlab⟩ := List.mem_map.mp hmem
  rw [← isElement_of_label hlab]
  exact h1 y1 hy1

theorem head_dropWhile_isElement {l rs : List XmlNode} {r : XmlNode}
    (h : l.dropWhile (fun n => !n.isElement) = r :: rs) : r.isElement = true := by
  induction l with
  | nil => cases h
  | cons n rest ih =>
    by_cases hn : n.isElement = true
    · simp only [List.dropWhile, hn, Bool.not_true, List.cons.injEq] at h
      rw [← h.1]
      exact hn
    · simp only [Bool.not_eq_true] at hn
      simp only [List.dropWhile, hn, Bool.not_false] at h
      exact ih h

theorem search_next_of_search_node_dropWhile {tag prop key : String} {l b a : List XmlNode}
    {x : XmlNode}
    (h : search_node (l.dropWhile (fun n => !n.isElement)) tag prop key =
      .ok (some (b, x, a))) :
    ∃ b1, search_next tag prop key l = .ok (some (b1, x, a)) := by
  induction l with
  | nil => simp [search_node] at h
  | cons n rest ih =>
    by_cases hn : n.isElement = true
    · simp only [List.dropWhile, hn, Bool.not_true] at h
      exact ⟨b, by rw [search_next_of_element rest hn]; exact h⟩
    · simp only [Bool.not_eq_true] at hn
      simp only [List.dropWhile, hn, Bool.not_false] at h
      obtain ⟨b1, h1⟩ := ih h
      exact ⟨n :: b1, by rw [search_next_cons_skip rest (Or.inl hn), h1]; rfl⟩

theorem name_of_search_node {tag prop key : String} {l b a : List XmlNode} {x : XmlNode}
    (h : search_node l tag prop key = .ok (some (b, x, a))) : x.name = tag := by
  cases l with
  | nil => simp [search_node] at h
  | cons n rest =>
    unfold search_node at h
    simp only [] at h
    cases hv : search_visit tag prop key n with
    | error e => rw [hv] at h; cases h
    | ok v =>
      rw [hv] at h
      cases v with
      | true =>
        simp only [Except.ok.injEq, Option.some.injEq, Prod.mk.injEq] at h
        rw [← h.2.1]
        exact (search_visit_true hv).1
      | false =>
        simp only [] at h
        obtain ⟨b0, hr, _⟩ := shift_some h
        exact (search_visit_true (search_next_split hr).2.2).1

theorem tracks_refl (d : XmlNode) : tracks d d :=
  fun chain _ _ _ b x a hn hs => ⟨chain, b, x, a, hn, hs, rfl, fun _ => merged_from.same x⟩

theorem tracks_trans {d d1 d2 : XmlNode} (h1 : tracks d d1) (h2 : tracks d1 d2) :
    tracks d d2 := by
  intro chain tag prop key b x a hn hs
  obtain ⟨chain1, b1, x1, a1, hn1, hs1, hl1, hm1⟩ := h1 chain tag prop key b x a hn hs
  obtain ⟨chain2, b2, x2, a2, hn2, hs2, hl2, hm2⟩ := h2 chain1 tag prop key b1 x1 a1 hn1 hs1
  exact ⟨chain2, b2, x2, a2, hn2, hs2, hl2.trans hl1, fun hg =>
    merged_from_trans (hm1 hg) (hm2 ((name_of_label hl1).trans hg))⟩

/-- What a search finds below the destination is found below the merged
destination. -/
theorem parse_overlay_group_tracks {overlay d d1 : XmlNode}
    (h : parse_overlay_group overlay d = .ok d1) : tracks d d1 := by
  intro chain tag prop key b x a hn hs
  obtain ⟨o0, following, c0, crest, chainF, hoc, hdc, hloop, hmc, _⟩ :=
    parse_overlay_group_ok h
  rw [hdc, next_node] at hn
  simp only [Except.ok.injEq] at hn
  subst hn
  cases hd : crest.dropWhile (fun n => !n.isElement) with
  | nil => rw [hd] at hs; simp [search_node] at hs
  | cons r rs =>
    rw [hd] at hs hloop
    have hr := head_dropWhile_isElement hd
    have hf : search_finds tag prop key (r :: rs) x :=
      ⟨b, a, by rw [search_next_of_element rs hr]; exact hs⟩
    obtain ⟨x1, ⟨b1, a1, hf1⟩, hl1, hm1⟩ :=
      parse_overlay_siblings_tracks following (r :: rs) chainF hloop hf
    obtain ⟨b2, hs2⟩ := search_node_dropWhile_of_search_next hf1
    exact ⟨_, b2, x1, a1, next_node_after_merge hmc, hs2, hl1, hm1⟩

theorem tracks_of_merged_from {d d1 : XmlNode} (h : merged_from d d1) : tracks d d1 := by
  induction h with
  | same => exact tracks_refl _
  | step _ hm ih => exact tracks_trans ih (parse_overlay_group_tracks hm)

/-- A node one child of which is replaced by what merges have made of it. -/
theorem tracks_of_child {r r1 d d1 : XmlNode} {b a : List XmlNode}
    (hr : r.children = b ++ d :: a) (hr1 : r1.children = b ++ d1 :: a)
    (hlab : label d1 = label d) (hm : d.name = TAG_GROUP → merged_from d d1) :
    tracks r r1 := by
  intro chain tag prop key b0 x a0 hn hs
  cases b with
  | nil =>
    simp only [List.nil_append] at hr hr1
    rw [hr, next_node] at hn
    exact ⟨chain, b0, x, a0, by rw [hr1, next_node]; exact hn, hs, rfl,
      fun _ => merged_from.same x⟩
  | cons c bs =>
    simp only [List.cons_append] at hr hr1
    rw [hr, next_node] at hn
    simp only [Except.ok.injEq] at hn
    subst hn
    obtain ⟨b1, h1⟩ := search_next_of_search_node_dropWhile hs
    rcases search_next_replace bs h1 (same_label_of_label hlab) with
      ⟨b2, a2, h2⟩ | ⟨rfl, b2, a2, h2⟩
    · obtain ⟨b3, h3⟩ := search_node_dropWhile_of_search_next h2
      exact ⟨_, b3, x, a2, by rw [hr1, next_node], h3, rfl, fun _ => merged_from.same x⟩
    · obtain ⟨b3, h3⟩ := search_node_dropWhile_of_search_next h2
      exact ⟨_, b3, d1, a2, by rw [hr1, next_node], h3, hlab, hm⟩

/-- A group that has an element after its first child has one after the merges. -/
theorem next_node_of_merged_from {g g1 : XmlNode} (h : merged_from g g1)
    (hc : ∃ c cs, next_node g.children = .ok (c :: cs)) :
    ∃ c1 cs1, next_node g1.children = .ok (c1 :: cs1) := by
  induction h with
  | same => exact hc
  | step _ hm ih =>
    obtain ⟨c, cs, hn⟩ := ih
    obtain ⟨o0, following, c0, crest, chainF, hoc, hdc, hloop, hmc, _⟩ :=
      parse_overlay_group_ok hm
    obtain ⟨extra, hlabels⟩ := parse_overlay_siblings_labels following _ chainF hloop
    rw [hdc, next_node] at hn
    simp only [Except.ok.injEq] at hn
    have hne : (crest.dropWhile (fun n => !n.isElement)).dropWhile (fun n => !n.isElement) ≠
        [] := by
      rw [hn]
      have := head_dropWhile_isElement hn
      simp [List.dropWhile, this]
    have hne1 := dropWhile_ne_nil_of_labels hlabels hne
    rw [next_node_after_merge hmc]
    cases hd : chainF.dropWhile (fun n => !n.isElement) with
    | nil => exact absurd hd hne1
    | cons c1 cs1 => exact ⟨c1, cs1, rfl⟩

/-- The walk of `select_group` along the pieces of a path, from a node and from
the node that has taken its place: when the first walk reaches a group, the second
reaches what merges have made of that group. -/
theorem select_group_walk_of_tracks (more : List (List Char)) :
    ∀ (s : List Char) (d d1 : XmlNode) (t t1 : List XmlNode) (g : XmlNode)
      (tg : List XmlNode), tracks d d1 →
      select_group_walk (s :: more) (d :: t) = .ok (some (g :: tg)) →
      ∃ g1 tg1, select_group_walk (s :: more) (d1 :: t1) = .ok (some (g1 :: tg1)) ∧
        merged_from g g1 := by
  induction more with
  | nil =>
    intro s d d1 t t1 g tg ht hw
    rw [select_group_walk] at hw ⊢
    by_cases hsize : (String.mk s).utf8ByteSize + 1 ≤ 40
    · simp only [hsize, ↓reduceIte] at hw ⊢
      cases hn : next_node d.children with
      | error e => rw [hn] at hw; cases hw
      | ok level =>
        rw [hn] at hw
        simp only [] at hw
        cases hs : search_group level (String.mk s) with
        | error e => rw [hs] at hw; cases hw
        | ok r =>
          rw [hs] at hw
          cases r with
          | none => simp at hw
          | some f =>
            obtain ⟨b, x, a⟩ := f
            simp only [select_group_walk, Except.ok.injEq, Option.some.injEq,
              List.cons.injEq] at hw
            obtain ⟨rfl, rfl⟩ := hw
            obtain ⟨chain1, b1, x1, a1, hn1, hs1, _, hm1⟩ :=
              ht level TAG_GROUP ATTR_NAME (String.mk s) b x a hn hs
            refine ⟨x1, a1, ?_, hm1 (name_of_search_node hs)⟩
            rw [hn1]
            simp only []
            unfold search_group
            rw [hs1]
            simp only [select_group_walk]
    · simp only [hsize, ↓reduceIte] at hw
      cases hw
  | cons s1 more1 ih =>
    intro s d d1 t t1 g tg ht hw
    rw [select_group_walk] at hw ⊢
    by_cases hsize : (String.mk s).utf8ByteSize + 1 ≤ 40
    · simp only [hsize, ↓reduceIte] at hw ⊢
      cases hn : next_node d.children with
      | error e => rw [hn] at hw; cases hw
      | ok level =>
        rw [hn] at hw
        simp only [] at hw
        cases hs : search_group level (String.mk s) with
        | error e => rw [hs] at hw; cases hw
        | ok r =>
          rw [hs] at hw
          cases r with
          | none => simp at hw
          | some f =>
            obtain ⟨b, x, a⟩ := f
            simp only [] at hw
            obtain ⟨chain1, b1, x1, a1, hn1, hs1, _, hm1⟩ :=
              ht level TAG_GROUP ATTR_NAME (String.mk s) b x a hn hs
            obtain ⟨g1, tg1, hw1, hg1⟩ := ih s1 x x1 a a1 g tg
              (tracks_of_merged_from (hm1 (name_of_search_node hs))) hw
            refine ⟨g1, tg1, ?_, hg1⟩
            rw [hn1]
            simp only []
            unfold search_group
            rw [hs1]
            exact hw1
    · simp only [hsize, ↓reduceIte] at hw
      cases hw

theorem path_segments_cons (l : List Char) : ∃ s more, path_segments l = s :: more := by
  induction l with
  | nil => exact ⟨[], [], rfl⟩
  | cons c cs ih =>
    rw [path_segments]
    by_cases hc : c = GROUP_SEPARATOR
    · simp only [hc, ↓reduceIte]
      exact ⟨_, _, rfl⟩
    · simp only [hc, ↓reduceIte]
      obtain ⟨s, more, h⟩ := ih
      rw [h]
      exact ⟨_, _, rfl⟩

theorem select_group_end_zero {w : Except Fault (Option (List XmlNode))} {cur : List XmlNode}
    (h : select_group_end w = .ok (0, cur)) :
    ∃ g tg c cs, w = .ok (some (g :: tg)) ∧ next_node g.children = .ok (c :: cs) ∧
      cur = c :: cs := by
  cases w with
  | error e => cases h
  | ok r =>
    cases r with
    | none => simp [select_group_end] at h
    | some ptr =>
      cases ptr with
      | nil => cases h
      | cons g tg =>
        simp only [select_group_end] at h
        cases hn : next_node g.children with
        | error e => rw [hn] at h; cases h
        | ok l =>
          rw [hn] at h
          cases l with
          | nil => simp at h
          | cons c cs =>
            simp only [Except.ok.injEq, Prod.mk.injEq, true_and] at h
            exact ⟨g, tg, c, cs, rfl, hn, h.symm⟩

/-- The end of a selection that succeeds from a node, and from the node that has
taken its place: the two cursors are on the children of a group and of what merges
have made of that group. -/
theorem select_group_end_of_tracks (s : List Char) (more : List (List Char))
    (d d1 : XmlNode) (t t1 cur : List XmlNode) (ht : tracks d d1)
    (h : select_group_end (select_group_walk (s :: more) (d :: t)) = .ok (0, cur)) :
    ∃ cur1 g g1, select_group_end (select_group_walk (s :: more) (d1 :: t1)) = .ok (0, cur1) ∧
      merged_from g g1 ∧ next_node g.children = .ok cur ∧ next_node g1.children = .ok cur1 := by
  obtain ⟨g, tg, cc, cs, hw, hn, hcur⟩ := select_group_end_zero h
  obtain ⟨g1, tg1, hw1, hm⟩ := select_group_walk_of_tracks more s d d1 t t1 g tg ht hw
  obtain ⟨cc1, cs1, hn1⟩ := next_node_of_merged_from hm ⟨cc, cs, hn⟩
  refine ⟨cc1 :: cs1, g, g1, ?_, hm, by rw [hn, hcur], hn1⟩
  rw [hw1]
  simp only [select_group_end, hn1]

theorem select_group_zero_of_end {ctx : tcs_internal_ctx} {path : String}
    {cur : List XmlNode}
    (h : (select_group ctx path).map (fun r => (r.1, r.2.select_group_node)) = .ok (0, cur)) :
    ∃ c, select_group ctx path = .ok (0, c) ∧ c.select_group_node = cur := by
  cases hs : select_group ctx path with
  | error e => rw [hs] at h; cases h
  | ok r =>
    obtain ⟨st, c⟩ := r
    rw [hs] at h
    simp only [Except.map, Except.ok.injEq, Prod.mk.injEq] at h
    obtain ⟨rfl, hc⟩ := h
    exact ⟨c, rfl, hc⟩

/-- A selection that succeeds still succeeds when the root and the default group
are replaced by nodes in which every search finds what it found, and the two cursors
are on the children of a group and of what merges have made of that group. -/
theorem select_group_of_tracks (ctx ctx1 c : tcs_internal_ctx) (path : String)
    (hroot : tracks ctx.root_node ctx1.root_node)
    (hdefault : ∀ dg, ctx.default_group_node.head? = some dg →
      ∃ dg1, ctx1.default_group_node.head? = some dg1 ∧ tracks dg dg1)
    (hsel : select_group ctx path = .ok (0, c)) :
    ∃ c1 g g1, select_group ctx1 path = .ok (0, c1) ∧ merged_from g g1 ∧
      next_node g.children = .ok c.select_group_node ∧
      next_node g1.children = .ok c1.select_group_node := by
  by_cases hhead : path.toList.head? = some GROUP_SEPARATOR
  · cases hp : path.toList with
    | nil => rw [hp] at hhead; cases hhead
    | cons ch p =>
      rw [hp] at hhead
      simp only [List.head?_cons, Option.some.injEq] at hhead
      subst hhead
      cases hd : ctx.default_group_node with
      | nil =>
        rw [select_group_early_return ctx path (by rw [hp]; rfl) hd] at hsel
        simp at hsel
      | cons dg t =>
        obtain ⟨dg1, hdg1, ht⟩ := hdefault dg (by rw [hd]; rfl)
        cases hd1 : ctx1.default_group_node with
        | nil => rw [hd1] at hdg1; cases hdg1
        | cons x t1 =>
          rw [hd1] at hdg1
          simp only [List.head?_cons, Option.some.injEq] at hdg1
          subst hdg1
          have h0 := select_group_relative_end ctx path p dg t hp hd
          rw [hsel] at h0
          obtain ⟨s, more, hseg⟩ := path_segments_cons p
          rw [hseg] at h0
          obtain ⟨cur1, g, g1, he1, hm, hn, hn1⟩ :=
            select_group_end_of_tracks s more dg x t t1 _ ht h0.symm
          have h1 := select_group_relative_end ctx1 path p x t1 hp hd1
          rw [hseg, he1] at h1
          obtain ⟨c1, hs1, hc1⟩ := select_group_zero_of_end h1
          exact ⟨c1, g, g1, hs1, hm, hn, by rw [hn1, hc1]⟩
  · have h0 := select_group_root_end ctx path hhead
    rw [hsel] at h0
    obtain ⟨s, more, hseg⟩ := path_segments_cons path.toList
    rw [hseg] at h0
    obtain ⟨cur1, g, g1, he1, hm, hn, hn1⟩ :=
      select_group_end_of_tracks s more ctx.root_node ctx1.root_node [] [] _ hroot h0.symm
    have h1 := select_group_root_end ctx1 path hhead
    rw [hseg, he1] at h1
    obtain ⟨c1, hs1, hc1⟩ := select_group_zero_of_end h1
    exact ⟨c1, g, g1, hs1, hm, hn, by rw [hn1, hc1]⟩

/-- C29: a merge that completes keeps the children of the destination in their
order, each with its type, name and attributes, and puts every new node after them.
For a context whose root is the destination, or has it as a child, and the context
that has the merged destination in its place: every path for which `select_group`
returned 0 still returns 0; and after the same successful selection in both, every
search of a scalar by tag and key that finds a node from the first cursor finds one
from the second, so that `get_string` still returns a string for every key for which
it did. -/
theorem merge_keeps_groups_and_scalars (overlay d d1 : XmlNode)
    (hmerge : parse_overlay_group overlay d = .ok d1) :
    (∃ extra, d1.children.map label = d.children.map label ++ extra) ∧
    (∀ ctx ctx1 path, destination_in d d1 ctx ctx1 →
      (select_group ctx path).map (fun r => r.1) = .ok 0 →
      (select_group ctx1 path).map (fun r => r.1) = .ok 0) ∧
    (∀ ctx ctx1 c c1 path, destination_in d d1 ctx ctx1 →
      select_group ctx path = .ok (0, c) → select_group ctx1 path = .ok (0, c1) →
      (∀ tag key, (∃ f, search_property c.select_group_node tag key = .ok (some f)) →
        ∃ f1, search_property c1.select_group_node tag key = .ok (some f1)) ∧
      (∀ key v, get_string c key = .ok (some v) →
        ∃ v1, get_string c1 key = .ok (some v1))) := by
  have htracks : ∀ ctx ctx1, destination_in d d1 ctx ctx1 →
      tracks ctx.root_node ctx1.root_node ∧
      ∀ dg, ctx.default_group_node.head? = some dg →
        ∃ dg1, ctx1.default_group_node.head? = some dg1 ∧ tracks dg dg1 := by
    intro ctx ctx1 hd
    obtain ⟨hroot, hdef⟩ := hd
    constructor
    · rcases hroot with ⟨h1, h2⟩ | ⟨b, a, h1, h2⟩
      · rw [h1, h2]
        exact parse_overlay_group_tracks hmerge
      · exact tracks_of_child h1 h2 (parse_overlay_group_label hmerge)
          (fun _ => merged_from.step (merged_from.same d) hmerge)
    · intro dg hdg
      rcases hdef with h | ⟨h1, h2⟩
      · exact ⟨dg, by rw [h, hdg], tracks_refl dg⟩
      · rw [h1] at hdg
        simp only [Option.some.injEq] at hdg
        subst hdg
        exact ⟨d1, h2, parse_overlay_group_tracks hmerge⟩
  have hlookup : ∀ ctx ctx1 c c1 path, destination_in d d1 ctx ctx1 →
      select_group ctx path = .ok (0, c) → select_group ctx1 path = .ok (0, c1) →
      ∀ tag key, (∃ f, search_property c.select_group_node tag key = .ok (some f)) →
        ∃ f1, search_property c1.select_group_node tag key = .ok (some f1) := by
    intro ctx ctx1 c c1 path hd hsel hsel1 tag key hfound
    obtain ⟨c2, g, g1, hs2, hm, hn, hn1⟩ :=
      select_group_of_tracks ctx ctx1 c path (htracks ctx ctx1 hd).1 (htracks ctx ctx1 hd).2
        hsel
    rw [hsel1] at hs2
    simp only [Except.ok.injEq, Prod.mk.injEq, true_and] at hs2
    subst hs2
    obtain ⟨f, hf⟩ := hfound
    obtain ⟨b, x, a⟩ := f
    unfold search_property at hf ⊢
    obtain ⟨chain1, b1, x1, a1, hc1, hs1, _, _⟩ :=
      tracks_of_merged_from hm _ tag ATTR_KEY key b x a hn hf
    rw [hn1] at hc1
    simp only [Except.ok.injEq] at hc1
    rw [hc1]
    exact ⟨_, hs1⟩
  refine ⟨?_, ?_, ?_⟩
  · obtain ⟨o0, following, c0, crest, chain, hoc, hdc, hloop, hmc, _⟩ :=
      parse_overlay_group_ok hmerge
    obtain ⟨extra, hl⟩ := parse_overlay_siblings_labels following _ chain hloop
    refine ⟨extra, ?_⟩
    rw [hmc, hdc]
    simp only [List.map_cons, List.map_append, hl, List.cons_append, List.cons.injEq, true_and]
    rw [← List.append_assoc, ← List.map_append, List.takeWhile_append_dropWhile]
  · intro ctx ctx1 path hd hsel
    cases hs : select_group ctx path with
    | error e => rw [hs] at hsel; cases hsel
    | ok r =>
      obtain ⟨st, c⟩ := r
      rw [hs] at hsel
      simp only [Except.map, Except.ok.injEq] at hsel
      subst hsel
      obtain ⟨c1, _, _, hs1, _⟩ :=
        select_group_of_tracks ctx ctx1 c path (htracks ctx ctx1 hd).1
          (htracks ctx ctx1 hd).2 hs
      rw [hs1]
      rfl
  · intro ctx ctx1 c c1 path hd hsel hsel1
    refine ⟨hlookup ctx ctx1 c c1 path hd hsel hsel1, ?_⟩
    intro key v hget
    have hfound : ∃ f, search_property c.select_group_node TAG_STRING key = .ok (some f) := by
      unfold get_string at hget
      cases hc : c.select_group_node with
      | nil => rw [hc] at hget; cases hget
      | cons n ns =>
        rw [hc] at hget
        simp only [] at hget
        cases hsp : search_property (n :: ns) TAG_STRING key with
        | error e => rw [hsp] at hget; cases hget
        | ok r =>
          cases r with
          | none => rw [hsp] at hget; simp at hget
          | some f => exact ⟨f, rfl⟩
    obtain ⟨f1, hf1⟩ := hlookup ctx ctx1 c c1 path hd hsel hsel1 TAG_STRING key hfound
    obtain ⟨b1, x1, a1⟩ := f1
    unfold get_string
    cases hc1 : c1.select_group_node with
    | nil =>
      rw [hc1] at hf1
      simp [search_property, search_node] at hf1
    | cons n ns =>
      rw [hc1] at hf1
      simp only [hf1]
      exact ⟨_, rfl⟩

/-- C29 (witness): the configuration of the test suite and its overlay; the
selection of `modules`, which returns 0 before the merge, returns 0 after it. -/
theorem merge_keeps_groups_and_scalars_witness :
    parse_overlay_group overlay_common base_config = .ok merged_config ∧
      (select_group (ctx_of_root base_config) "modules").map (fun r => r.1) = .ok 0 ∧
      (select_group (ctx_of_root merged_config) "modules").map (fun r => r.1) = .ok 0 :=
  ⟨rfl, rfl,
    (merge_keeps_groups_and_scalars overlay_common base_config merged_config rfl).2.1
      (ctx_of_root base_config) (ctx_of_root merged_config) "modules"
      ⟨Or.inl ⟨rfl, rfl⟩, Or.inl rfl⟩ rfl⟩

/-! ### Merging the same scalars twice (C31) -/

/-- A search that succeeds, read off the chain: the node found is an element that
matches, and every node before it is passed. -/
theorem search_next_some_iff {tag prop key : String} {l b a : List XmlNode} {x : XmlNode} :
    search_next tag prop key l = .ok (some (b, x, a)) ↔
      l = b ++ x :: a ∧ x.isElement = true ∧ search_visit tag prop key x = .ok true ∧
        ∀ z ∈ b, z.isElement = false ∨ search_visit tag prop key z = .ok false := by
  constructor
  · intro h
    induction l generalizing b with
    | nil => simp [search_next] at h
    | cons n rest ih =>
      rcases search_next_cons_some h with ⟨rfl, rfl, rfl, hn, hv⟩ | ⟨b0, rfl, hr, hskip⟩
      · exact ⟨rfl, hn, hv, fun z hz => by cases hz⟩
      · obtain ⟨hl, hx, hv, hb⟩ := ih hr
        refine ⟨by rw [hl]; rfl, hx, hv, ?_⟩
        intro z hz
        rcases List.mem_cons.mp hz with rfl | hz
        · exact hskip
        · exact hb z hz
  · rintro ⟨rfl, hx, hv, hb⟩
    induction b with
    | nil => exact search_next_cons_found _ hx hv
    | cons n b1 ih =>
      simp only [List.cons_append]
      rw [search_next_cons_skip _ (hb n (List.mem_cons_self _ _)),
        ih (fun z hz => hb z (List.mem_cons_of_mem _ hz))]
      rfl

/-- A search that finds nothing, read off the chain: every node is passed. -/
theorem search_next_none_iff {tag prop key : String} {l : List XmlNode} :
    search_next tag prop key l = .ok none ↔
      ∀ z ∈ l, z.isElement = false ∨ search_visit tag prop key z = .ok false := by
  induction l with
  | nil => simp [search_next]
  | cons n rest ih =>
    constructor
    · intro h
      obtain ⟨hr, hskip⟩ := search_next_cons_none h
      intro z hz
      rcases List.mem_cons.mp hz with rfl | hz
      · exact hskip
      · exact ih.mp hr z hz
    · intro h
      rw [search_next_cons_skip _ (h n (List.mem_cons_self _ _)),
        ih.mpr (fun z hz => h z (List.mem_cons_of_mem _ hz))]
      rfl

/-- A node that the search passes does not bear the tag and the key. -/
theorem not_has_tag_prop_of_passed {tag prop key : String} {z : XmlNode}
    (h : z.isElement = false ∨ search_visit tag prop key z = .ok false) :
    has_tag_prop tag prop key z = false := by
  cases hp : has_tag_prop tag prop key z with
  | false => rfl
  | true =>
    rcases h with h | h
    · rw [has_tag_prop_isElement hp] at h; cases h
    · rw [search_visit_of_has_tag_prop hp] at h; cases h

/-- A node is passed by the search when a node of the same label is. -/
theorem passed_of_label {tag prop key : String} {z z1 : XmlNode} (hl : label z1 = label z)
    (h : z.isElement = false ∨ search_visit tag prop key z = .ok false) :
    z1.isElement = false ∨ search_visit tag prop key z1 = .ok false := by
  rcases h with h | h
  · exact Or.inl (by rw [isElement_of_label hl]; exact h)
  · exact Or.inr (by rw [search_visit_congr (same_label_of_label hl)]; exact h)

/-- From a chain that is not empty, `search_node` for the tag of a group, a list
or a scalar is the search that visits elements only. -/
theorem search_node_eq_next {tag prop key : String} {l : List XmlNode}
    (ht : tag ≠ "text" ∧ tag ≠ "comment") (hne : l ≠ []) :
    search_node l tag prop key = search_next tag prop key l := by
  cases l with
  | nil => exact absurd rfl hne
  | cons n rest =>
    by_cases hn : n.isElement = true
    · rw [search_next_of_element rest hn]
    · have hname : n.name ≠ tag := by
        cases n with
        | element _ _ _ => exact absurd rfl hn
        | text s => exact fun e => ht.1 e.symm
        | comment s => exact fun e => ht.2 e.symm
      have hv : search_visit tag prop key n = .ok false := by
        unfold search_visit
        simp only [hname, ↓reduceIte]
      rw [search_next_cons_skip rest (Or.inr hv)]
      unfold search_node
      simp only [hv]

/-- Setting the content depends on the label of the node only. -/
theorem xmlNodeSetContent_of_label {x x1 : XmlNode} (h : label x1 = label x) (v : String) :
    xmlNodeSetContent x1 v = xmlNodeSetContent x v := by
  cases x <;> cases x1 <;> simp only [label, Prod.mk.injEq] at h
  · obtain ⟨_, rfl, rfl⟩ := h
    rfl
  · exact absurd h.1 (by decide)
  · exact absurd h.1 (by decide)
  · exact absurd h.1 (by decide)
  · rfl
  · exact absurd h.2.1 (by decide)
  · exact absurd h.1 (by decide)
  · exact absurd h.2.1 (by decide)
  · rfl

theorem xmlNodeSetContent_twice (x : XmlNode) (v : String) :
    xmlNodeSetContent (xmlNodeSetContent x v) v = xmlNodeSetContent x v := by
  cases x <;> rfl

/-- The turn of the loop at a scalar of the overlay, on a chain that is not
empty. -/
theorem overlay_step_scalar {e : XmlNode} {k : String} (f sibs : List XmlNode)
    (he : e.isElement = true)
    (ht : e.name = TAG_STRING ∨ e.name = TAG_INT ∨ e.name = TAG_BOOL)
    (hk : xmlGetProp e ATTR_KEY = some k) (hne : sibs ≠ []) :
    overlay_step e f sibs =
      match search_next e.name ATTR_KEY k sibs with
      | .error err => .error err
      | .ok (some (b, x, a)) => .ok (b ++ xmlNodeSetContent x (xmlNodeGetContent e) :: a)
      | .ok none => .ok (sibs ++ [xmlNodeSetContent (xmlNewProp (xmlNewNode e.name) ATTR_KEY k) (xmlNodeGetContent e)]) := by
  have hg : e.name ≠ TAG_GROUP := by
    rcases ht with h | h | h <;> rw [h] <;> decide
  have hl : e.name ≠ TAG_LIST := by
    rcases ht with h | h | h <;> rw [h] <;> decide
  have htx : e.name ≠ "text" ∧ e.name ≠ "comment" := by
    rcases ht with h | h | h <;> rw [h] <;> exact ⟨by decide, by decide⟩
  unfold overlay_step
  simp only [he, ↓reduceIte, hg, hl]
  unfold overlay_property
  simp only [ht, ↓reduceIte, hk]
  unfold search_property
  rw [search_node_eq_next htx hne]
  cases search_next e.name ATTR_KEY k sibs with
  | error err => rfl
  | ok r =>
    cases r with
    | none =>
      simp only []
      unfold xmlAddChild
      rw [xmlAddChildList_of_element sibs [] (by rfl)]
    | some fd => rfl

/-- What a turn of the loop at a scalar of the overlay has done when it
completes. -/
theorem overlay_step_scalar_ok {e : XmlNode} {f sibs sibs1 : List XmlNode}
    (he : e.isElement = true)
    (ht : e.name = TAG_STRING ∨ e.name = TAG_INT ∨ e.name = TAG_BOOL)
    (h : overlay_step e f sibs = .ok sibs1) :
    ∃ k, xmlGetProp e ATTR_KEY = some k ∧ sibs ≠ [] ∧
      ((∃ b x a, search_next e.name ATTR_KEY k sibs = .ok (some (b, x, a)) ∧
          sibs1 = b ++ xmlNodeSetContent x (xmlNodeGetContent e) :: a) ∨
        (search_next e.name ATTR_KEY k sibs = .ok none ∧
          sibs1 = sibs ++ [xmlNodeSetContent (xmlNewProp (xmlNewNode e.name) ATTR_KEY k) (xmlNodeGetContent e)])) := by
  have hg : e.name ≠ TAG_GROUP := by
    rcases ht with h | h | h <;> rw [h] <;> decide
  have hl : e.name ≠ TAG_LIST := by
    rcases ht with h | h | h <;> rw [h] <;> decide
  cases hk : xmlGetProp e ATTR_KEY with
  | none =>
    unfold overlay_step at h
    simp only [he, ↓reduceIte, hg, hl] at h
    unfold overlay_property at h
    simp only [ht, ↓reduceIte, hk] at h
    cases h
  | some k =>
    have hne : sibs ≠ [] := by
      rintro rfl
      unfold overlay_step at h
      simp only [he, ↓reduceIte, hg, hl] at h
      unfold overlay_property at h
      simp only [ht, ↓reduceIte, hk, search_property, search_node] at h
      cases h
    refine ⟨k, rfl, hne, ?_⟩
    rw [overlay_step_scalar f sibs he ht hk hne] at h
    cases hs : search_next e.name ATTR_KEY k sibs with
    | error err => rw [hs] at h; cases h
    | ok r =>
      rw [hs] at h
      cases r with
      | none =>
        simp only [Except.ok.injEq] at h
        exact Or.inr ⟨rfl, h.symm⟩
      | some fd =>
        obtain ⟨b, x, a⟩ := fd
        simp only [Except.ok.injEq] at h
        exact Or.inl ⟨b, x, a, rfl, h.symm⟩

/-- The turn of the loop at a node of the overlay that is not an element. -/
theorem overlay_step_blank {e : XmlNode} (f sibs : List XmlNode) (he : e.isElement = false) :
    overlay_step e f sibs = .ok sibs := by
  unfold overlay_step
  simp only [he, Bool.false_eq_true, ↓reduceIte]

/-- The first node of a chain that passes a test is at one place only. -/
theorem first_match_unique (p : XmlNode → Bool) {b b0 a a0 : List XmlNode} {x y : XmlNode}
    (h : b ++ x :: a = b0 ++ y :: a0) (hx : p x = true) (hy : p y = true)
    (hb : ∀ z ∈ b, p z = false) (hb0 : ∀ z ∈ b0, p z = false) :
    b = b0 ∧ x = y ∧ a = a0 := by
  induction b generalizing b0 with
  | nil =>
    cases b0 with
    | nil =>
      simp only [List.nil_append, List.cons.injEq] at h
      exact ⟨rfl, h.1, h.2⟩
    | cons n b1 =>
      simp only [List.nil_append, List.cons_append, List.cons.injEq] at h
      have := hb0 n (List.mem_cons_self _ _)
      rw [← h.1, hx] at this
      cases this
  | cons m b2 ih =>
    cases b0 with
    | nil =>
      simp only [List.nil_append, List.cons_append, List.cons.injEq] at h
      have := hb m (List.mem_cons_self _ _)
      rw [h.1, hy] at this
      cases this
    | cons n b1 =>
      simp only [List.cons_append, List.cons.injEq] at h
      obtain ⟨hb2, hxy, ha⟩ := ih h.2 (fun z hz => hb z (List.mem_cons_of_mem _ hz))
        (fun z hz => hb0 z (List.mem_cons_of_mem _ hz))
      exact ⟨by rw [h.1, hb2], hxy, ha⟩

/-- What `has_tag_prop` says of a node. -/
theorem has_tag_prop_iff {tag prop key : String} {n : XmlNode} :
    has_tag_prop tag prop key n = true ↔ n.name = tag ∧ xmlGetProp n prop = some key := by
  unfold has_tag_prop
  simp only [Bool.and_eq_true, decide_eq_true_eq]

/-- The loop over scalars of the overlay takes no notice of the content of the
first scalar of a tag and a key of the chain, when a later scalar of the overlay
bears that tag and that key. -/
theorem parse_overlay_siblings_absorbs {t k : String} (f : List XmlNode) :
    ∀ (b : List XmlNode) (x x1 : XmlNode) (a chain : List XmlNode),
      (∀ e ∈ f, e.isElement = true →
        e.name = TAG_STRING ∨ e.name = TAG_INT ∨ e.name = TAG_BOOL) →
      label x1 = label x →
      has_tag_prop t ATTR_KEY k x = true →
      (∀ y ∈ b, has_tag_prop t ATTR_KEY k y = false) →
      (∃ g ∈ f, has_tag_prop t ATTR_KEY k g = true) →
      parse_overlay_siblings f (b ++ x :: a) = .ok chain →
      parse_overlay_siblings f (b ++ x1 :: a) = .ok chain := by
  induction f with
  | nil =>
    intro b x x1 a chain _ _ _ _ hex _
    obtain ⟨g, hg, _⟩ := hex
    cases hg
  | cons g f1 ih =>
    intro b x x1 a chain hsc hlab hx hb hex h
    have hsc1 : ∀ e ∈ f1, e.isElement = true →
        e.name = TAG_STRING ∨ e.name = TAG_INT ∨ e.name = TAG_BOOL :=
      fun e he => hsc e (List.mem_cons_of_mem _ he)
    have hxe : x.isElement = true := has_tag_prop_isElement hx
    have hxv : search_visit t ATTR_KEY k x = .ok true := search_visit_of_has_tag_prop hx
    rw [parse_overlay_siblings_cons] at h ⊢
    cases hst : overlay_step g f1 (b ++ x :: a) with
    | error err => rw [hst] at h; cases h
    | ok s =>
      rw [hst] at h
      simp only [] at h
      by_cases hge : g.isElement = true
      · have hgt := hsc g (List.mem_cons_self _ _) hge
        obtain ⟨kg, hkg, _, hcase⟩ := overlay_step_scalar_ok hge hgt hst
        have hne1 : b ++ x1 :: a ≠ [] := by simp
        rw [overlay_step_scalar f1 (b ++ x1 :: a) hge hgt hkg hne1]
        by_cases hgp : has_tag_prop t ATTR_KEY k g = true
        · obtain ⟨hgn, hgk⟩ := has_tag_prop_iff.mp hgp
          rw [hkg] at hgk
          have hkk : kg = k := Option.some.inj hgk
          subst hkk
          rw [hgn] at hcase ⊢
          have hfound : search_next t ATTR_KEY kg (b ++ x :: a) = .ok (some (b, x, a)) ∧
              s = b ++ xmlNodeSetContent x (xmlNodeGetContent g) :: a := by
            rcases hcase with ⟨b0, y, a0, hs, hs1⟩ | ⟨hs, _⟩
            · obtain ⟨hl, hye, hyv, hb0⟩ := search_next_some_iff.mp hs
              obtain ⟨rfl, rfl, rfl⟩ := first_match_unique (has_tag_prop t ATTR_KEY kg) hl hx
                (has_tag_prop_of_search_visit hyv) hb
                (fun z hz => not_has_tag_prop_of_passed (hb0 z hz))
              exact ⟨hs, hs1⟩
            · have := not_has_tag_prop_of_passed
                (search_next_none_iff.mp hs x (List.mem_append_right _ (List.mem_cons_self _ _)))
              rw [hx] at this
              cases this
          rw [search_next_replace_found hfound.1 (same_label_of_label hlab)]
          simp only []
          rw [xmlNodeSetContent_of_label hlab, ← hfound.2]
          exact h
        · have hex1 : ∃ g1 ∈ f1, has_tag_prop t ATTR_KEY k g1 = true := by
            obtain ⟨g1, hg1, hp1⟩ := hex
            rcases List.mem_cons.mp hg1 with rfl | hg1
            · exact absurd hp1 hgp
            · exact ⟨g1, hg1, hp1⟩
          rcases hcase with ⟨b0, y, a0, hs, hs1⟩ | ⟨hs, hs1⟩
          · obtain ⟨hl, hye, hyv, hb0⟩ := search_next_some_iff.mp hs
            have hyx : ¬ (search_visit g.name ATTR_KEY kg x = .ok true) := by
              intro hv
              obtain ⟨h1, h2⟩ := search_visit_true hv
              obtain ⟨h3, h4⟩ := has_tag_prop_iff.mp hx
              apply hgp
              apply has_tag_prop_iff.mpr
              rw [h2] at h4
              exact ⟨h1.symm.trans h3, by rw [hkg, Option.some.inj h4]⟩
            rcases List.append_eq_append_iff.mp hl with ⟨m, hb0m, hxm⟩ | ⟨m, hbm, hym⟩
            · cases m with
              | nil =>
                simp only [List.nil_append, List.cons.injEq] at hxm
                rw [hxm.1] at hyx
                exact absurd hyv hyx
              | cons x0 m1 =>
                simp only [List.cons_append, List.cons.injEq] at hxm
                obtain ⟨rfl, rfl⟩ := hxm
                subst hb0m
                have hs2 : search_next g.name ATTR_KEY kg (b ++ x1 :: (m1 ++ y :: a0)) =
                    .ok (some (b ++ x1 :: m1, y, a0)) := by
                  apply search_next_some_iff.mpr
                  refine ⟨by simp, hye, hyv, ?_⟩
                  intro z hz
                  rcases List.mem_append.mp hz with hz | hz
                  · exact hb0 z (List.mem_append_left _ hz)
                  · rcases List.mem_cons.mp hz with rfl | hz
                    · exact passed_of_label hlab
                        (hb0 x (List.mem_append_right _ (List.mem_cons_self _ _)))
                    · exact hb0 z (List.mem_append_right _ (List.mem_cons_of_mem _ hz))
                rw [hs2]
                simp only []
                have e1 : (b ++ x1 :: m1) ++ xmlNodeSetContent y (xmlNodeGetContent g) :: a0 =
                    b ++ x1 :: (m1 ++ xmlNodeSetContent y (xmlNodeGetContent g) :: a0) := by
                  simp
                rw [e1]
                apply ih b x x1 _ chain hsc1 hlab hx hb hex1
                rw [← h, hs1]
                simp
            · cases m with
              | nil =>
                simp only [List.nil_append, List.cons.injEq] at hym
                rw [← hym.1] at hyx
                exact absurd hyv hyx
              | cons y0 m1 =>
                simp only [List.cons_append, List.cons.injEq] at hym
                obtain ⟨rfl, rfl⟩ := hym
                subst hbm
                have hs2 : search_next g.name ATTR_KEY kg ((b0 ++ y :: m1) ++ x1 :: a) =
                    .ok (some (b0, y, m1 ++ x1 :: a)) := by
                  apply search_next_some_iff.mpr
                  exact ⟨by simp, hye, hyv, hb0⟩
                rw [hs2]
                simp only []
                have e1 : b0 ++ xmlNodeSetContent y (xmlNodeGetContent g) :: (m1 ++ x1 :: a) =
                    (b0 ++ xmlNodeSetContent y (xmlNodeGetContent g) :: m1) ++ x1 :: a := by
                  simp
                rw [e1]
                apply ih _ x x1 a chain hsc1 hlab hx ?_ hex1
                · rw [← h, hs1]
                  simp
                · intro z hz
                  rcases List.mem_append.mp hz with hz | hz
                  · exact hb z (List.mem_append_left _ hz)
                  · rcases List.mem_cons.mp hz with rfl | hz
                    · rw [has_tag_prop_congr (same_label_setContent y _)]
                      exact hb y (List.mem_append_right _ (List.mem_cons_self _ _))
                    · exact hb z (List.mem_append_right _ (List.mem_cons_of_mem _ hz))
          · have hs2 : search_next g.name ATTR_KEY kg (b ++ x1 :: a) = .ok none := by
              apply search_next_none_iff.mpr
              have hall := search_next_none_iff.mp hs
              intro z hz
              rcases List.mem_append.mp hz with hz | hz
              · exact hall z (List.mem_append_left _ hz)
              · rcases List.mem_cons.mp hz with rfl | hz
                · exact passed_of_label hlab
                    (hall x (List.mem_append_right _ (List.mem_cons_self _ _)))
                · exact hall z (List.mem_append_right _ (List.mem_cons_of_mem _ hz))
            rw [hs2]
            simp only []
            have e1 : (b ++ x1 :: a) ++ [xmlNodeSetContent (xmlNewProp (xmlNewNode g.name) ATTR_KEY kg) (xmlNodeGetContent g)] =
                b ++ x1 :: (a ++ [xmlNodeSetContent (xmlNewProp (xmlNewNode g.name) ATTR_KEY kg) (xmlNodeGetContent g)]) := by
              simp
            rw [e1]
            apply ih b x x1 _ chain hsc1 hlab hx hb hex1
            rw [← h, hs1]
            simp
      · simp only [Bool.not_eq_true] at hge
        rw [overlay_step_blank f1 _ hge] at hst ⊢
        simp only [Except.ok.injEq] at hst
        simp only []
        have hex1 : ∃ g1 ∈ f1, has_tag_prop t ATTR_KEY k g1 = true := by
          obtain ⟨g1, hg1, hp1⟩ := hex
          rcases List.mem_cons.mp hg1 with rfl | hg1
          · rw [has_tag_prop_isElement hp1] at hge; cases hge
          · exact ⟨g1, hg1, hp1⟩
        apply ih b x x1 a chain hsc1 hlab hx hb hex1
        rw [hst]
        exact h

/-- A turn of the loop at an overlay node that is a scalar of another tag or key,
or no element, leaves the node found as it is. -/
theorem overlay_step_scalar_keeps {t k : String} {e x : XmlNode} {f sibs sibs1 : List XmlNode}
    (hsc : e.isElement = true → e.name = TAG_STRING ∨ e.name = TAG_INT ∨ e.name = TAG_BOOL)
    (h : overlay_step e f sibs = .ok sibs1)
    (hne : has_tag_prop t ATTR_KEY k e = false)
    (hf : search_finds t ATTR_KEY k sibs x) : search_finds t ATTR_KEY k sibs1 x := by
  by_cases he : e.isElement = true
  · obtain ⟨ke, hke, _, hcase⟩ := overlay_step_scalar_ok he (hsc he) h
    obtain ⟨b0, a0, hfound⟩ := hf
    rcases hcase with ⟨b, d, a, hs, rfl⟩ | ⟨hs, rfl⟩
    · obtain ⟨hsplit, _, hvd⟩ := search_next_split hs
      rw [hsplit] at hfound
      refine search_next_replace_other b hfound (same_label_setContent d _) ?_
      intro hv
      obtain ⟨h1, h2⟩ := search_visit_true hvd
      obtain ⟨h3, h4⟩ := search_visit_true hv
      have hp : has_tag_prop t ATTR_KEY k e = true := by
        apply has_tag_prop_iff.mpr
        rw [h2] at h4
        exact ⟨h1.symm.trans h3, by rw [hke, Option.some.inj h4]⟩
      rw [hp] at hne
      cases hne
    · exact ⟨b0, _, search_next_append_right _ hfound⟩
  · simp only [Bool.not_eq_true] at he
    rw [overlay_step_blank f sibs he] at h
    simp only [Except.ok.injEq] at h
    rw [← h]
    exact hf

/-- The loop over scalars of the overlay, none of which bears the tag and the key,
leaves the node found as it is. -/
theorem parse_overlay_siblings_scalar_keeps {t k : String} {x : XmlNode}
    (ov : List XmlNode) (sibs chain : List XmlNode)
    (hsc : ∀ e ∈ ov, e.isElement = true →
      e.name = TAG_STRING ∨ e.name = TAG_INT ∨ e.name = TAG_BOOL)
    (h : parse_overlay_siblings ov sibs = .ok chain)
    (hne : ∀ e ∈ ov, has_tag_prop t ATTR_KEY k e = false)
    (hf : search_finds t ATTR_KEY k sibs x) : search_finds t ATTR_KEY k chain x := by
  induction ov generalizing sibs with
  | nil =>
    rw [parse_overlay_siblings] at h
    simp only [Except.ok.injEq] at h
    rw [← h]
    exact hf
  | cons e f ih =>
    rw [parse_overlay_siblings_cons] at h
    cases hst : overlay_step e f sibs with
    | error err => rw [hst] at h; cases h
    | ok sibs1 =>
      rw [hst] at h
      exact ih sibs1 (fun y hy => hsc y (List.mem_cons_of_mem _ hy)) h
        (fun y hy => hne y (List.mem_cons_of_mem _ hy))
        (overlay_step_scalar_keeps (hsc e (List.mem_cons_self _ _)) hst
          (hne e (List.mem_cons_self _ _)) hf)

/-- After the turn of the loop at a scalar of the overlay, the search of its tag
and key finds a node which has the content of the scalar, and which setting that
content again leaves as it is. -/
theorem overlay_step_scalar_sets {e : XmlNode} {k : String} {f sibs sibs1 : List XmlNode}
    (he : e.isElement = true)
    (ht : e.name = TAG_STRING ∨ e.name = TAG_INT ∨ e.name = TAG_BOOL)
    (hk : xmlGetProp e ATTR_KEY = some k)
    (h : overlay_step e f sibs = .ok sibs1) :
    ∃ x, search_finds e.name ATTR_KEY k sibs1 x ∧
      xmlNodeSetContent x (xmlNodeGetContent e) = x ∧
      ('&' ∉ (xmlNodeGetContent e).toList → xmlNodeGetContent x = xmlNodeGetContent e) := by
  obtain ⟨k1, hk1, _, hcase⟩ := overlay_step_scalar_ok he ht h
  rw [hk] at hk1
  have hkk : k = k1 := Option.some.inj hk1
  subst hkk
  rcases hcase with ⟨b, x, a, hs, rfl⟩ | ⟨hs, rfl⟩
  · exact ⟨_, ⟨b, a, search_next_replace_found hs (same_label_setContent x _)⟩,
      xmlNodeSetContent_twice x _, xmlNodeGetContent_setContent _ _⟩
  · refine ⟨xmlNodeSetContent (xmlNewProp (xmlNewNode e.name) ATTR_KEY k) (xmlNodeGetContent e),
      ⟨sibs, [], search_next_none_append [] hs rfl ?_⟩, rfl,
      xmlNodeGetContent_setContent (xmlNewProp (xmlNewNode e.name) ATTR_KEY k) _⟩
    apply search_visit_of_has_tag_prop
    apply has_tag_prop_iff.mpr
    exact ⟨rfl, by simp [xmlNodeSetContent, xmlNewProp, xmlNewNode, xmlGetProp]⟩

/-- The loop over scalars of the overlay, run on the chain it has left, leaves
that chain as it is. -/
theorem parse_overlay_siblings_twice (f : List XmlNode) :
    ∀ (sibs chain : List XmlNode),
      (∀ e ∈ f, e.isElement = true →
        e.name = TAG_STRING ∨ e.name = TAG_INT ∨ e.name = TAG_BOOL) →
      parse_overlay_siblings f sibs = .ok chain →
      parse_overlay_siblings f chain = .ok chain := by
  induction f with
  | nil =>
    intro sibs chain _ _
    rw [parse_overlay_siblings]
  | cons e f1 ih =>
    intro sibs chain hsc h
    have hsc1 : ∀ e ∈ f1, e.isElement = true →
        e.name = TAG_STRING ∨ e.name = TAG_INT ∨ e.name = TAG_BOOL :=
      fun e he => hsc e (List.mem_cons_of_mem _ he)
    rw [parse_overlay_siblings_cons] at h ⊢
    cases hst : overlay_step e f1 sibs with
    | error err => rw [hst] at h; cases h
    | ok s =>
      rw [hst] at h
      simp only [] at h
      have hfix := ih s chain hsc1 h
      by_cases he : e.isElement = true
      · have het := hsc e (List.mem_cons_self _ _) he
        obtain ⟨k, hk, _, _⟩ := overlay_step_scalar_ok he het hst
        obtain ⟨xs, hfs, hxsv, _⟩ := overlay_step_scalar_sets he het hk hst
        by_cases hex : ∃ g ∈ f1, has_tag_prop e.name ATTR_KEY k g = true
        · obtain ⟨x1, ⟨b1, a1, hs1⟩, hl1, _⟩ := parse_overlay_siblings_tracks f1 s chain h hfs
          obtain ⟨hsplit, hx1e, hx1v, hb1⟩ := search_next_some_iff.mp hs1
          have hne : chain ≠ [] := by rw [hsplit]; simp
          rw [overlay_step_scalar f1 chain he het hk hne, hs1]
          simp only []
          apply parse_overlay_siblings_absorbs f1 b1 x1 _ a1 chain hsc1 (label_setContent x1 _)
            (has_tag_prop_of_search_visit hx1v)
            (fun y hy => not_has_tag_prop_of_passed (hb1 y hy)) hex
          rw [← hsplit]
          exact hfix
        · have hnone : ∀ g ∈ f1, has_tag_prop e.name ATTR_KEY k g = false := by
            intro g hg
            cases hp : has_tag_prop e.name ATTR_KEY k g with
            | false => rfl
            | true => exact absurd ⟨g, hg, hp⟩ hex
          obtain ⟨b1, a1, hs1⟩ := parse_overlay_siblings_scalar_keeps f1 s chain hsc1 h hnone hfs
          obtain ⟨hsplit, _⟩ := search_next_some_iff.mp hs1
          have hne : chain ≠ [] := by rw [hsplit]; simp
          rw [overlay_step_scalar f1 chain he het hk hne, hs1]
          simp only []
          rw [hxsv, ← hsplit]
          exact hfix
      · simp only [Bool.not_eq_true] at he
        rw [overlay_step_blank f1 chain he]
        exact hfix

/-- The loop over scalars of the overlay of which `os` is the last that bears the
tag `t` and the key `k`: the search of them in the chain the loop leaves finds a
node with the content of `os`. -/
theorem parse_overlay_siblings_scalar_last {t k : String} {os : XmlNode}
    (pre post : List XmlNode) (sibs chain : List XmlNode)
    (hsc : ∀ e ∈ pre ++ os :: post, e.isElement = true →
      e.name = TAG_STRING ∨ e.name = TAG_INT ∨ e.name = TAG_BOOL)
    (h : parse_overlay_siblings (pre ++ os :: post) sibs = .ok chain)
    (hos : has_tag_prop t ATTR_KEY k os = true)
    (hplain : '&' ∉ (xmlNodeGetContent os).toList)
    (hpost : ∀ e ∈ post, has_tag_prop t ATTR_KEY k e = false) :
    ∃ x, search_finds t ATTR_KEY k chain x ∧
      xmlNodeGetContent x = xmlNodeGetContent os := by
  induction pre generalizing sibs with
  | nil =>
    simp only [List.nil_append] at h hsc
    rw [parse_overlay_siblings_cons] at h
    cases hst : overlay_step os post sibs with
    | error err => rw [hst] at h; cases h
    | ok sibs1 =>
      rw [hst] at h
      obtain ⟨hn, hp⟩ := has_tag_prop_iff.mp hos
      obtain ⟨x, hf, _, hc⟩ := overlay_step_scalar_sets (has_tag_prop_isElement hos)
        (hsc os (List.mem_cons_self _ _) (has_tag_prop_isElement hos)) hp hst
      rw [hn] at hf
      exact ⟨x, parse_overlay_siblings_scalar_keeps post sibs1 chain
        (fun y hy => hsc y (List.mem_cons_of_mem _ hy)) h hpost hf, hc hplain⟩
  | cons e pre1 ih =>
    simp only [List.cons_append] at h hsc
    rw [parse_overlay_siblings_cons] at h
    cases hst : overlay_step e (pre1 ++ os :: post) sibs with
    | error err => rw [hst] at h; cases h
    | ok sibs1 =>
      rw [hst] at h
      exact ih sibs1 (fun y hy => hsc y (List.mem_cons_of_mem _ hy)) h

/-- One turn of the loop at a scalar of the overlay leaves the number of scalars
of a tag and a key as it is, or makes it one where it was zero. -/
theorem overlay_step_scalar_count {t k : String} {e : XmlNode} {f sibs sibs1 : List XmlNode}
    (hsc : e.isElement = true → e.name = TAG_STRING ∨ e.name = TAG_INT ∨ e.name = TAG_BOOL)
    (h : overlay_step e f sibs = .ok sibs1) :
    sibs1.countP (has_tag_prop t ATTR_KEY k) = sibs.countP (has_tag_prop t ATTR_KEY k) ∨
      (sibs.countP (has_tag_prop t ATTR_KEY k) = 0 ∧
        sibs1.countP (has_tag_prop t ATTR_KEY k) = 1) := by
  by_cases he : e.isElement = true
  · obtain ⟨ke, hke, _, hcase⟩ := overlay_step_scalar_ok he (hsc he) h
    rcases hcase with ⟨b, d, a, hs, rfl⟩ | ⟨hs, rfl⟩
    · obtain ⟨hsplit, _, _⟩ := search_next_split hs
      left
      rw [hsplit]
      simp only [List.countP_append, List.countP_cons,
        has_tag_prop_congr (same_label_setContent d (xmlNodeGetContent e))]
    · cases hp : has_tag_prop t ATTR_KEY k (xmlNodeSetContent (xmlNewProp (xmlNewNode e.name) ATTR_KEY ke) (xmlNodeGetContent e)) with
      | false =>
        left
        simp [List.countP_append, List.countP_cons, hp]
      | true =>
        right
        obtain ⟨h1, h2⟩ := has_tag_prop_iff.mp hp
        have hn : e.name = t := h1
        have hkk : ke = k := by
          simpa [xmlNodeSetContent, xmlNewProp, xmlNewNode, xmlGetProp] using h2
        rw [hn, hkk] at hs
        have hzero : sibs.countP (has_tag_prop t ATTR_KEY k) = 0 := by
          rw [List.countP_eq_zero]
          intro y hy
          rw [search_next_none_no_match hs y hy]
          decide
        refine ⟨hzero, ?_⟩
        simp [List.countP_append, List.countP_cons, hp, hzero]
  · simp only [Bool.not_eq_true] at he
    rw [overlay_step_blank f sibs he] at h
    simp only [Except.ok.injEq] at h
    left
    rw [h]

/-- The loop over scalars of the overlay leaves the number of scalars of a tag and
a key as it is, or makes it one where it was zero. -/
theorem parse_overlay_siblings_scalar_count {t k : String} (f : List XmlNode) :
    ∀ (sibs chain : List XmlNode),
      (∀ e ∈ f, e.isElement = true →
        e.name = TAG_STRING ∨ e.name = TAG_INT ∨ e.name = TAG_BOOL) →
      parse_overlay_siblings f sibs = .ok chain →
      chain.countP (has_tag_prop t ATTR_KEY k) = sibs.countP (has_tag_prop t ATTR_KEY k) ∨
        (sibs.countP (has_tag_prop t ATTR_KEY k) = 0 ∧
          chain.countP (has_tag_prop t ATTR_KEY k) = 1) := by
  induction f with
  | nil =>
    intro sibs chain _ h
    rw [parse_overlay_siblings] at h
    simp only [Except.ok.injEq] at h
    left
    rw [h]
  | cons e f1 ih =>
    intro sibs chain hsc h
    rw [parse_overlay_siblings_cons] at h
    cases hst : overlay_step e f1 sibs with
    | error err => rw [hst] at h; cases h
    | ok s =>
      rw [hst] at h
      simp only [] at h
      have h2 := ih s chain (fun y hy => hsc y (List.mem_cons_of_mem _ hy)) h
      have h1 : s.countP (has_tag_prop t ATTR_KEY k) =
          sibs.countP (has_tag_prop t ATTR_KEY k) ∨
          (sibs.countP (has_tag_prop t ATTR_KEY k) = 0 ∧
            s.countP (has_tag_prop t ATTR_KEY k) = 1) :=
        overlay_step_scalar_count (hsc e (List.mem_cons_self _ _)) hst
      omega

/-- The parts of a merge that completes. -/
theorem parse_overlay_group_parts {overlay d d1 : XmlNode}
    (h : parse_overlay_group overlay d = .ok d1) :
    ∃ tag attrs o0 following dn da c0 crest r rs chain,
      overlay = .element tag attrs (o0 :: following) ∧ d = .element dn da (c0 :: crest) ∧
      crest.dropWhile (fun n => !n.isElement) = r :: rs ∧
      parse_overlay_siblings following (r :: rs) = .ok chain ∧
      d1 = .element dn da (c0 :: (crest.takeWhile (fun n => !n.isElement) ++ chain)) := by
  have hnever : ∀ r : Except Fault (List XmlNode),
      (match r with
        | .error e => (Except.error e : Except Fault XmlNode)
        | .ok [] => .error .assertion
        | .ok _ => .error .null_deref) ≠ .ok d1 := by
    intro r
    cases r with
    | error e => simp
    | ok l => cases l <;> simp
  cases overlay with
  | text s =>
    rw [parse_overlay_group] at h
    · exact absurd h (hnever _)
    · intro _ _ _ _ e; cases e
  | comment s =>
    rw [parse_overlay_group] at h
    · exact absurd h (hnever _)
    · intro _ _ _ _ e; cases e
  | element tag attrs cs =>
    cases cs with
    | nil =>
      rw [parse_overlay_group] at h
      · exact absurd h (hnever _)
      · intro _ _ _ _ e; cases e
    | cons o0 following =>
      rw [parse_overlay_group] at h
      cases d with
      | text s => simp [XmlNode.children, next_node] at h
      | comment s => simp [XmlNode.children, next_node] at h
      | element dn da dcs =>
        cases dcs with
        | nil => simp [XmlNode.children, next_node] at h
        | cons c0 crest =>
          simp only [XmlNode.children, next_node] at h
          cases hd : crest.dropWhile (fun n => !n.isElement) with
          | nil => rw [hd] at h; simp at h
          | cons r rs =>
            rw [hd] at h
            simp only [] at h
            cases hp : parse_overlay_siblings following (r :: rs) with
            | error e => rw [hp] at h; simp at h
            | ok chain =>
              rw [hp] at h
              simp only [Except.ok.injEq, passed_over, XmlNode.setChildren] at h
              exact ⟨tag, attrs, o0, following, dn, da, c0, crest, r, rs, chain, rfl, rfl, hd,
                hp, by rw [← h]; rfl⟩

/-- The chain the loop leaves starts with an element when the chain it was given
does. -/
theorem parse_overlay_siblings_head {following rs chain : List XmlNode} {r : XmlNode}
    (h : parse_overlay_siblings following (r :: rs) = .ok chain) (hr : r.isElement = true) :
    ∃ r1 rs1, chain = r1 :: rs1 ∧ r1.isElement = true := by
  obtain ⟨extra, hl⟩ := parse_overlay_siblings_labels following _ chain h
  cases chain with
  | nil => simp at hl
  | cons r1 rs1 =>
    simp only [List.map_cons, List.cons_append, List.cons.injEq] at hl
    exact ⟨r1, rs1, rfl, by rw [isElement_of_label hl.1]; exact hr⟩

theorem takeWhile_takeWhile_append_element (l : List XmlNode) {x : XmlNode}
    (after : List XmlNode) (hx : x.isElement = true) :
    (l.takeWhile (fun n => !n.isElement) ++ x :: after).takeWhile (fun n => !n.isElement) =
      l.takeWhile (fun n => !n.isElement) := by
  induction l with
  | nil => simp [List.takeWhile, hx]
  | cons n rest ih =>
    by_cases hn : n.isElement = true
    · simp [List.takeWhile, hn, hx]
    · simp only [Bool.not_eq_true] at hn
      simp only [List.takeWhile, hn, Bool.not_false, List.cons_append, List.cons.injEq, true_and]
      exact ih

/-- The merge of an overlay whose elements are scalars into the destination it has
left gives that destination. -/
theorem parse_overlay_group_twice {overlay d d1 : XmlNode}
    (hsc : ∀ e ∈ overlay.children, e.isElement = true →
      e.name = TAG_STRING ∨ e.name = TAG_INT ∨ e.name = TAG_BOOL)
    (h : parse_overlay_group overlay d = .ok d1) : parse_overlay_group overlay d1 = .ok d1 := by
  obtain ⟨tag, attrs, o0, following, dn, da, c0, crest, r, rs, chain, rfl, rfl, hd, hloop,
    rfl⟩ := parse_overlay_group_parts h
  have hsc1 : ∀ e ∈ following, e.isElement = true →
      e.name = TAG_STRING ∨ e.name = TAG_INT ∨ e.name = TAG_BOOL :=
    fun e he => hsc e (List.mem_cons_of_mem _ he)
  obtain ⟨r1, rs1, rfl, hr1⟩ := parse_overlay_siblings_head hloop (head_dropWhile_isElement hd)
  have hfix := parse_overlay_siblings_twice following _ _ hsc1 hloop
  have hdrop : (crest.takeWhile (fun n => !n.isElement) ++ r1 :: rs1).dropWhile
      (fun n => !n.isElement) = r1 :: rs1 := by
    rw [dropWhile_takeWhile_append]
    simp [List.dropWhile, hr1]
  have hrest : elements (crest.takeWhile (fun n => !n.isElement) ++ r1 :: rs1) ≠ [] := by
    intro e
    have hnil := (dropWhile_eq_nil_iff_elements _).mpr e
    rw [hdrop] at hnil
    cases hnil
  rw [parse_overlay_group_frame_general tag attrs o0 following dn da c0 _ hrest, hdrop, hfix]
  simp only []
  rw [takeWhile_takeWhile_append_element crest rs1 hr1]

/-- Merging an overlay of scalars twice.  For every overlay whose element children
are all scalars and every destination, merging the overlay into what its merge into
the destination has given gives that same tree, and a merge that fails leaves
nothing to merge into; a merge that completes leaves, of each tag and key, as many
scalars under the destination as there were, or one more; and when the overlay
repeats a tag and a key and the last scalar that bears them has a content without
`&`, the search of them under the merged destination finds a scalar that has this
content. -/
theorem merge_of_scalars_idempotent (overlay d : XmlNode)
    (hscalars : ∀ e ∈ overlay.children, e.isElement = true →
      e.name = TAG_STRING ∨ e.name = TAG_INT ∨ e.name = TAG_BOOL) :
    (parse_overlay_group overlay d).bind (parse_overlay_group overlay) =
      parse_overlay_group overlay d ∧
    ∀ d1, parse_overlay_group overlay d = .ok d1 →
      (∀ t k, d1.children.countP (has_tag_prop t ATTR_KEY k) =
          d.children.countP (has_tag_prop t ATTR_KEY k) ∨
        d1.children.countP (has_tag_prop t ATTR_KEY k) =
          d.children.countP (has_tag_prop t ATTR_KEY k) + 1) ∧
      (∀ t k pre os post, overlay.children = pre ++ os :: post →
        (∃ e ∈ pre, has_tag_prop t ATTR_KEY k e = true) →
        has_tag_prop t ATTR_KEY k os = true →
        '&' ∉ (xmlNodeGetContent os).toList →
        (∀ e ∈ post, has_tag_prop t ATTR_KEY k e = false) →
        ∃ chain b x a, next_node d1.children = .ok chain ∧
          search_node chain t ATTR_KEY k = .ok (some (b, x, a)) ∧
          xmlNodeGetContent x = xmlNodeGetContent os) := by
  constructor
  · cases h : parse_overlay_group overlay d with
    | error e => rfl
    | ok d1 => exact parse_overlay_group_twice hscalars h
  · intro d1 h
    obtain ⟨tag, attrs, o0, following, dn, da, c0, crest, r, rs, chain, rfl, rfl, hd, hloop,
      rfl⟩ := parse_overlay_group_parts h
    have hsc1 : ∀ e ∈ following, e.isElement = true →
        e.name = TAG_STRING ∨ e.name = TAG_INT ∨ e.name = TAG_BOOL :=
      fun e he => hscalars e (List.mem_cons_of_mem _ he)
    obtain ⟨r1, rs1, rfl, hr1⟩ :=
      parse_overlay_siblings_head hloop (head_dropWhile_isElement hd)
    constructor
    · intro t k
      have hcount : (r1 :: rs1).countP (has_tag_prop t ATTR_KEY k) =
          (r :: rs).countP (has_tag_prop t ATTR_KEY k) ∨
          ((r :: rs).countP (has_tag_prop t ATTR_KEY k) = 0 ∧
            (r1 :: rs1).countP (has_tag_prop t ATTR_KEY k) = 1) :=
        parse_overlay_siblings_scalar_count following _ _ hsc1 hloop
      have hc : crest.countP (has_tag_prop t ATTR_KEY k) =
          (crest.takeWhile (fun n => !n.isElement)).countP (has_tag_prop t ATTR_KEY k) +
            (r :: rs).countP (has_tag_prop t ATTR_KEY k) := by
        rw [← List.countP_append, ← hd, List.takeWhile_append_dropWhile]
      simp only [children_element, List.countP_cons, List.countP_append, hc] at hcount ⊢
      omega
    · intro t k pre os post hov hrep hos hplain hpost
      simp only [children_element] at hov
      obtain ⟨e0, he0, _⟩ := hrep
      cases pre with
      | nil => cases he0
      | cons p0 pre1 =>
        simp only [List.cons_append, List.cons.injEq] at hov
        obtain ⟨_, hfollowing⟩ := hov
        rw [hfollowing] at hloop hsc1
        obtain ⟨x, ⟨b, a, hfind⟩, hcontent⟩ :=
          parse_overlay_siblings_scalar_last pre1 post _ _ hsc1 hloop hos hplain hpost
        have hose := has_tag_prop_isElement hos
        have hname := (has_tag_prop_iff.mp hos).1
        have htx : t ≠ "text" ∧ t ≠ "comment" := by
          have := hsc1 os (List.mem_append_right _ (List.mem_cons_self _ _)) hose
          rw [hname] at this
          rcases this with h1 | h1 | h1 <;> rw [h1] <;> exact ⟨by decide, by decide⟩
        refine ⟨r1 :: rs1, b, x, a, ?_, ?_, hcontent⟩
        · simp only [children_element, next_node]
          rw [dropWhile_takeWhile_append]
          simp [List.dropWhile, hr1]
        · rw [search_node_eq_next htx (List.cons_ne_nil _ _)]
          exact hfind

/-- The overlay that sets `a` and brings `n` twice, with the contents 5 and 6,
merged into the group of `a` and `b`: the merge gives `a` = 7 and adds one `n`, the
second merge gives the same group, and the search of `n` under it finds the
content 6. -/
theorem merge_of_scalars_idempotent_witness :
    parse_overlay_group overlay_repeated_key spaced_scalars = .ok merged_repeated_key ∧
      (parse_overlay_group overlay_repeated_key spaced_scalars).bind
        (parse_overlay_group overlay_repeated_key) = .ok merged_repeated_key ∧
      (merged_repeated_key.children.countP (has_tag_prop "int" ATTR_KEY "n") =
          spaced_scalars.children.countP (has_tag_prop "int" ATTR_KEY "n") ∨
        merged_repeated_key.children.countP (has_tag_prop "int" ATTR_KEY "n") =
          spaced_scalars.children.countP (has_tag_prop "int" ATTR_KEY "n") + 1) ∧
      ∃ chain b x a, next_node merged_repeated_key.children = .ok chain ∧
        search_node chain "int" ATTR_KEY "n" = .ok (some (b, x, a)) ∧
        xmlNodeGetContent x = xmlNodeGetContent (mkScalar "int" "n" "6") :=
  ⟨rfl,
    (merge_of_scalars_idempotent overlay_repeated_key spaced_scalars (by decide)).1.trans rfl,
    ((merge_of_scalars_idempotent overlay_repeated_key spaced_scalars (by decide)).2
      merged_repeated_key rfl).1 "int" "n",
    ((merge_of_scalars_idempotent overlay_repeated_key spaced_scalars (by decide)).2
      merged_repeated_key rfl).2 "int" "n"
      [ws, mkScalar "int" "a" "7", ws, mkScalar "int" "n" "5", ws] (mkScalar "int" "n" "6") [ws]
      rfl
      ⟨mkScalar "int" "n" "5", List.mem_cons_of_mem _ (List.mem_cons_of_mem _
        (List.mem_cons_of_mem _ (List.mem_cons_self _ _))), rfl⟩
      rfl (by decide) (by decide)⟩

/-- C31 (code at a failing input): the overlay brings the `string` of key `n`
twice, with the contents "lab" and "R&D", and is merged into a group that has no
such scalar.  The merge adds one scalar `n`, and merging again gives the same group:
so far the claim holds.  But the last content does not win: `xmlNodeSetContent`
reads "R&D" as XML content, finds an entity reference that does not end, and leaves
the scalar without any content, so that the search of `n` under the merged group
finds an empty scalar.  When the last content is "R&amp;D" the scalar gets "R&D".
The same scalar brought inside a new group, which is copied, keeps its content. -/
theorem merge_of_repeated_scalar_loses_content :
    parse_overlay_group overlay_repeated_amp spaced_scalars = .ok merged_repeated_amp ∧
      parse_overlay_group overlay_repeated_amp merged_repeated_amp = .ok merged_repeated_amp ∧
      (∃ chain b a, next_node merged_repeated_amp.children = .ok chain ∧
        search_node chain "string" ATTR_KEY "n" = .ok (some (b, mkScalar "string" "n" "", a))) ∧
      xmlNodeGetContent (mkScalar "string" "n" "R&D") = "R&D" ∧
      xmlNodeGetContent (mkScalar "string" "n" "") = "" ∧
      xmlNodeGetContent (xmlNodeSetContent (mkScalar "string" "n" "lab") "R&amp;D") = "R&D" ∧
      parse_overlay_group overlay_group_amp spaced_scalars =
        .ok (mkGroup "hal" (indent [mkScalar "int" "a" "1", mkScalar "int" "b" "2"] ++
          [mkGroup "g" (indent [mkScalar "string" "n" "R&D"]), ws])) :=
  ⟨rfl, rfl, ⟨_, _, _, rfl, rfl⟩, rfl, rfl, rfl, rfl⟩

end Tcs
